import Mathlib

/-!
# mc: the open-addressing hash table of `mc_ht.h`

A shallow embedding of `src/src/mc_ht.h` (and of the driver `src/src/main.c`).

Modelling decisions, each visible in the definitions below.

* `void *` is `Option α`: `none` is `NULL`, `some a` a valid reference to `a`.
  Keys are `Option K`, values are `Option V`; the comparison and hash callbacks
  receive the pointers themselves, as in C.
* The slot array `buf` is a `List` of nodes.  A pointer to a node
  (`_mc_ht_node *`) is the index of the node in `buf`.  Reading `buf[index]`
  goes through the `Option`-returning lookup `buf[index]?`; an index outside
  the array is the fault `out_of_bounds`.
* `x % cap` with `cap = 0` is the fault `div_by_zero`.
* The two `while` loops of the source have no bound of their own.  They are
  modelled with a fuel argument; the fuel supplied is `cap`, the number of
  slots.  The probe sequence `index, index + 1, ...` (mod `cap`) has period
  `cap`, so a loop that has not stopped after `cap` tests never stops
  (`probe_fuel_adequate` below); running out of fuel is the fault
  `no_termination`.
* `size_t` is `Nat`.  `size`, `index + 1` and `cap * 2` stay far below `2^64`
  for any table whose slot array fits in memory (a table of `cap` slots
  occupies `cap * sizeof(_mc_ht_node)` bytes), so no wrap-around is modelled
  for them; `mc_djb2`, whose arithmetic does wrap, is reduced modulo `2^64`.
* `calloc`/`malloc` are assumed to succeed, except in the definitions of the
  section on allocation that may fail, which take the results of the two
  allocations of `_mc_ht_new` as inputs.
-/

namespace MC

/-- Ways in which a call of the C code fails to produce a result. -/
inductive Fault where
  | div_by_zero
  | out_of_bounds
  | no_termination
  deriving DecidableEq

/-- The struct `_mc_ht_node` (mc_ht.h:24-29). -/
structure _mc_ht_node (K V : Type) where
  key : Option K
  _occupied : Bool
  _deleted : Bool
  value : Option V
  deriving DecidableEq

/-- The enum `mc_ht_delete_result_type` (mc_ht.h:31-34). -/
inductive mc_ht_delete_result_type where
  | DELETE_NOT_FOUND
  | DELETE_MEM_RESULT
  deriving DecidableEq

/-- The struct `mc_ht_delete_result` (mc_ht.h:36-40). -/
structure mc_ht_delete_result (K V : Type) where
  type : mc_ht_delete_result_type
  key : Option K
  value : Option V
  deriving DecidableEq

/-- The struct `_mc_ht`, the inner hashtable memory (mc_ht.h:43-51). -/
structure _mc_ht (K V : Type) where
  compare_fn : Option K → Option K → Bool
  hash_fn : Option K → Nat
  cap : Nat
  size : Nat
  buf : List (_mc_ht_node K V)

/-- The struct `mc_hashtable`, the user facing handle (mc_ht.h:111-113). -/
structure mc_hashtable (K V : Type) where
  _table : _mc_ht K V

variable {K V : Type}

/-- A slot as `calloc` leaves it: all fields zero. -/
def zero_node : _mc_ht_node K V :=
  { key := none, _occupied := false, _deleted := false, value := none }

/-- The function `_mc_ht_new` (mc_ht.h:53-64): `cap` zeroed slots, `size = 0`. -/
def _mc_ht_new (cap : Nat) (cmp_fn : Option K → Option K → Bool) (hash_fn : Option K → Nat) :
    _mc_ht K V :=
  { compare_fn := cmp_fn, hash_fn := hash_fn, cap := cap, size := 0,
    buf := List.replicate cap zero_node }

/-- The `while` loop of `_mc_ht_insert` (mc_ht.h:78-83): advance while the node is
occupied by a key that does not compare equal.  Returns the index of the node at
which the loop stops. -/
def _mc_ht_insert_loop (table : _mc_ht K V) (key : Option K) : Nat → Nat → Except Fault Nat
  | 0, _ => .error .no_termination
  | fuel + 1, index =>
    match table.buf[index]? with
    | none => .error .out_of_bounds
    | some node =>
      if (node._occupied == true && table.compare_fn node.key key != true) = true then
        _mc_ht_insert_loop table key fuel ((index + 1) % table.cap)
      else
        .ok index

/-- The function `_mc_ht_insert` (mc_ht.h:71-91).  The node the loop stops at gets
`key`, `value` and `_occupied = true`; its `_deleted` field is not written.
`size` is incremented. -/
def _mc_ht_insert (table : _mc_ht K V) (key : Option K) (value : Option V) :
    Except Fault (_mc_ht K V) :=
  if table.cap = 0 then .error .div_by_zero
  else
    match _mc_ht_insert_loop table key table.cap (table.hash_fn key % table.cap) with
    | .error e => .error e
    | .ok index =>
      match table.buf[index]? with
      | none => .error .out_of_bounds
      | some node =>
        .ok { table with
              buf := table.buf.set index { node with key := key, value := value, _occupied := true },
              size := table.size + 1 }

/-- The `while` loop of `_mc_ht_get` (mc_ht.h:97-105): advance while the node is
occupied by a key that does not compare equal, or is marked deleted. -/
def _mc_ht_get_loop (table : _mc_ht K V) (key : Option K) : Nat → Nat → Except Fault Nat
  | 0, _ => .error .no_termination
  | fuel + 1, index =>
    match table.buf[index]? with
    | none => .error .out_of_bounds
    | some node =>
      if ((node._occupied && table.compare_fn node.key key != true) || node._deleted) = true then
        _mc_ht_get_loop table key fuel ((index + 1) % table.cap)
      else
        .ok index

/-- The function `_mc_ht_get` (mc_ht.h:93-108); the returned node pointer is the
index of the node. -/
def _mc_ht_get (table : _mc_ht K V) (key : Option K) : Except Fault Nat :=
  if table.cap = 0 then .error .div_by_zero
  else _mc_ht_get_loop table key table.cap (table.hash_fn key % table.cap)

/-- The function `mc_hashtable_new` (mc_ht.h:115-120). -/
def mc_hashtable_new (cap : Nat) (cmp_fn : Option K → Option K → Bool)
    (hash_fn : Option K → Nat) : mc_hashtable K V :=
  { _table := _mc_ht_new cap cmp_fn hash_fn }

/-- The function `mc_hashtable_get` (mc_ht.h:122-130): the value of the node the
lookup stops at when that node is occupied, `NULL` otherwise. -/
def mc_hashtable_get (table : mc_hashtable K V) (key : Option K) : Except Fault (Option V) :=
  match _mc_ht_get table._table key with
  | .error e => .error e
  | .ok index =>
    match table._table.buf[index]? with
    | none => .error .out_of_bounds
    | some node => if node._occupied = true then .ok node.value else .ok none

/-- The `for` loop of `mc_hashtable_insert` (mc_ht.h:148-154), with `n` iterations
left and loop variable `i`: every occupied node of the old table is inserted into
the new table. -/
def rehash_loop (old : _mc_ht K V) : Nat → Nat → _mc_ht K V → Except Fault (_mc_ht K V)
  | 0, _, new_table => .ok new_table
  | n + 1, i, new_table =>
    match old.buf[i]? with
    | none => .error .out_of_bounds
    | some node =>
      if node._occupied = true then
        match _mc_ht_insert new_table node.key node.value with
        | .error e => .error e
        | .ok new_table1 => rehash_loop old n (i + 1) new_table1
      else
        rehash_loop old n (i + 1) new_table

/-- The function `mc_hashtable_insert` (mc_ht.h:132-160), allocation succeeding.
Returns the status (always `0` here) and the handle after the call. -/
def mc_hashtable_insert (table : mc_hashtable K V) (key : Option K) (value : Option V) :
    Except Fault (Int × mc_hashtable K V) :=
  match _mc_ht_insert table._table key value with
  | .error e => .error e
  | .ok t =>
    if t.size < t.cap / 2 then
      .ok (0, { _table := t })
    else
      match rehash_loop t t.cap 0 (_mc_ht_new (t.cap * 2) t.compare_fn t.hash_fn) with
      | .error e => .error e
      | .ok new_table => .ok (0, { _table := new_table })

/-- The function `mc_hashtable_delete` (mc_ht.h:166-188).  Returns the result struct
and the handle after the call. -/
def mc_hashtable_delete (table : mc_hashtable K V) (key : Option K) :
    Except Fault (mc_ht_delete_result K V × mc_hashtable K V) :=
  match _mc_ht_get table._table key with
  | .error e => .error e
  | .ok index =>
    match table._table.buf[index]? with
    | none => .error .out_of_bounds
    | some node =>
      if node._occupied = false then
        .ok ({ type := .DELETE_NOT_FOUND, key := none, value := none }, table)
      else
        .ok ({ type := .DELETE_MEM_RESULT, key := node.key, value := node.value },
             { _table := { table._table with
                 buf := table._table.buf.set index
                   { node with _deleted := true, _occupied := false, key := none } } })

/-- The function `mc_djb2` (mc_ht.h:191-200) on the characters of a C string:
`hash = hash * 33 + c`, in `size_t` arithmetic (64 bits).  `NULL` is not a valid
argument of the C function (it is dereferenced); the model gives it `0`. -/
def mc_djb2 : Option (List Nat) → Nat
  | none => 0
  | some str => str.foldl (fun hash c => (((hash * 2 ^ 5) % 2 ^ 64 + hash) % 2 ^ 64 + c) % 2 ^ 64) 5381

/-- The function `compare_strings` of the driver (main.c:8-10): `strcmp(..) == 0`.
`NULL` is not a valid argument of `strcmp`; the model answers `false`. -/
def compare_strings : Option (List Nat) → Option (List Nat) → Bool
  | some str1, some str2 => str1 == str2
  | _, _ => false

/-- A mutating call of the public interface, with its arguments. -/
inductive Call (K V : Type) where
  | insert (key : Option K) (value : Option V)
  | delete (key : Option K)

/-- The handle after one call (the returned status or result struct is dropped). -/
def Call.run (c : Call K V) (table : mc_hashtable K V) : Except Fault (mc_hashtable K V) :=
  match c with
  | .insert key value =>
    match mc_hashtable_insert table key value with
    | .error e => .error e
    | .ok r => .ok r.2
  | .delete key =>
    match mc_hashtable_delete table key with
    | .error e => .error e
    | .ok r => .ok r.2

/-- The handle after a sequence of calls, made in list order. -/
def run_calls : List (Call K V) → mc_hashtable K V → Except Fault (mc_hashtable K V)
  | [], table => .ok table
  | c :: cs, table =>
    match c.run table with
    | .error e => .error e
    | .ok table1 => run_calls cs table1

/-- The handles a program can hold: `mc_hashtable_new` with `cap >= 1`, followed by
any finite sequence of `mc_hashtable_insert`, `mc_hashtable_delete` and
`mc_hashtable_get` calls that return. -/
inductive Reachable (cmp_fn : Option K → Option K → Bool) (hash_fn : Option K → Nat) :
    mc_hashtable K V → Prop where
  | new (cap : Nat) (hcap : 1 ≤ cap) : Reachable cmp_fn hash_fn (mc_hashtable_new cap cmp_fn hash_fn)
  | insert {table table1 : mc_hashtable K V} {status : Int} (key : Option K) (value : Option V) :
      Reachable cmp_fn hash_fn table →
      mc_hashtable_insert table key value = .ok (status, table1) →
      Reachable cmp_fn hash_fn table1
  | delete {table table1 : mc_hashtable K V} {res : mc_ht_delete_result K V} (key : Option K) :
      Reachable cmp_fn hash_fn table →
      mc_hashtable_delete table key = .ok (res, table1) →
      Reachable cmp_fn hash_fn table1
  | get {table : mc_hashtable K V} {res : Option V} (key : Option K) :
      Reachable cmp_fn hash_fn table →
      mc_hashtable_get table key = .ok res →
      Reachable cmp_fn hash_fn table

/-! ## Linear probing

Both `while` loops walk the same probe sequence and differ only in the condition
under which they advance; `probe` is that walk for an arbitrary condition. -/

/-- Linear probing with wrap-around: advance while `cont` holds of the node. -/
def probe (cont : _mc_ht_node K V → Bool) (buf : List (_mc_ht_node K V)) (cap : Nat) :
    Nat → Nat → Except Fault Nat
  | 0, _ => .error .no_termination
  | fuel + 1, index =>
    match buf[index]? with
    | none => .error .out_of_bounds
    | some node =>
      if cont node = true then probe cont buf cap fuel ((index + 1) % cap) else .ok index

/-- The condition under which the loop of `_mc_ht_insert` advances. -/
def insert_cont (table : _mc_ht K V) (key : Option K) (node : _mc_ht_node K V) : Bool :=
  node._occupied == true && table.compare_fn node.key key != true

/-- The condition under which the loop of `_mc_ht_get` advances. -/
def get_cont (table : _mc_ht K V) (key : Option K) (node : _mc_ht_node K V) : Bool :=
  (node._occupied && table.compare_fn node.key key != true) || node._deleted

/-- A slot that was never used: neither occupied nor deleted. -/
def never_used (node : _mc_ht_node K V) : Bool :=
  !node._occupied && !node._deleted

/-- A slot that is or was in use: occupied or deleted. -/
def in_use (node : _mc_ht_node K V) : Bool :=
  node._occupied || node._deleted

/-- The number of slots that are or were in use. -/
def used (buf : List (_mc_ht_node K V)) : Nat :=
  buf.countP in_use

/-- The invariant of a table between two public calls. -/
structure AtRest (table : _mc_ht K V) : Prop where
  len : table.buf.length = table.cap
  pos : 1 ≤ table.cap
  used_le : used table.buf ≤ table.size
  size_le : table.size ≤ table.cap / 2


/-! ## Concrete callbacks and inputs used to run the code -/

/-- A hash callback on references to naturals: the number itself. -/
def nat_hash : Option Nat → Nat
  | none => 0
  | some n => n

/-- A comparison callback on references to naturals: equality. -/
def nat_eq : Option Nat → Option Nat → Bool :=
  fun a b => a == b

/-- What `mc_hashtable_get` returns for `key` after the calls `calls`. -/
def get_after (calls : List (Call K V)) (table : mc_hashtable K V) (key : Option K) :
    Except Fault (Option V) :=
  match run_calls calls table with
  | .error e => .error e
  | .ok table1 => mc_hashtable_get table1 key

/-- A C string literal: a valid reference to its characters. -/
def c_string (s : String) : Option (List Nat) :=
  some (s.toList.map Char.toNat)

/-- The calls that build `demo_table`: two keys with the same start index in a table
of 8 slots, the first of them deleted again. -/
def demo_calls : List (Call Nat Nat) :=
  [.insert (some 1) (some 10), .insert (some 9) (some 20), .delete (some 1)]

/-- The table `demo_calls` leaves: slot 1 deleted, slot 2 occupied by key 9, the
other six slots never used. -/
def demo_table : mc_hashtable Nat Nat :=
  { _table :=
    { compare_fn := nat_eq, hash_fn := nat_hash, cap := 8, size := 2,
      buf := [zero_node,
              { key := none, _occupied := false, _deleted := true, value := some 10 },
              { key := some 9, _occupied := true, _deleted := false, value := some 20 },
              zero_node, zero_node, zero_node, zero_node, zero_node] } }

/-- What `mc_hashtable_delete` returns for `key` after the calls `calls`. -/
def delete_after (calls : List (Call K V)) (table : mc_hashtable K V) (key : Option K) :
    Except Fault (mc_ht_delete_result K V) :=
  match run_calls calls table with
  | .error e => .error e
  | .ok table1 =>
    match mc_hashtable_delete table1 key with
    | .error e => .error e
    | .ok r => .ok r.1

/-- The capacity of the table the handle holds after the calls `calls`. -/
def cap_after (calls : List (Call K V)) (table : mc_hashtable K V) : Except Fault Nat :=
  match run_calls calls table with
  | .error e => .error e
  | .ok table1 => .ok table1._table.cap

/-- The slots of the table the handle holds after the calls `calls`. -/
def buf_after (calls : List (Call K V)) (table : mc_hashtable K V) :
    Except Fault (List (_mc_ht_node K V)) :=
  match run_calls calls table with
  | .error e => .error e
  | .ok table1 => .ok table1._table.buf

/-- The table of `test_ht` (main.c:14): capacity 1, `compare_strings`, `mc_djb2`. -/
def test_ht_table : mc_hashtable (List Nat) (List Nat) :=
  mc_hashtable_new 1 compare_strings mc_djb2

/-- The table with another hash callback installed. -/
def with_hash (table : _mc_ht K V) (hash_fn : Option K → Nat) : _mc_ht K V :=
  { table with hash_fn := hash_fn }

/-- The handle whose table has another hash callback installed. -/
def handle_with_hash (table : mc_hashtable K V) (hash_fn : Option K → Nat) : mc_hashtable K V :=
  { _table := with_hash table._table hash_fn }

/-- The key argument of a call. -/
def Call.key : Call K V → Option K
  | .insert key _ => key
  | .delete key => key

/-- Every occupied slot holds a key of the list `keys`. -/
def keys_in [DecidableEq K] (keys : List (Option K)) (buf : List (_mc_ht_node K V)) : Bool :=
  buf.all (fun node => !node._occupied || decide (node.key ∈ keys))

/-- Along the run of `calls` from `table`: before each call the doubled capacity
divides `m`, the key of the call is one of `keys`, and so is every stored key. -/
def run_within [DecidableEq K] (m : Nat) (keys : List (Option K)) :
    List (Call K V) → mc_hashtable K V → Bool
  | [], _ => true
  | c :: cs, table =>
    decide (m % (table._table.cap * 2) = 0) && decide (c.key ∈ keys) &&
      keys_in keys table._table.buf &&
      match c.run table with
      | .error _ => true
      | .ok table1 => run_within m keys cs table1

/-- A hash callback with the value `a` on "name" and `b` on every other key. -/
def two_key_hash (a b : Nat) : Option (List Nat) → Nat :=
  fun key => if key = c_string "name" then a else b

/-- The capacity of the table after the calls `calls` divides `m`. -/
def cap_after_divides (m : Nat) (calls : List (Call K V)) (table : mc_hashtable K V) : Bool :=
  match run_calls calls table with
  | .error _ => true
  | .ok table1 => decide (m % table1._table.cap = 0)

/-- The two inserts that open the scenario of `test_ht` (main.c:15-16). -/
def test_ht_inserts : List (Call (List Nat) (List Nat)) :=
  [.insert (c_string "name") (c_string "pepe the frog"),
   .insert (c_string "genre") (c_string "Black Metal")]

/-- The outcome of the scenario of `test_ht` (main.c:12-27), for a table of initial
capacity 1 with `compare_strings` and the hash callback `hash_fn`. -/
def test_ht_outcome (hash_fn : Option (List Nat) → Nat) : Prop :=
  get_after test_ht_inserts (mc_hashtable_new 1 compare_strings hash_fn) (c_string "name")
    = .ok (c_string "pepe the frog") ∧
  get_after test_ht_inserts (mc_hashtable_new 1 compare_strings hash_fn) (c_string "genre")
    = .ok (c_string "Black Metal") ∧
  delete_after test_ht_inserts (mc_hashtable_new 1 compare_strings hash_fn) (c_string "genre")
    = .ok { type := .DELETE_MEM_RESULT, key := c_string "genre",
            value := c_string "Black Metal" } ∧
  get_after (test_ht_inserts ++ [.delete (c_string "genre")])
    (mc_hashtable_new 1 compare_strings hash_fn) (c_string "genre") = .ok none ∧
  get_after (test_ht_inserts ++ [.delete (c_string "genre"),
      .insert (c_string "genre") (c_string "Djent")])
    (mc_hashtable_new 1 compare_strings hash_fn) (c_string "genre") = .ok (c_string "Djent") ∧
  cap_after [.insert (c_string "name") (c_string "pepe the frog")]
    (mc_hashtable_new 1 compare_strings hash_fn) = .ok 2 ∧
  cap_after test_ht_inserts (mc_hashtable_new 1 compare_strings hash_fn) = .ok 4 ∧
  cap_after (test_ht_inserts ++ [.delete (c_string "genre"),
      .insert (c_string "genre") (c_string "Djent")])
    (mc_hashtable_new 1 compare_strings hash_fn) = .ok 8

/-! ## Operations on one table, without the growth step -/

/-- A call as it acts on the table itself: the raw insertion `_mc_ht_insert` for an
insert, the marking done by `mc_hashtable_delete` for a delete. -/
def raw_call (c : Call K V) (table : _mc_ht K V) : Except Fault (_mc_ht K V) :=
  match c with
  | .insert key value => _mc_ht_insert table key value
  | .delete key =>
    match mc_hashtable_delete { _table := table } key with
    | .error e => .error e
    | .ok r => .ok r.2._table

/-- A sequence of calls acting on one table, in list order. -/
def raw_run : List (Call K V) → _mc_ht K V → Except Fault (_mc_ht K V)
  | [], table => .ok table
  | c :: cs, table =>
    match raw_call c table with
    | .error e => .error e
    | .ok table1 => raw_run cs table1

/-- The number of insert calls in a sequence of calls. -/
def insert_calls : List (Call K V) → Nat
  | [] => 0
  | .insert _ _ :: cs => insert_calls cs + 1
  | .delete _ :: cs => insert_calls cs

/-- The result of a call is neither the fault of an index outside the slot array
nor the fault of a modulus by zero. -/
def in_bounds {α : Type} (r : Except Fault α) : Prop :=
  r ≠ .error .out_of_bounds ∧ r ≠ .error .div_by_zero

/-! ## Allocation that may fail

The definitions above take `calloc` and `malloc` to succeed.  The ones below make
the two allocations of `_mc_ht_new` explicit: each returns `NULL` when its flag is
`false`.  A table whose `buf` may be `NULL` is a `_mc_ht_heap`; reading or writing
through a `NULL` pointer is the outcome `null_dereference`. -/

/-- What a call does when the allocator may fail: it returns, it reads or writes
through a `NULL` pointer, or it ends in one of the faults of the model above. -/
inductive Outcome (α : Type) where
  | returns (a : α)
  | null_dereference
  | fault (f : Fault)

/-- The struct `_mc_ht` (mc_ht.h:43-51) with a `buf` pointer that may be `NULL`. -/
structure _mc_ht_heap (K V : Type) where
  compare_fn : Option K → Option K → Bool
  hash_fn : Option K → Nat
  cap : Nat
  size : Nat
  buf : Option (List (_mc_ht_node K V))

/-- A table with an allocated slot array, as a `_mc_ht_heap`. -/
def _mc_ht.to_heap (table : _mc_ht K V) : _mc_ht_heap K V :=
  { compare_fn := table.compare_fn, hash_fn := table.hash_fn, cap := table.cap,
    size := table.size, buf := some table.buf }

/-- The function `_mc_ht_new` (mc_ht.h:53-64) with the results of its two allocations:
`buf = calloc(..)` is `NULL` when `calloc_ok` is `false`, `ht = malloc(..)` is `NULL`
when `malloc_ok` is `false`.  Neither pointer is tested: the stores `ht->cap = cap`
... `ht->buf = buf` go through `ht`, and `ht` is returned.  The result is the
returned pointer (`none` for `NULL`). -/
def _mc_ht_new_alloc (calloc_ok malloc_ok : Bool) (cap : Nat)
    (cmp_fn : Option K → Option K → Bool) (hash_fn : Option K → Nat) :
    Outcome (Option (_mc_ht_heap K V)) :=
  if malloc_ok = true then
    .returns (some { compare_fn := cmp_fn, hash_fn := hash_fn, cap := cap, size := 0,
                     buf := if calloc_ok = true then some (List.replicate cap zero_node)
                            else none })
  else
    .null_dereference

/-- The function `_mc_ht_insert` (mc_ht.h:71-91) on a table whose `buf` may be `NULL`:
the index is computed first, then the node `&table->buf[index]` is read. -/
def _mc_ht_insert_heap (table : _mc_ht_heap K V) (key : Option K) (value : Option V) :
    Outcome (_mc_ht_heap K V) :=
  if table.cap = 0 then .fault .div_by_zero
  else
    match table.buf with
    | none => .null_dereference
    | some buf =>
      match _mc_ht_insert { compare_fn := table.compare_fn, hash_fn := table.hash_fn,
                            cap := table.cap, size := table.size, buf := buf } key value with
      | .error e => .fault e
      | .ok t1 => .returns t1.to_heap

/-- The `for` loop of `mc_hashtable_insert` (mc_ht.h:148-154) into a new table whose
`buf` may be `NULL`. -/
def rehash_loop_alloc (old : _mc_ht K V) :
    Nat → Nat → _mc_ht_heap K V → Outcome (_mc_ht_heap K V)
  | 0, _, new_table => .returns new_table
  | n + 1, i, new_table =>
    match old.buf[i]? with
    | none => .fault .out_of_bounds
    | some node =>
      if node._occupied = true then
        match _mc_ht_insert_heap new_table node.key node.value with
        | .returns new_table1 => rehash_loop_alloc old n (i + 1) new_table1
        | .null_dereference => .null_dereference
        | .fault f => .fault f
      else
        rehash_loop_alloc old n (i + 1) new_table

/-- The function `mc_hashtable_insert` (mc_ht.h:132-160) with the results of the two
allocations made by `_mc_ht_new`.  Returns the status and the table the handle
holds after the call. -/
def mc_hashtable_insert_alloc (calloc_ok malloc_ok : Bool) (table : mc_hashtable K V)
    (key : Option K) (value : Option V) : Outcome (Int × _mc_ht_heap K V) :=
  match _mc_ht_insert table._table key value with
  | .error e => .fault e
  | .ok t =>
    if t.size < t.cap / 2 then
      .returns (0, t.to_heap)
    else
      match _mc_ht_new_alloc calloc_ok malloc_ok (t.cap * 2) t.compare_fn t.hash_fn with
      | .null_dereference => .null_dereference
      | .fault f => .fault f
      | .returns none => .returns (-1, t.to_heap)
      | .returns (some new_table) =>
        match rehash_loop_alloc t t.cap 0 new_table with
        | .null_dereference => .null_dereference
        | .fault f => .fault f
        | .returns new_table1 => .returns (0, new_table1)

/-- The table left by insert(1, 10), delete(1), insert(1, 11) on a new table of 8
slots: slot 1 is occupied by key 1 and still marked deleted. -/
def reinsert_table : mc_hashtable Nat Nat :=
  { _table :=
    { compare_fn := nat_eq, hash_fn := nat_hash, cap := 8, size := 2,
      buf := [zero_node,
              { key := some 1, _occupied := true, _deleted := true, value := some 11 },
              zero_node, zero_node, zero_node, zero_node, zero_node, zero_node] } }

/-! ## Callbacks, visible slots and the abstract map -/

/-- The contract of the callbacks: `cmp_fn` is an equivalence relation and `hash_fn`
is equal on keys that compare equal. -/
structure Lawful (cmp_fn : Option K → Option K → Bool) (hash_fn : Option K → Nat) : Prop where
  refl : ∀ a, cmp_fn a a = true
  symm : ∀ a b, cmp_fn a b = true → cmp_fn b a = true
  trans : ∀ a b c, cmp_fn a b = true → cmp_fn b c = true → cmp_fn a c = true
  hash_eq : ∀ a b, cmp_fn a b = true → hash_fn a = hash_fn b

/-- A slot the lookup can return as found: occupied and not marked deleted. -/
def visible (node : _mc_ht_node K V) : Bool :=
  node._occupied && !node._deleted

/-- Every visible slot is reached from the start index of its key through slots that
are all in use. -/
def Chain (table : _mc_ht K V) : Prop :=
  ∀ (i : Nat) (node : _mc_ht_node K V), table.buf[i]? = some node → visible node = true →
    ∃ m, m < table.cap ∧ (table.hash_fn node.key % table.cap + m) % table.cap = i ∧
      ∀ j, j < m → ∃ nj,
        table.buf[(table.hash_fn node.key % table.cap + j) % table.cap]? = some nj ∧
        in_use nj = true

/-- No two visible slots hold keys that compare equal. -/
def Unique (table : _mc_ht K V) : Prop :=
  ∀ (i j : Nat) (ni nj : _mc_ht_node K V), table.buf[i]? = some ni → table.buf[j]? = some nj →
    visible ni = true → visible nj = true → table.compare_fn ni.key nj.key = true → i = j

/-- Some occupied slot of the table holds a key that compares equal to `key`, with the
value `value`. -/
def Holds (table : _mc_ht K V) (key : Option K) (value : Option V) : Prop :=
  ∃ (i : Nat) (node : _mc_ht_node K V), table.buf[i]? = some node ∧ node._occupied = true ∧
    table.compare_fn node.key key = true ∧ node.value = value

/-- The abstract map of the specification: a key is absent (`none`) or present with a
value reference. -/
abbrev AbstractMap (K V : Type) := Option K → Option (Option V)

/-- The empty abstract map. -/
def abstract_empty : AbstractMap K V :=
  fun _ => none

/-- The update of the abstract map by an insert: every key that compares equal to
`key` now has `value`. -/
def abstract_insert (cmp_fn : Option K → Option K → Bool) (m : AbstractMap K V)
    (key : Option K) (value : Option V) : AbstractMap K V :=
  fun k => if cmp_fn key k = true then some value else m k

/-- The abstract map built by applying the inserts, in list order, as map updates. -/
def abstract_of_inserts (cmp_fn : Option K → Option K → Bool)
    (inserts : List (Option K × Option V)) : AbstractMap K V :=
  inserts.foldl (fun m kv => abstract_insert cmp_fn m kv.1 kv.2) abstract_empty

/-- The lookup in the abstract map, as `get` reports it: the value of a present key,
`NULL` for an absent one. -/
def abstract_get (m : AbstractMap K V) (key : Option K) : Option V :=
  match m key with
  | some value => value
  | none => none

/-- The value passed to the last insert of a key that compares equal to `key`, if
there is such an insert. -/
def last_insert (cmp_fn : Option K → Option K → Bool) (inserts : List (Option K × Option V))
    (key : Option K) : Option (Option V) :=
  (inserts.reverse.find? (fun kv => cmp_fn kv.1 key)).map (fun kv => kv.2)

/-! ## Theorems -/

theorem insert_loop_eq_probe (table : _mc_ht K V) (key : Option K) (fuel index : Nat) :
    _mc_ht_insert_loop table key fuel index
      = probe (insert_cont table key) table.buf table.cap fuel index := by
  induction fuel generalizing index with
  | zero => rfl
  | succ n ih =>
    simp only [_mc_ht_insert_loop, probe, insert_cont, ih]

theorem get_loop_eq_probe (table : _mc_ht K V) (key : Option K) (fuel index : Nat) :
    _mc_ht_get_loop table key fuel index
      = probe (get_cont table key) table.buf table.cap fuel index := by
  induction fuel generalizing index with
  | zero => rfl
  | succ n ih =>
    simp only [_mc_ht_get_loop, probe, get_cont, ih]

/-- A probe that returns, returns the index of a node at which the walk stops. -/
theorem probe_ok_stop (cont : _mc_ht_node K V → Bool) (buf : List (_mc_ht_node K V))
    (cap : Nat) : ∀ (fuel index r : Nat), probe cont buf cap fuel index = .ok r →
      ∃ node, buf[r]? = some node ∧ cont node = false := by
  intro fuel
  induction fuel with
  | zero => intro index r h; simp [probe] at h
  | succ n ih =>
    intro index r h
    rw [probe] at h
    cases hb : buf[index]? with
    | none => simp [hb] at h
    | some node =>
      simp only [hb] at h
      by_cases hc : cont node = true
      · rw [if_pos hc] at h
        exact ih _ _ h
      · rw [if_neg hc] at h
        have hr : index = r := by injection h
        subst hr
        exact ⟨node, hb, by simpa using hc⟩

/-- A probe started inside the array finds a stopping node within `fuel` steps when
there is one within `fuel` steps. -/
theorem probe_ok_of_stop (cont : _mc_ht_node K V → Bool) (buf : List (_mc_ht_node K V))
    (cap : Nat) (hlen : buf.length = cap) :
    ∀ (fuel index : Nat), index < cap →
      (∃ m, m < fuel ∧ ∃ node, buf[(index + m) % cap]? = some node ∧ cont node = false) →
      ∃ r, probe cont buf cap fuel index = .ok r := by
  intro fuel
  induction fuel with
  | zero => rintro index _ ⟨m, hm, _⟩; omega
  | succ n ih =>
    rintro index hi ⟨m, hm, node, hnode, hstop⟩
    have hpos : 0 < cap := by omega
    rw [probe]
    have hlt : index < buf.length := by omega
    rw [List.getElem?_eq_getElem hlt]
    simp only
    by_cases hc : cont buf[index] = true
    · rw [if_pos hc]
      apply ih _ (Nat.mod_lt _ hpos)
      cases m with
      | zero =>
        exfalso
        rw [Nat.add_zero, Nat.mod_eq_of_lt hi, List.getElem?_eq_getElem hlt] at hnode
        injection hnode with hnode
        rw [hnode, hstop] at hc
        exact Bool.noConfusion hc
      | succ m1 =>
        refine ⟨m1, by omega, node, ?_, hstop⟩
        rw [Nat.mod_add_mod]
        rw [← hnode]
        congr 2
        omega
    · rw [if_neg hc]
      exact ⟨index, rfl⟩

/-- Every index below `cap` lies on the probe sequence of every start index, fewer
than `cap` steps away. -/
theorem probe_reaches (cap index j : Nat) (hi : index < cap) (hj : j < cap) :
    ∃ m, m < cap ∧ (index + m) % cap = j := by
  by_cases h : index ≤ j
  · exact ⟨j - index, by omega, by rw [Nat.add_sub_cancel' h]; exact Nat.mod_eq_of_lt hj⟩
  · refine ⟨cap + j - index, by omega, ?_⟩
    have : index + (cap + j - index) = j + cap := by omega
    rw [this, Nat.add_mod_right]
    exact Nat.mod_eq_of_lt hj

/-- With a stopping node somewhere in the array, a probe with fuel `cap` returns. -/
theorem probe_terminates (cont : _mc_ht_node K V → Bool) (buf : List (_mc_ht_node K V))
    (cap : Nat) (hlen : buf.length = cap) (index : Nat) (hi : index < cap)
    (hstop : ∃ (j : Nat) (node : _mc_ht_node K V), buf[j]? = some node ∧ cont node = false) :
    ∃ r, probe cont buf cap cap index = .ok r := by
  obtain ⟨j, node, hj, hc⟩ := hstop
  have hjlt : j < cap := by
    rw [← hlen]
    exact (List.getElem?_eq_some_iff.mp hj).1
  obtain ⟨m, hm, hmj⟩ := probe_reaches cap index j hi hjlt
  exact probe_ok_of_stop cont buf cap hlen cap index hi ⟨m, hm, node, by rw [hmj]; exact hj, hc⟩

/-! ## Counting the slots in use -/

theorem countP_set (p : _mc_ht_node K V → Bool) :
    ∀ (l : List (_mc_ht_node K V)) (i : Nat) (a b : _mc_ht_node K V), l[i]? = some b →
      (l.set i a).countP p + (if p b = true then 1 else 0)
        = l.countP p + (if p a = true then 1 else 0) := by
  intro l
  induction l with
  | nil => intro i a b h; simp at h
  | cons x xs ih =>
    intro i a b h
    cases i with
    | zero =>
      simp only [List.getElem?_cons_zero, Option.some.injEq] at h
      subst h
      simp only [List.set_cons_zero, List.countP_cons]
      omega
    | succ i1 =>
      simp only [List.getElem?_cons_succ] at h
      have := ih i1 a b h
      simp only [List.set_cons_succ, List.countP_cons]
      omega

theorem used_set_le (l : List (_mc_ht_node K V)) (i : Nat) (a b : _mc_ht_node K V)
    (h : l[i]? = some b) : used (l.set i a) ≤ used l + 1 := by
  have := countP_set in_use l i a b h
  unfold used
  split_ifs at this <;> omega

theorem used_set_of_in_use (l : List (_mc_ht_node K V)) (i : Nat) (a b : _mc_ht_node K V)
    (h : l[i]? = some b) (hb : in_use b = true) (ha : in_use a = true) :
    used (l.set i a) = used l := by
  have := countP_set in_use l i a b h
  unfold used
  rw [if_pos hb, if_pos ha] at this
  omega

theorem used_replicate_zero (n : Nat) : used (List.replicate n (zero_node : _mc_ht_node K V)) = 0 := by
  unfold used
  rw [List.countP_eq_zero]
  intro a ha
  rw [List.mem_replicate] at ha
  rw [ha.2]
  simp [in_use, zero_node]

/-- Fewer slots in use than slots: some slot was never used. -/
theorem exists_never_used (l : List (_mc_ht_node K V)) (h : used l < l.length) :
    ∃ (j : Nat) (node : _mc_ht_node K V), l[j]? = some node ∧ never_used node = true := by
  have hne : ¬ ∀ a ∈ l, in_use a = true := by
    intro hall
    have := List.countP_eq_length.mpr hall
    unfold used at h
    omega
  push_neg at hne
  obtain ⟨a, ha, hna⟩ := hne
  obtain ⟨j, hj⟩ := List.mem_iff_getElem?.mp ha
  refine ⟨j, a, hj, ?_⟩
  simp only [in_use, Bool.not_eq_true, Bool.or_eq_false_iff] at hna
  simp [never_used, hna.1, hna.2]

theorem never_used_insert_stop (table : _mc_ht K V) (key : Option K) (node : _mc_ht_node K V)
    (h : never_used node = true) : insert_cont table key node = false := by
  simp only [never_used, Bool.and_eq_true, Bool.not_eq_true'] at h
  simp [insert_cont, h.1]

theorem never_used_get_stop (table : _mc_ht K V) (key : Option K) (node : _mc_ht_node K V)
    (h : never_used node = true) : get_cont table key node = false := by
  simp only [never_used, Bool.and_eq_true, Bool.not_eq_true'] at h
  simp [get_cont, h.1, h.2]

/-! ## The raw insertion and the lookup return -/

/-- On a table with a slot at which the insert loop can stop, `_mc_ht_insert`
returns: it rewrites one node, which the loop stopped at. -/
theorem _mc_ht_insert_ok (table : _mc_ht K V) (key : Option K) (value : Option V)
    (hlen : table.buf.length = table.cap) (hpos : 1 ≤ table.cap)
    (hstop : ∃ (j : Nat) (node : _mc_ht_node K V),
      table.buf[j]? = some node ∧ insert_cont table key node = false) :
    ∃ (index : Nat) (node : _mc_ht_node K V),
      table.buf[index]? = some node ∧ insert_cont table key node = false ∧
      _mc_ht_insert table key value = .ok { table with
        buf := table.buf.set index { node with key := key, value := value, _occupied := true },
        size := table.size + 1 } := by
  have hi : table.hash_fn key % table.cap < table.cap := Nat.mod_lt _ (by omega)
  obtain ⟨r, hr⟩ := probe_terminates (insert_cont table key) table.buf table.cap hlen _ hi hstop
  obtain ⟨node, hnode, hc⟩ := probe_ok_stop _ _ _ _ _ _ hr
  refine ⟨r, node, hnode, hc, ?_⟩
  unfold _mc_ht_insert
  rw [if_neg (by omega), insert_loop_eq_probe, hr]
  simp only [hnode]

/-- On a table with a slot at which the lookup loop can stop, `_mc_ht_get` returns
the index of a node at which the loop stops. -/
theorem _mc_ht_get_ok (table : _mc_ht K V) (key : Option K)
    (hlen : table.buf.length = table.cap) (hpos : 1 ≤ table.cap)
    (hstop : ∃ (j : Nat) (node : _mc_ht_node K V),
      table.buf[j]? = some node ∧ get_cont table key node = false) :
    ∃ (index : Nat) (node : _mc_ht_node K V),
      table.buf[index]? = some node ∧ get_cont table key node = false ∧
      _mc_ht_get table key = .ok index := by
  have hi : table.hash_fn key % table.cap < table.cap := Nat.mod_lt _ (by omega)
  obtain ⟨r, hr⟩ := probe_terminates (get_cont table key) table.buf table.cap hlen _ hi hstop
  obtain ⟨node, hnode, hc⟩ := probe_ok_stop _ _ _ _ _ _ hr
  refine ⟨r, node, hnode, hc, ?_⟩
  unfold _mc_ht_get
  rw [if_neg (by omega), get_loop_eq_probe, hr]

/-- A returned lookup points at a node of the array at which the loop stops. -/
theorem _mc_ht_get_stop (table : _mc_ht K V) (key : Option K) (index : Nat)
    (h : _mc_ht_get table key = .ok index) :
    ∃ node, table.buf[index]? = some node ∧ get_cont table key node = false := by
  unfold _mc_ht_get at h
  split_ifs at h
  rw [get_loop_eq_probe] at h
  exact probe_ok_stop _ _ _ _ _ _ h

/-! ## The invariant is kept by every public call -/

theorem atRest_never_used (table : _mc_ht K V) (h : AtRest table) :
    ∃ (j : Nat) (node : _mc_ht_node K V), table.buf[j]? = some node ∧ never_used node = true := by
  apply exists_never_used
  have h1 := h.len
  have h2 := h.pos
  have h3 := h.used_le
  have h4 := h.size_le
  have : table.cap / 2 < table.cap := Nat.div_lt_self (by omega) (by decide)
  omega

theorem atRest_new (cap : Nat) (hcap : 1 ≤ cap) (cmp_fn : Option K → Option K → Bool)
    (hash_fn : Option K → Nat) : AtRest (_mc_ht_new cap cmp_fn hash_fn : _mc_ht K V) where
  len := by simp [_mc_ht_new]
  pos := hcap
  used_le := by simp [_mc_ht_new, used_replicate_zero]
  size_le := by simp [_mc_ht_new]

/-- The rehash loop returns: the new table has twice the slots of the old one and
receives at most one entry per slot of the old one, so it never fills up. -/
theorem rehash_loop_ok (old : _mc_ht K V) (hlen : old.buf.length = old.cap) :
    ∀ (n i : Nat) (nt : _mc_ht K V), i + n = old.cap →
      nt.buf.length = nt.cap → nt.cap = old.cap * 2 → used nt.buf ≤ nt.size → nt.size ≤ i →
      ∃ nt1, rehash_loop old n i nt = .ok nt1 ∧ nt1.buf.length = nt1.cap ∧
        nt1.cap = nt.cap ∧ used nt1.buf ≤ nt1.size ∧ nt1.size ≤ old.cap ∧
        nt1.compare_fn = nt.compare_fn ∧ nt1.hash_fn = nt.hash_fn := by
  intro n
  induction n with
  | zero =>
    intro i nt hin hl hc hu hs
    exact ⟨nt, rfl, hl, rfl, hu, by omega, rfl, rfl⟩
  | succ n ih =>
    intro i nt hin hl hc hu hs
    have hi : i < old.buf.length := by omega
    rw [rehash_loop, List.getElem?_eq_getElem hi]
    simp only
    by_cases hocc : (old.buf[i])._occupied = true
    · rw [if_pos hocc]
      have hfree : used nt.buf < nt.buf.length := by omega
      obtain ⟨j, node, hj, hnu⟩ := exists_never_used nt.buf hfree
      obtain ⟨index, node1, hnode1, _, hins⟩ :=
        _mc_ht_insert_ok nt (old.buf[i]).key (old.buf[i]).value hl (by omega)
          ⟨j, node, hj, never_used_insert_stop nt _ node hnu⟩
      rw [hins]
      simp only
      have hu1 := used_set_le nt.buf index
        { node1 with key := (old.buf[i]).key, value := (old.buf[i]).value, _occupied := true }
        node1 hnode1
      exact ih (i + 1)
        ({ nt with
            buf := nt.buf.set index
              { node1 with key := (old.buf[i]).key, value := (old.buf[i]).value, _occupied := true },
            size := nt.size + 1 } : _mc_ht K V)
        (by omega) (by simp only [List.length_set]; exact hl) hc
        (by simp only; omega) (by simp only; omega)
    · rw [if_neg hocc]
      exact ih (i + 1) nt (by omega) hl hc hu (by omega)

/-- On a table at rest `mc_hashtable_insert` returns `0`, and the table it leaves
in the handle is at rest again, with the same callbacks. -/
theorem mc_hashtable_insert_ok (table : mc_hashtable K V) (key : Option K) (value : Option V)
    (h : AtRest table._table) :
    ∃ table1, mc_hashtable_insert table key value = .ok (0, table1) ∧ AtRest table1._table ∧
      table1._table.compare_fn = table._table.compare_fn ∧
      table1._table.hash_fn = table._table.hash_fn := by
  obtain ⟨j, node, hj, hnu⟩ := atRest_never_used _ h
  obtain ⟨index, node1, hnode1, _, hins⟩ :=
    _mc_ht_insert_ok table._table key value h.len h.pos
      ⟨j, node, hj, never_used_insert_stop _ _ node hnu⟩
  have hu1 := used_set_le table._table.buf index
    { node1 with key := key, value := value, _occupied := true } node1 hnode1
  have hul := h.used_le
  unfold mc_hashtable_insert
  rw [hins]
  simp only
  by_cases hsz : table._table.size + 1 < table._table.cap / 2
  · rw [if_pos hsz]
    refine ⟨_, rfl, ⟨?_, h.pos, ?_, ?_⟩, rfl, rfl⟩
    · simp only [List.length_set]; exact h.len
    · simp only; omega
    · simp only; omega
  · rw [if_neg hsz]
    obtain ⟨nt1, h1, h2, h3, h4, h5, h6, h7⟩ := rehash_loop_ok
      ({ table._table with
          buf := table._table.buf.set index
            { node1 with key := key, value := value, _occupied := true },
          size := table._table.size + 1 } : _mc_ht K V)
      (by simp only [List.length_set]; exact h.len)
      table._table.cap 0
      (_mc_ht_new (table._table.cap * 2) table._table.compare_fn table._table.hash_fn)
      (by simp) (by simp [_mc_ht_new]) (by simp [_mc_ht_new])
      (by simp [_mc_ht_new, used_replicate_zero]) (by simp [_mc_ht_new])
    rw [h1]
    simp only [_mc_ht_new] at h3 h5 h6 h7
    have hp := h.pos
    refine ⟨_, rfl, ⟨h2, ?_, h4, ?_⟩, h6, h7⟩
    · simp only; omega
    · simp only; omega

/-- On a table at rest `mc_hashtable_get` returns. -/
theorem mc_hashtable_get_ok (table : mc_hashtable K V) (key : Option K)
    (h : AtRest table._table) : ∃ res, mc_hashtable_get table key = .ok res := by
  obtain ⟨j, node, hj, hnu⟩ := atRest_never_used _ h
  obtain ⟨index, node1, hnode1, _, hget⟩ :=
    _mc_ht_get_ok table._table key h.len h.pos ⟨j, node, hj, never_used_get_stop _ _ node hnu⟩
  unfold mc_hashtable_get
  rw [hget]
  simp only [hnode1]
  by_cases hocc : node1._occupied = true
  · exact ⟨_, if_pos hocc⟩
  · exact ⟨_, if_neg hocc⟩

/-- On a table at rest `mc_hashtable_delete` returns, and the table it leaves is at
rest again, with the same callbacks. -/
theorem mc_hashtable_delete_ok (table : mc_hashtable K V) (key : Option K)
    (h : AtRest table._table) :
    ∃ res table1, mc_hashtable_delete table key = .ok (res, table1) ∧ AtRest table1._table ∧
      table1._table.compare_fn = table._table.compare_fn ∧
      table1._table.hash_fn = table._table.hash_fn := by
  obtain ⟨j, node, hj, hnu⟩ := atRest_never_used _ h
  obtain ⟨index, node1, hnode1, _, hget⟩ :=
    _mc_ht_get_ok table._table key h.len h.pos ⟨j, node, hj, never_used_get_stop _ _ node hnu⟩
  unfold mc_hashtable_delete
  rw [hget]
  simp only [hnode1]
  by_cases hocc : node1._occupied = false
  · rw [if_pos hocc]
    exact ⟨_, _, rfl, h, rfl, rfl⟩
  · rw [if_neg hocc]
    refine ⟨_, _, rfl, ⟨?_, h.pos, ?_, h.size_le⟩, rfl, rfl⟩
    · simp only [List.length_set]; exact h.len
    · simp only
      rw [used_set_of_in_use _ _ _ node1 hnode1 (by simp [in_use]; left; simpa using hocc)
        (by simp [in_use])]
      exact h.used_le

/-- Every reachable handle holds a table at rest. -/
theorem reachable_atRest (cmp_fn : Option K → Option K → Bool) (hash_fn : Option K → Nat)
    (table : mc_hashtable K V) (h : Reachable cmp_fn hash_fn table) : AtRest table._table := by
  induction h with
  | new cap hcap => exact atRest_new cap hcap cmp_fn hash_fn
  | insert key value _ hins ih =>
    obtain ⟨t1, h1, h2, _⟩ := mc_hashtable_insert_ok _ key value ih
    rw [h1] at hins
    injection hins with hins
    injection hins with _ hins
    rw [← hins]
    exact h2
  | delete key _ hdel ih =>
    obtain ⟨r, t1, h1, h2, _⟩ := mc_hashtable_delete_ok _ key ih
    rw [h1] at hdel
    injection hdel with hdel
    injection hdel with _ hdel
    rw [← hdel]
    exact h2
  | get key _ _ ih => exact ih

/-! ## The fuel `cap` is enough -/

theorem probe_mono (cont : _mc_ht_node K V → Bool) (buf : List (_mc_ht_node K V)) (cap : Nat) :
    ∀ (fuel fuel1 index r : Nat), fuel ≤ fuel1 → probe cont buf cap fuel index = .ok r →
      probe cont buf cap fuel1 index = .ok r := by
  intro fuel
  induction fuel with
  | zero => intro fuel1 index r _ h; simp [probe] at h
  | succ n ih =>
    intro fuel1 index r hle h
    obtain ⟨m, rfl⟩ : ∃ m, fuel1 = m + 1 := ⟨fuel1 - 1, by omega⟩
    rw [probe] at h ⊢
    cases hb : buf[index]? with
    | none => simp [hb] at h
    | some node =>
      simp only [hb] at h ⊢
      by_cases hc : cont node = true
      · rw [if_pos hc] at h ⊢
        exact ih m _ _ (by omega) h
      · rw [if_neg hc] at h ⊢
        exact h

/-- A probe that returns with some amount of fuel returns the same index with fuel
`cap`: the walk has period `cap`, so a loop of the source that stops, stops within
`cap` tests, and one that the model reports as `no_termination` never stops. -/
theorem probe_fuel_adequate (cont : _mc_ht_node K V → Bool) (buf : List (_mc_ht_node K V))
    (cap : Nat) (hlen : buf.length = cap) (fuel index r : Nat) (hi : index < cap)
    (h : probe cont buf cap fuel index = .ok r) :
    probe cont buf cap cap index = .ok r := by
  obtain ⟨node, hnode, hstop⟩ := probe_ok_stop cont buf cap fuel index r h
  obtain ⟨r1, hr1⟩ := probe_terminates cont buf cap hlen index hi ⟨r, node, hnode, hstop⟩
  have h1 := probe_mono cont buf cap fuel (max fuel cap) index r (le_max_left _ _) h
  have h2 := probe_mono cont buf cap cap (max fuel cap) index r1 (le_max_right _ _) hr1
  rw [h1] at h2
  injection h2 with h2
  rw [h2]
  exact hr1

/-- The fuel `cap` is enough for the loop of `_mc_ht_get`. -/
theorem _mc_ht_get_loop_fuel (table : _mc_ht K V) (key : Option K)
    (hlen : table.buf.length = table.cap) (fuel index r : Nat) (hi : index < table.cap)
    (h : _mc_ht_get_loop table key fuel index = .ok r) :
    _mc_ht_get_loop table key table.cap index = .ok r := by
  rw [get_loop_eq_probe] at h ⊢
  exact probe_fuel_adequate _ _ _ hlen fuel index r hi h

/-- The fuel `cap` is enough for the loop of `_mc_ht_insert`. -/
theorem _mc_ht_insert_loop_fuel (table : _mc_ht K V) (key : Option K)
    (hlen : table.buf.length = table.cap) (fuel index r : Nat) (hi : index < table.cap)
    (h : _mc_ht_insert_loop table key fuel index = .ok r) :
    _mc_ht_insert_loop table key table.cap index = .ok r := by
  rw [insert_loop_eq_probe] at h ⊢
  exact probe_fuel_adequate _ _ _ hlen fuel index r hi h


/-! ## Reachable handles -/

theorem reachable_run_calls (cmp_fn : Option K → Option K → Bool) (hash_fn : Option K → Nat) :
    ∀ (calls : List (Call K V)) (table table1 : mc_hashtable K V),
      Reachable cmp_fn hash_fn table → run_calls calls table = .ok table1 →
      Reachable cmp_fn hash_fn table1 := by
  intro calls
  induction calls with
  | nil =>
    intro table table1 hr h
    simp only [run_calls, Except.ok.injEq] at h
    exact h ▸ hr
  | cons c cs ih =>
    intro table table1 hr h
    rw [run_calls] at h
    cases hc : c.run table with
    | error e => simp [hc] at h
    | ok t =>
      simp only [hc] at h
      refine ih t table1 ?_ h
      cases c with
      | insert key value =>
        simp only [Call.run] at hc
        cases hi : mc_hashtable_insert table key value with
        | error e => simp [hi] at hc
        | ok r =>
          simp only [hi, Except.ok.injEq] at hc
          subst hc
          exact Reachable.insert key value hr hi
      | delete key =>
        simp only [Call.run] at hc
        cases hd : mc_hashtable_delete table key with
        | error e => simp [hd] at hc
        | ok r =>
          simp only [hd, Except.ok.injEq] at hc
          subst hc
          exact Reachable.delete key hr hd

theorem demo_table_run :
    run_calls demo_calls (mc_hashtable_new 8 nat_eq nat_hash) = .ok demo_table := rfl

theorem demo_table_reachable : Reachable nat_eq nat_hash demo_table :=
  reachable_run_calls nat_eq nat_hash demo_calls _ _ (Reachable.new 8 (by decide)) demo_table_run

/-! ## Properties stated by the specification -/

/-- C7: the table of every handle reachable from `mc_hashtable_new` with `cap >= 1`
by `mc_hashtable_insert`, `mc_hashtable_delete` and `mc_hashtable_get` calls has a
slot that was never used (not occupied, not deleted), and on it the lookup loop
(`_mc_ht_get`, hence `mc_hashtable_get` and `mc_hashtable_delete`) and the insert
loop (`_mc_ht_insert`, hence `mc_hashtable_insert` with every raw insertion of its
rehash) terminate: each call returns a result, none runs out of the `cap` probe
steps. -/
theorem C7_probing_terminates (cmp_fn : Option K → Option K → Bool) (hash_fn : Option K → Nat)
    (table : mc_hashtable K V) (h : Reachable cmp_fn hash_fn table) :
    (∃ (j : Nat) (node : _mc_ht_node K V), table._table.buf[j]? = some node ∧
        node._occupied = false ∧ node._deleted = false) ∧
    (∀ key, ∃ index, _mc_ht_get table._table key = .ok index) ∧
    (∀ key, ∃ res, mc_hashtable_get table key = .ok res) ∧
    (∀ key, ∃ res table1, mc_hashtable_delete table key = .ok (res, table1)) ∧
    (∀ key value, ∃ t1, _mc_ht_insert table._table key value = .ok t1) ∧
    (∀ key value, ∃ table1, mc_hashtable_insert table key value = .ok (0, table1)) := by
  have hr := reachable_atRest cmp_fn hash_fn table h
  obtain ⟨j, node, hj, hnu⟩ := atRest_never_used _ hr
  refine ⟨⟨j, node, hj, ?_⟩, ?_, ?_, ?_, ?_, ?_⟩
  · simpa [never_used] using hnu
  · intro key
    obtain ⟨index, _, _, _, hget⟩ := _mc_ht_get_ok table._table key hr.len hr.pos
      ⟨j, node, hj, never_used_get_stop _ _ node hnu⟩
    exact ⟨index, hget⟩
  · intro key
    exact mc_hashtable_get_ok table key hr
  · intro key
    obtain ⟨res, table1, hd, _⟩ := mc_hashtable_delete_ok table key hr
    exact ⟨res, table1, hd⟩
  · intro key value
    obtain ⟨index, node1, _, _, hins⟩ := _mc_ht_insert_ok table._table key value hr.len hr.pos
      ⟨j, node, hj, never_used_insert_stop _ _ node hnu⟩
    exact ⟨_, hins⟩
  · intro key value
    obtain ⟨table1, hi, _⟩ := mc_hashtable_insert_ok table key value hr
    exact ⟨table1, hi⟩

/-- C7 at `demo_table`, a handle reached by two inserts and a delete. -/
theorem C7_probing_terminates_witness :
    Reachable nat_eq nat_hash demo_table ∧
    ((∃ (j : Nat) (node : _mc_ht_node Nat Nat), demo_table._table.buf[j]? = some node ∧
        node._occupied = false ∧ node._deleted = false) ∧
    (∀ key, ∃ index, _mc_ht_get demo_table._table key = .ok index) ∧
    (∀ key, ∃ res, mc_hashtable_get demo_table key = .ok res) ∧
    (∀ key, ∃ res table1, mc_hashtable_delete demo_table key = .ok (res, table1)) ∧
    (∀ key value, ∃ t1, _mc_ht_insert demo_table._table key value = .ok t1) ∧
    (∀ key value, ∃ table1, mc_hashtable_insert demo_table key value = .ok (0, table1))) :=
  ⟨demo_table_reachable, C7_probing_terminates nat_eq nat_hash demo_table demo_table_reachable⟩

/-- C4: when the lookup of `key` resolves to a slot that is not occupied,
`mc_hashtable_delete` returns `DELETE_NOT_FOUND` with `key = NULL` and
`value = NULL`, and the handle after the call is the handle before it: same
capacity, same insert count, same slots (so every later call, `mc_hashtable_get`
of any key included, behaves as before); `mc_hashtable_get` of the key is `NULL`. -/
theorem C4_delete_absent_noop (table : mc_hashtable K V) (key : Option K) (index : Nat)
    (node : _mc_ht_node K V) (hget : _mc_ht_get table._table key = .ok index)
    (hnode : table._table.buf[index]? = some node) (hocc : node._occupied = false) :
    mc_hashtable_delete table key
      = .ok ({ type := .DELETE_NOT_FOUND, key := none, value := none }, table) ∧
    mc_hashtable_get table key = .ok none := by
  constructor
  · unfold mc_hashtable_delete
    rw [hget]
    simp only [hnode]
    rw [if_pos hocc]
  · unfold mc_hashtable_get
    rw [hget]
    simp only [hnode]
    rw [if_neg (by simp [hocc])]

/-- C4 at the reachable `demo_table` and the deleted key 1: the lookup passes the
tombstone in slot 1 and the other key in slot 2 and resolves to the never-used
slot 3. -/
theorem C4_delete_absent_noop_witness :
    Reachable nat_eq nat_hash demo_table ∧
    mc_hashtable_delete demo_table (some 1)
      = .ok ({ type := .DELETE_NOT_FOUND, key := none, value := none }, demo_table) ∧
    mc_hashtable_get demo_table (some 1) = .ok none :=
  ⟨demo_table_reachable, C4_delete_absent_noop demo_table (some 1) 3 zero_node rfl rfl rfl⟩

/-- C5: when the lookup of `key` resolves to the slot `index` holding `node`:
if the node is occupied, its key compares equal to `key`, `mc_hashtable_get`
returns its value, and `mc_hashtable_delete` returns `DELETE_MEM_RESULT` with the
stored key and that value and leaves the slot with `_occupied = false`,
`_deleted = true` and `key = NULL` (its value field as it was), every other slot,
the capacity, the insert count and the callbacks unchanged; and whatever
`mc_hashtable_delete` returns, its type is `DELETE_MEM_RESULT` only when the node
is occupied. -/
theorem C5_delete_present (table : mc_hashtable K V) (key : Option K) (index : Nat)
    (node : _mc_ht_node K V) (hget : _mc_ht_get table._table key = .ok index)
    (hnode : table._table.buf[index]? = some node) :
    (node._occupied = true →
      table._table.compare_fn node.key key = true ∧
      mc_hashtable_get table key = .ok node.value ∧
      ∃ table1, mc_hashtable_delete table key
          = .ok ({ type := .DELETE_MEM_RESULT, key := node.key, value := node.value }, table1) ∧
        table1._table.buf[index]?
          = some { key := none, _occupied := false, _deleted := true, value := node.value } ∧
        (∀ (j : Nat), j ≠ index → table1._table.buf[j]? = table._table.buf[j]?) ∧
        table1._table.buf.length = table._table.buf.length ∧
        table1._table.cap = table._table.cap ∧ table1._table.size = table._table.size ∧
        table1._table.compare_fn = table._table.compare_fn ∧
        table1._table.hash_fn = table._table.hash_fn) ∧
    (∀ res table1, mc_hashtable_delete table key = .ok (res, table1) →
      (res.type = .DELETE_MEM_RESULT ↔ node._occupied = true)) := by
  constructor
  · intro hocc
    obtain ⟨node1, hnode1, hstop⟩ := _mc_ht_get_stop _ _ _ hget
    rw [hnode] at hnode1
    injection hnode1 with hnode1
    subst hnode1
    have hlt : index < table._table.buf.length := (List.getElem?_eq_some_iff.mp hnode).1
    refine ⟨?_, ?_, ?_⟩
    · simp only [get_cont, hocc, Bool.true_and, Bool.or_eq_false_iff, bne_eq_false_iff_eq] at hstop
      exact hstop.1
    · unfold mc_hashtable_get
      rw [hget]
      simp only [hnode]
      rw [if_pos hocc]
    · refine ⟨{ _table := { table._table with
          buf := table._table.buf.set index
            { node with _deleted := true, _occupied := false, key := none } } },
        ?_, ?_, ?_, ?_, rfl, rfl, rfl, rfl⟩
      · unfold mc_hashtable_delete
        rw [hget]
        simp only [hnode]
        rw [if_neg (by simp [hocc])]
      · simp only
        rw [List.getElem?_set_self hlt]
      · intro j hj
        simp only
        rw [List.getElem?_set_ne (Ne.symm hj)]
      · simp only [List.length_set]
  · intro res table1 hdel
    unfold mc_hashtable_delete at hdel
    rw [hget] at hdel
    simp only [hnode] at hdel
    by_cases hocc : node._occupied = false
    · rw [if_pos hocc] at hdel
      injection hdel with hdel
      injection hdel with hres _
      rw [← hres]
      simp [hocc]
    · rw [if_neg hocc] at hdel
      injection hdel with hdel
      injection hdel with hres _
      rw [← hres]
      simpa using hocc

/-- C5 at the reachable `demo_table` and the present key 9, stored in slot 2. -/
theorem C5_delete_present_witness :
    Reachable nat_eq nat_hash demo_table ∧
    _mc_ht_get demo_table._table (some 9) = .ok 2 ∧
    mc_hashtable_get demo_table (some 9) = .ok (some 20) ∧
    ∃ table1, mc_hashtable_delete demo_table (some 9)
        = .ok ({ type := .DELETE_MEM_RESULT, key := some 9, value := some 20 }, table1) ∧
      table1._table.buf[2]?
        = some { key := none, _occupied := false, _deleted := true, value := some 20 } :=
  have h := (C5_delete_present demo_table (some 9) 2
    { key := some 9, _occupied := true, _deleted := false, value := some 20 } rfl rfl).1 rfl
  ⟨demo_table_reachable, rfl, h.2.1, h.2.2.imp (fun _ ht => ⟨ht.1, ht.2.1⟩)⟩

/-- C9: on a handle whose table has `cap >= 1` slots, one of them unoccupied (as
every reachable handle has), `mc_hashtable_insert` first performs the raw insertion,
which leaves the capacity and makes the insert count `size + 1`; when
`size + 1 < cap / 2` the call returns `0` and the handle keeps that table; when
`size + 1 >= cap / 2` the call returns `0` and the handle holds a table of capacity
`2 * cap` with the same comparison and hash callbacks. -/
theorem C9_growth_policy (table : mc_hashtable K V) (key : Option K) (value : Option V)
    (hlen : table._table.buf.length = table._table.cap) (hpos : 1 ≤ table._table.cap)
    (hfree : ∃ (j : Nat) (node : _mc_ht_node K V),
      table._table.buf[j]? = some node ∧ node._occupied = false) :
    ∃ t1, _mc_ht_insert table._table key value = .ok t1 ∧
      t1.size = table._table.size + 1 ∧ t1.cap = table._table.cap ∧
      (table._table.size + 1 < table._table.cap / 2 →
        mc_hashtable_insert table key value = .ok (0, { _table := t1 })) ∧
      (table._table.cap / 2 ≤ table._table.size + 1 →
        ∃ new_table, mc_hashtable_insert table key value = .ok (0, { _table := new_table }) ∧
          new_table.cap = 2 * table._table.cap ∧ new_table.buf.length = 2 * table._table.cap ∧
          new_table.compare_fn = table._table.compare_fn ∧
          new_table.hash_fn = table._table.hash_fn) := by
  obtain ⟨j, node, hj, hocc⟩ := hfree
  obtain ⟨index, node1, hnode1, _, hins⟩ := _mc_ht_insert_ok table._table key value hlen hpos
    ⟨j, node, hj, by simp [insert_cont, hocc]⟩
  refine ⟨_, hins, rfl, rfl, ?_, ?_⟩
  · intro hlt
    unfold mc_hashtable_insert
    rw [hins]
    simp only
    rw [if_pos hlt]
  · intro hge
    obtain ⟨nt1, h1, h2, h3, _, _, h6, h7⟩ := rehash_loop_ok
      ({ table._table with
          buf := table._table.buf.set index
            { node1 with key := key, value := value, _occupied := true },
          size := table._table.size + 1 } : _mc_ht K V)
      (by simp only [List.length_set]; exact hlen)
      table._table.cap 0
      (_mc_ht_new (table._table.cap * 2) table._table.compare_fn table._table.hash_fn)
      (by simp) (by simp [_mc_ht_new]) (by simp [_mc_ht_new])
      (by simp [_mc_ht_new, used_replicate_zero]) (by simp [_mc_ht_new])
    simp only [_mc_ht_new] at h3 h6 h7
    refine ⟨nt1, ?_, by omega, by omega, h6, h7⟩
    unfold mc_hashtable_insert
    rw [hins]
    simp only
    rw [if_neg (by omega), h1]

/-- C9 at the reachable `demo_table` (capacity 8, insert count 2): the insert of
key 2 makes the count 3 and keeps the table; one more insert (count 4) doubles the
capacity to 16. -/
theorem C9_growth_policy_witness :
    Reachable nat_eq nat_hash demo_table ∧
    (∃ t1, _mc_ht_insert demo_table._table (some 2) (some 30) = .ok t1 ∧
      t1.size = demo_table._table.size + 1 ∧ t1.cap = demo_table._table.cap ∧
      (demo_table._table.size + 1 < demo_table._table.cap / 2 →
        mc_hashtable_insert demo_table (some 2) (some 30) = .ok (0, { _table := t1 })) ∧
      (demo_table._table.cap / 2 ≤ demo_table._table.size + 1 →
        ∃ new_table, mc_hashtable_insert demo_table (some 2) (some 30)
            = .ok (0, { _table := new_table }) ∧
          new_table.cap = 2 * demo_table._table.cap ∧
          new_table.buf.length = 2 * demo_table._table.cap ∧
          new_table.compare_fn = demo_table._table.compare_fn ∧
          new_table.hash_fn = demo_table._table.hash_fn)) ∧
    cap_after [.insert (some 2) (some 30)] demo_table = .ok 8 ∧
    cap_after [.insert (some 2) (some 30), .insert (some 3) (some 40)] demo_table = .ok 16 :=
  ⟨demo_table_reachable,
   C9_growth_policy demo_table (some 2) (some 30) rfl (by decide) ⟨0, zero_node, rfl, rfl⟩,
   rfl, rfl⟩

/-! ## Where the code departs from the specification

The raw insertion stops at the first unoccupied slot of the probe sequence, a
deleted one included, without looking further along the sequence for the key
(mc_ht.h:78), and it leaves `_deleted` set on the slot it fills (mc_ht.h:87-89),
while the lookup skips every slot with `_deleted` set (mc_ht.h:97).  The runs below
use `nat_eq` and `nat_hash`, which are lawful callbacks. -/

theorem nat_callbacks_lawful :
    (∀ a, nat_eq a a = true) ∧ (∀ a b, nat_eq a b = true → nat_eq b a = true) ∧
    (∀ a b c, nat_eq a b = true → nat_eq b c = true → nat_eq a c = true) ∧
    (∀ a b, nat_eq a b = true → nat_hash a = nat_hash b) := by
  refine ⟨?_, ?_, ?_, ?_⟩
  · intro a; simp [nat_eq]
  · intro a b h; simp only [nat_eq, beq_iff_eq] at h ⊢; exact h.symm
  · intro a b c h1 h2; simp only [nat_eq, beq_iff_eq] at h1 h2 ⊢; exact h1.trans h2
  · intro a b h; simp only [nat_eq, beq_iff_eq] at h; rw [h]

/-- C1, the code at a failing input: in a table of 8 slots, key 1 is inserted,
deleted and inserted again with value 11 (no insert resizes: the capacity stays 8).
The second insert fills the deleted slot and leaves `_deleted` set, so the lookup
skips it: `mc_hashtable_get` of key 1 returns `NULL`, not 11. -/
theorem C1_get_after_reinsert_is_null :
    cap_after [.insert (some 1) (some 10), .delete (some 1), .insert (some 1) (some 11)]
      (mc_hashtable_new 8 nat_eq nat_hash) = .ok 8 ∧
    buf_after [.insert (some 1) (some 10), .delete (some 1), .insert (some 1) (some 11)]
      (mc_hashtable_new 8 nat_eq nat_hash)
      = .ok [zero_node,
             { key := some 1, _occupied := true, _deleted := true, value := some 11 },
             zero_node, zero_node, zero_node, zero_node, zero_node, zero_node] ∧
    get_after [.insert (some 1) (some 10), .delete (some 1), .insert (some 1) (some 11)]
      (mc_hashtable_new 8 nat_eq nat_hash) (some 1) = .ok none :=
  ⟨rfl, rfl, rfl⟩

/-- C2, the code at a failing input: keys 1 and 9 start at the same slot of a table
of 8 slots.  After insert(1, 10), insert(9, 20), delete(1), insert(9, 21), where key
9 is never deleted, `mc_hashtable_get` of key 9 returns the older value 20: the last
insert wrote into the deleted slot in front of the slot that holds key 9. -/
theorem C2_get_returns_older_value :
    get_after [.insert (some 1) (some 10), .insert (some 9) (some 20), .delete (some 1),
               .insert (some 9) (some 21)]
      (mc_hashtable_new 8 nat_eq nat_hash) (some 9) = .ok (some 20) :=
  rfl

/-- C3, the code at a failing input: after insert(1, 10), insert(9, 20), delete(1),
insert(9, 21) key 9 is present (value 20); `mc_hashtable_delete` of key 9 returns
that pair and `mc_hashtable_get` of key 9 is then `NULL`; the insert of the other
key 2 doubles the table (8 to 16 slots), and afterwards `mc_hashtable_get` of key 9
returns 21, although key 9 was not inserted again. -/
theorem C3_deleted_key_returns_after_resize :
    get_after [.insert (some 1) (some 10), .insert (some 9) (some 20), .delete (some 1),
               .insert (some 9) (some 21)]
      (mc_hashtable_new 8 nat_eq nat_hash) (some 9) = .ok (some 20) ∧
    delete_after [.insert (some 1) (some 10), .insert (some 9) (some 20), .delete (some 1),
                  .insert (some 9) (some 21)]
      (mc_hashtable_new 8 nat_eq nat_hash) (some 9)
      = .ok { type := .DELETE_MEM_RESULT, key := some 9, value := some 20 } ∧
    get_after [.insert (some 1) (some 10), .insert (some 9) (some 20), .delete (some 1),
               .insert (some 9) (some 21), .delete (some 9)]
      (mc_hashtable_new 8 nat_eq nat_hash) (some 9) = .ok none ∧
    cap_after [.insert (some 1) (some 10), .insert (some 9) (some 20), .delete (some 1),
               .insert (some 9) (some 21), .delete (some 9), .insert (some 2) (some 30)]
      (mc_hashtable_new 8 nat_eq nat_hash) = .ok 16 ∧
    get_after [.insert (some 1) (some 10), .insert (some 9) (some 20), .delete (some 1),
               .insert (some 9) (some 21), .delete (some 9), .insert (some 2) (some 30)]
      (mc_hashtable_new 8 nat_eq nat_hash) (some 9) = .ok (some 21) :=
  ⟨rfl, rfl, rfl, rfl, rfl⟩

/-- C6, the code at two failing inputs.  (a) After insert(1, 10), insert(9, 20),
delete(1), insert(9, 21) the capacity is 8; insert(9, 22) doubles it to 16, and
afterwards `mc_hashtable_get` of key 9 returns 20, not 22.  (b) After insert(1, 10),
delete(1), insert(1, 11), insert(2, 30) `mc_hashtable_get` of key 1 is `NULL`; the
insert of the other key 3 doubles the table, and afterwards `mc_hashtable_get` of
key 1 returns 11: the result for a key other than the inserted one changed. -/
theorem C6_resize_changes_results :
    cap_after [.insert (some 1) (some 10), .insert (some 9) (some 20), .delete (some 1),
               .insert (some 9) (some 21)]
      (mc_hashtable_new 8 nat_eq nat_hash) = .ok 8 ∧
    cap_after [.insert (some 1) (some 10), .insert (some 9) (some 20), .delete (some 1),
               .insert (some 9) (some 21), .insert (some 9) (some 22)]
      (mc_hashtable_new 8 nat_eq nat_hash) = .ok 16 ∧
    get_after [.insert (some 1) (some 10), .insert (some 9) (some 20), .delete (some 1),
               .insert (some 9) (some 21), .insert (some 9) (some 22)]
      (mc_hashtable_new 8 nat_eq nat_hash) (some 9) = .ok (some 20) ∧
    cap_after [.insert (some 1) (some 10), .delete (some 1), .insert (some 1) (some 11),
               .insert (some 2) (some 30)]
      (mc_hashtable_new 8 nat_eq nat_hash) = .ok 8 ∧
    get_after [.insert (some 1) (some 10), .delete (some 1), .insert (some 1) (some 11),
               .insert (some 2) (some 30)]
      (mc_hashtable_new 8 nat_eq nat_hash) (some 1) = .ok none ∧
    cap_after [.insert (some 1) (some 10), .delete (some 1), .insert (some 1) (some 11),
               .insert (some 2) (some 30), .insert (some 3) (some 40)]
      (mc_hashtable_new 8 nat_eq nat_hash) = .ok 16 ∧
    get_after [.insert (some 1) (some 10), .delete (some 1), .insert (some 1) (some 11),
               .insert (some 2) (some 30), .insert (some 3) (some 40)]
      (mc_hashtable_new 8 nat_eq nat_hash) (some 1) = .ok (some 11) :=
  ⟨rfl, rfl, rfl, rfl, rfl, rfl, rfl⟩

/-- C8, the code at a failing input: after insert(1, 10), insert(9, 20), delete(1),
insert(9, 21) on a table of 8 slots, slot 1 and slot 2 are both occupied and both
hold key 9. -/
theorem C8_two_occupied_slots_one_key :
    buf_after [.insert (some 1) (some 10), .insert (some 9) (some 20), .delete (some 1),
               .insert (some 9) (some 21)]
      (mc_hashtable_new 8 nat_eq nat_hash)
      = .ok [zero_node,
             { key := some 9, _occupied := true, _deleted := true, value := some 21 },
             { key := some 9, _occupied := true, _deleted := false, value := some 20 },
             zero_node, zero_node, zero_node, zero_node, zero_node] :=
  rfl

/-! ## The hash callback matters only through the start indices -/

theorem insert_loop_with_hash (table : _mc_ht K V) (hash_fn : Option K → Nat) (key : Option K)
    (fuel index : Nat) :
    _mc_ht_insert_loop (with_hash table hash_fn) key fuel index
      = _mc_ht_insert_loop table key fuel index := by
  rw [insert_loop_eq_probe, insert_loop_eq_probe]
  rfl

theorem get_loop_with_hash (table : _mc_ht K V) (hash_fn : Option K → Nat) (key : Option K)
    (fuel index : Nat) :
    _mc_ht_get_loop (with_hash table hash_fn) key fuel index
      = _mc_ht_get_loop table key fuel index := by
  rw [get_loop_eq_probe, get_loop_eq_probe]
  rfl

theorem _mc_ht_insert_with_hash (table : _mc_ht K V) (hash_fn : Option K → Nat) (key : Option K)
    (value : Option V) (hk : hash_fn key % table.cap = table.hash_fn key % table.cap) :
    _mc_ht_insert (with_hash table hash_fn) key value
      = match _mc_ht_insert table key value with
        | .error e => .error e
        | .ok t1 => .ok (with_hash t1 hash_fn) := by
  unfold _mc_ht_insert
  rw [insert_loop_with_hash]
  simp only [with_hash]
  rw [hk]
  by_cases hc : table.cap = 0
  · simp [hc]
  · rw [if_neg hc, if_neg hc]
    cases _mc_ht_insert_loop table key table.cap (table.hash_fn key % table.cap) with
    | error e => rfl
    | ok index =>
      simp only
      cases table.buf[index]? with
      | none => rfl
      | some node => rfl

theorem _mc_ht_get_with_hash (table : _mc_ht K V) (hash_fn : Option K → Nat) (key : Option K)
    (hk : hash_fn key % table.cap = table.hash_fn key % table.cap) :
    _mc_ht_get (with_hash table hash_fn) key = _mc_ht_get table key := by
  unfold _mc_ht_get
  rw [get_loop_with_hash]
  simp only [with_hash]
  rw [hk]

theorem _mc_ht_insert_cap_hash (table t1 : _mc_ht K V) (key : Option K) (value : Option V)
    (h : _mc_ht_insert table key value = .ok t1) :
    t1.cap = table.cap ∧ t1.hash_fn = table.hash_fn ∧
    ∀ node ∈ t1.buf, node ∈ table.buf ∨ node.key = key := by
  unfold _mc_ht_insert at h
  split_ifs at h
  split at h
  · exact Except.noConfusion h
  · split at h
    · exact Except.noConfusion h
    · injection h with h
      rw [← h]
      refine ⟨rfl, rfl, ?_⟩
      intro node hmem
      rcases List.mem_or_eq_of_mem_set hmem with hm | hm
      · exact Or.inl hm
      · exact Or.inr (by rw [hm])

theorem rehash_loop_with_hash (old : _mc_ht K V) (hash_fn : Option K → Nat) :
    ∀ (n i : Nat) (nt : _mc_ht K V),
      (∀ node ∈ old.buf, node._occupied = true →
        hash_fn node.key % nt.cap = nt.hash_fn node.key % nt.cap) →
      rehash_loop (with_hash old hash_fn) n i (with_hash nt hash_fn)
        = match rehash_loop old n i nt with
          | .error e => .error e
          | .ok nt1 => .ok (with_hash nt1 hash_fn) := by
  intro n
  induction n with
  | zero => intro i nt _; rfl
  | succ n ih =>
    intro i nt hag
    rw [rehash_loop, rehash_loop]
    have hbuf : (with_hash old hash_fn).buf = old.buf := rfl
    rw [hbuf]
    cases hb : old.buf[i]? with
    | none => rfl
    | some node =>
      simp only
      by_cases hocc : node._occupied = true
      · rw [if_pos hocc, if_pos hocc]
        have hmem : node ∈ old.buf := List.mem_iff_getElem?.mpr ⟨i, hb⟩
        rw [_mc_ht_insert_with_hash nt hash_fn node.key node.value (hag node hmem hocc)]
        cases hins : _mc_ht_insert nt node.key node.value with
        | error e => rfl
        | ok nt1 =>
          simp only
          obtain ⟨hcap, hhash, _⟩ := _mc_ht_insert_cap_hash nt nt1 _ _ hins
          apply ih
          intro node1 hm1 ho1
          rw [hcap, hhash]
          exact hag node1 hm1 ho1
      · rw [if_neg hocc, if_neg hocc]
        exact ih (i + 1) nt hag

theorem rehash_loop_hash_fn (old : _mc_ht K V) :
    ∀ (n i : Nat) (nt nt1 : _mc_ht K V), rehash_loop old n i nt = .ok nt1 →
      nt1.hash_fn = nt.hash_fn := by
  intro n
  induction n with
  | zero =>
    intro i nt nt1 h
    simp only [rehash_loop, Except.ok.injEq] at h
    rw [h]
  | succ n ih =>
    intro i nt nt1 h
    rw [rehash_loop] at h
    split at h
    · exact Except.noConfusion h
    · split_ifs at h
      · split at h
        · exact Except.noConfusion h
        · rename_i nt2 hins
          rw [ih _ _ _ h, (_mc_ht_insert_cap_hash _ _ _ _ hins).2.1]
      · exact ih _ _ _ h

theorem mc_hashtable_insert_hash_fn (table table1 : mc_hashtable K V) (key : Option K)
    (value : Option V) (status : Int)
    (h : mc_hashtable_insert table key value = .ok (status, table1)) :
    table1._table.hash_fn = table._table.hash_fn := by
  unfold mc_hashtable_insert at h
  split at h
  · exact Except.noConfusion h
  · rename_i t hins
    have ht := (_mc_ht_insert_cap_hash _ _ _ _ hins).2.1
    split_ifs at h
    · injection h with h
      injection h with _ h
      rw [← h]
      exact ht
    · split at h
      · exact Except.noConfusion h
      · rename_i nt hre
        injection h with h
        injection h with _ h
        rw [← h]
        simp only
        rw [rehash_loop_hash_fn _ _ _ _ _ hre]
        exact ht

theorem mc_hashtable_delete_hash_fn (table table1 : mc_hashtable K V) (key : Option K)
    (res : mc_ht_delete_result K V)
    (h : mc_hashtable_delete table key = .ok (res, table1)) :
    table1._table.hash_fn = table._table.hash_fn := by
  unfold mc_hashtable_delete at h
  split at h
  · exact Except.noConfusion h
  · split at h
    · exact Except.noConfusion h
    · split_ifs at h
      · injection h with h
        injection h with _ h
        rw [← h]
      · injection h with h
        injection h with _ h
        rw [← h]

theorem mod_eq_of_dvd (x y d m : Nat) (hd : m % d = 0) (h : x % m = y % m) : x % d = y % d := by
  have hdvd : d ∣ m := Nat.dvd_of_mod_eq_zero hd
  rw [← Nat.mod_mod_of_dvd x hdvd, ← Nat.mod_mod_of_dvd y hdvd, h]

/-- With a hash callback that gives the key of the call and every stored key the same
index in the table and in the doubled table, `mc_hashtable_insert` does the same. -/
theorem mc_hashtable_insert_with_hash (table : mc_hashtable K V) (hash_fn : Option K → Nat)
    (key : Option K) (value : Option V)
    (hk1 : hash_fn key % table._table.cap = table._table.hash_fn key % table._table.cap)
    (hk2 : hash_fn key % (table._table.cap * 2)
      = table._table.hash_fn key % (table._table.cap * 2))
    (hbuf : ∀ node ∈ table._table.buf, node._occupied = true →
      hash_fn node.key % (table._table.cap * 2)
        = table._table.hash_fn node.key % (table._table.cap * 2)) :
    mc_hashtable_insert (handle_with_hash table hash_fn) key value
      = match mc_hashtable_insert table key value with
        | .error e => .error e
        | .ok r => .ok (r.1, handle_with_hash r.2 hash_fn) := by
  unfold mc_hashtable_insert
  simp only [handle_with_hash]
  rw [_mc_ht_insert_with_hash _ _ _ _ hk1]
  cases hins : _mc_ht_insert table._table key value with
  | error e => rfl
  | ok t1 =>
    simp only
    obtain ⟨hcap, hhash, hmem⟩ := _mc_ht_insert_cap_hash _ _ _ _ hins
    have hsz : (with_hash t1 hash_fn).size = t1.size := rfl
    have hcp : (with_hash t1 hash_fn).cap = t1.cap := rfl
    have hcm : (with_hash t1 hash_fn).compare_fn = t1.compare_fn := rfl
    have hhf : (with_hash t1 hash_fn).hash_fn = hash_fn := rfl
    rw [hsz, hcp, hcm, hhf]
    by_cases hlt : t1.size < t1.cap / 2
    · rw [if_pos hlt, if_pos hlt]
    · rw [if_neg hlt, if_neg hlt]
      have hnew : (_mc_ht_new (t1.cap * 2) t1.compare_fn hash_fn : _mc_ht K V)
          = with_hash (_mc_ht_new (t1.cap * 2) t1.compare_fn t1.hash_fn) hash_fn := rfl
      rw [hnew, rehash_loop_with_hash]
      · cases rehash_loop t1 t1.cap 0 (_mc_ht_new (t1.cap * 2) t1.compare_fn t1.hash_fn) with
        | error e => rfl
        | ok nt => rfl
      · intro node hm hocc
        simp only [_mc_ht_new]
        rw [hcap, hhash]
        rcases hmem node hm with h1 | h1
        · exact hbuf node h1 hocc
        · rw [h1]; exact hk2

theorem mc_hashtable_get_with_hash (table : mc_hashtable K V) (hash_fn : Option K → Nat)
    (key : Option K)
    (hk : hash_fn key % table._table.cap = table._table.hash_fn key % table._table.cap) :
    mc_hashtable_get (handle_with_hash table hash_fn) key = mc_hashtable_get table key := by
  unfold mc_hashtable_get
  simp only [handle_with_hash]
  rw [_mc_ht_get_with_hash _ _ _ hk]
  rfl

theorem mc_hashtable_delete_with_hash (table : mc_hashtable K V) (hash_fn : Option K → Nat)
    (key : Option K)
    (hk : hash_fn key % table._table.cap = table._table.hash_fn key % table._table.cap) :
    mc_hashtable_delete (handle_with_hash table hash_fn) key
      = match mc_hashtable_delete table key with
        | .error e => .error e
        | .ok r => .ok (r.1, handle_with_hash r.2 hash_fn) := by
  unfold mc_hashtable_delete
  simp only [handle_with_hash]
  rw [_mc_ht_get_with_hash _ _ _ hk]
  cases _mc_ht_get table._table key with
  | error e => rfl
  | ok index =>
    simp only
    have hbuf : (with_hash table._table hash_fn).buf = table._table.buf := rfl
    rw [hbuf]
    cases table._table.buf[index]? with
    | none => rfl
    | some node =>
      simp only
      by_cases hocc : node._occupied = false
      · rw [if_pos hocc, if_pos hocc]
      · rw [if_neg hocc, if_neg hocc]
        rfl

/-- A run whose keys all have, under `hash_fn`, the hash of the table modulo `m`, and
whose capacities all divide `m`, is the same run under `hash_fn`. -/
theorem run_calls_with_hash [DecidableEq K] (hash_fn : Option K → Nat) (m : Nat)
    (keys : List (Option K)) :
    ∀ (calls : List (Call K V)) (table : mc_hashtable K V),
      (∀ k ∈ keys, hash_fn k % m = table._table.hash_fn k % m) →
      run_within m keys calls table = true →
      run_calls calls (handle_with_hash table hash_fn)
        = match run_calls calls table with
          | .error e => .error e
          | .ok table1 => .ok (handle_with_hash table1 hash_fn) := by
  intro calls
  induction calls with
  | nil => intro table _ _; rfl
  | cons c cs ih =>
    intro table hag hrun
    simp only [run_within, Bool.and_eq_true, decide_eq_true_eq] at hrun
    obtain ⟨⟨⟨hm, hkey⟩, hkeys⟩, hrest⟩ := hrun
    have hm1 : m % table._table.cap = 0 :=
      Nat.mod_eq_zero_of_dvd ((Dvd.intro _ rfl).trans (Nat.dvd_of_mod_eq_zero hm))
    have hbuf : ∀ node ∈ table._table.buf, node._occupied = true →
        hash_fn node.key % (table._table.cap * 2)
          = table._table.hash_fn node.key % (table._table.cap * 2) := by
      intro node hmem hocc
      simp only [keys_in, List.all_eq_true, Bool.or_eq_true, Bool.not_eq_true',
        decide_eq_true_eq] at hkeys
      rcases hkeys node hmem with h1 | h1
      · rw [hocc] at h1; exact Bool.noConfusion h1
      · exact mod_eq_of_dvd _ _ _ _ hm (hag _ h1)
    rw [run_calls, run_calls]
    cases c with
    | insert key value =>
      simp only [Call.key] at hkey
      simp only [Call.run] at hrest ⊢
      rw [mc_hashtable_insert_with_hash table hash_fn key value
        (mod_eq_of_dvd _ _ _ _ hm1 (hag _ hkey)) (mod_eq_of_dvd _ _ _ _ hm (hag _ hkey)) hbuf]
      cases hins : mc_hashtable_insert table key value with
      | error e => rfl
      | ok r =>
        simp only [hins] at hrest ⊢
        apply ih r.2 _ hrest
        intro k hk
        rw [mc_hashtable_insert_hash_fn table r.2 key value r.1 hins]
        exact hag k hk
    | delete key =>
      simp only [Call.key] at hkey
      simp only [Call.run] at hrest ⊢
      rw [mc_hashtable_delete_with_hash table hash_fn key
        (mod_eq_of_dvd _ _ _ _ hm1 (hag _ hkey))]
      cases hdel : mc_hashtable_delete table key with
      | error e => rfl
      | ok r =>
        simp only [hdel] at hrest ⊢
        apply ih r.2 _ hrest
        intro k hk
        rw [mc_hashtable_delete_hash_fn table r.2 key r.1 hdel]
        exact hag k hk

theorem run_calls_hash_fn :
    ∀ (calls : List (Call K V)) (table table1 : mc_hashtable K V),
      run_calls calls table = .ok table1 → table1._table.hash_fn = table._table.hash_fn := by
  intro calls
  induction calls with
  | nil =>
    intro table table1 h
    simp only [run_calls, Except.ok.injEq] at h
    rw [h]
  | cons c cs ih =>
    intro table table1 h
    rw [run_calls] at h
    split at h
    · exact Except.noConfusion h
    · rename_i t hc
      rw [ih _ _ h]
      cases c with
      | insert key value =>
        simp only [Call.run] at hc
        split at hc
        · exact Except.noConfusion hc
        · rename_i r hins
          injection hc with hc
          rw [← hc]
          exact mc_hashtable_insert_hash_fn table r.2 key value r.1 hins
      | delete key =>
        simp only [Call.run] at hc
        split at hc
        · exact Except.noConfusion hc
        · rename_i r hdel
          injection hc with hc
          rw [← hc]
          exact mc_hashtable_delete_hash_fn table r.2 key r.1 hdel

theorem cap_after_with_hash [DecidableEq K] (hash_fn : Option K → Nat) (m : Nat)
    (keys : List (Option K)) (calls : List (Call K V)) (table : mc_hashtable K V)
    (hag : ∀ k ∈ keys, hash_fn k % m = table._table.hash_fn k % m)
    (hrun : run_within m keys calls table = true) :
    cap_after calls (handle_with_hash table hash_fn) = cap_after calls table := by
  unfold cap_after
  rw [run_calls_with_hash hash_fn m keys calls table hag hrun]
  cases run_calls calls table with
  | error e => rfl
  | ok t1 => rfl

theorem get_after_with_hash [DecidableEq K] (hash_fn : Option K → Nat) (m : Nat)
    (keys : List (Option K)) (calls : List (Call K V)) (table : mc_hashtable K V)
    (key : Option K) (hag : ∀ k ∈ keys, hash_fn k % m = table._table.hash_fn k % m)
    (hrun : run_within m keys calls table = true)
    (hcap : cap_after_divides m calls table = true) (hkey : key ∈ keys) :
    get_after calls (handle_with_hash table hash_fn) key = get_after calls table key := by
  unfold get_after
  rw [run_calls_with_hash hash_fn m keys calls table hag hrun]
  unfold cap_after_divides at hcap
  cases hr : run_calls calls table with
  | error e => rfl
  | ok t1 =>
    simp only [hr, decide_eq_true_eq] at hcap ⊢
    apply mc_hashtable_get_with_hash
    rw [run_calls_hash_fn calls table t1 hr]
    exact mod_eq_of_dvd _ _ _ _ hcap (hag _ hkey)

theorem delete_after_with_hash [DecidableEq K] (hash_fn : Option K → Nat) (m : Nat)
    (keys : List (Option K)) (calls : List (Call K V)) (table : mc_hashtable K V)
    (key : Option K) (hag : ∀ k ∈ keys, hash_fn k % m = table._table.hash_fn k % m)
    (hrun : run_within m keys calls table = true)
    (hcap : cap_after_divides m calls table = true) (hkey : key ∈ keys) :
    delete_after calls (handle_with_hash table hash_fn) key = delete_after calls table key := by
  unfold delete_after
  rw [run_calls_with_hash hash_fn m keys calls table hag hrun]
  unfold cap_after_divides at hcap
  cases hr : run_calls calls table with
  | error e => rfl
  | ok t1 =>
    simp only [hr, decide_eq_true_eq] at hcap ⊢
    rw [mc_hashtable_delete_with_hash]
    · cases mc_hashtable_delete t1 key with
      | error e => rfl
      | ok r => rfl
    · rw [run_calls_hash_fn calls table t1 hr]
      exact mod_eq_of_dvd _ _ _ _ hcap (hag _ hkey)

theorem two_key_hash_agrees (hash_fn : Option (List Nat) → Nat) (a b : Nat) (ha : a < 8)
    (hb : b < 8) (hna : hash_fn (c_string "name") % 8 = a)
    (hgb : hash_fn (c_string "genre") % 8 = b) :
    ∀ k ∈ [c_string "name", c_string "genre"],
      hash_fn k % 8 = (mc_hashtable_new 1 compare_strings (two_key_hash a b) :
        mc_hashtable (List Nat) (List Nat))._table.hash_fn k % 8 := by
  intro k hk
  simp only [List.mem_cons, List.mem_singleton, List.not_mem_nil, or_false] at hk
  rcases hk with rfl | rfl
  · rw [hna]
    show a = two_key_hash a b (c_string "name") % 8
    rw [two_key_hash, if_pos rfl, Nat.mod_eq_of_lt ha]
  · rw [hgb]
    show b = two_key_hash a b (c_string "genre") % 8
    rw [two_key_hash, if_neg (by decide), Nat.mod_eq_of_lt hb]

/-- The scenario with the hash values `a` and `b` of the two keys, and the side
conditions under which it stands for every hash callback with these values
modulo 8. -/
theorem test_ht_two_key_hash (a b : Nat) (ha : a < 8) (hb : b < 8) :
    test_ht_outcome (two_key_hash a b) ∧
    run_within 8 [c_string "name", c_string "genre"] test_ht_inserts
      (mc_hashtable_new 1 compare_strings (two_key_hash a b)) = true ∧
    run_within 8 [c_string "name", c_string "genre"]
      (test_ht_inserts ++ [.delete (c_string "genre")])
      (mc_hashtable_new 1 compare_strings (two_key_hash a b)) = true ∧
    run_within 8 [c_string "name", c_string "genre"]
      (test_ht_inserts ++ [.delete (c_string "genre"),
        .insert (c_string "genre") (c_string "Djent")])
      (mc_hashtable_new 1 compare_strings (two_key_hash a b)) = true ∧
    run_within 8 [c_string "name", c_string "genre"]
      [.insert (c_string "name") (c_string "pepe the frog")]
      (mc_hashtable_new 1 compare_strings (two_key_hash a b)) = true ∧
    cap_after_divides 8 test_ht_inserts
      (mc_hashtable_new 1 compare_strings (two_key_hash a b)) = true ∧
    cap_after_divides 8 (test_ht_inserts ++ [.delete (c_string "genre")])
      (mc_hashtable_new 1 compare_strings (two_key_hash a b)) = true ∧
    cap_after_divides 8 (test_ht_inserts ++ [.delete (c_string "genre"),
        .insert (c_string "genre") (c_string "Djent")])
      (mc_hashtable_new 1 compare_strings (two_key_hash a b)) = true := by
  interval_cases a <;> interval_cases b <;>
    exact ⟨⟨rfl, rfl, rfl, rfl, rfl, rfl, rfl, rfl⟩, rfl, rfl, rfl, rfl, rfl, rfl, rfl⟩

/-- The scenario of `test_ht` has the same outcome for every hash callback. -/
theorem test_ht_any_hash (hash_fn : Option (List Nat) → Nat) : test_ht_outcome hash_fn := by
  obtain ⟨a, hna⟩ : ∃ a, hash_fn (c_string "name") % 8 = a := ⟨_, rfl⟩
  obtain ⟨b, hgb⟩ : ∃ b, hash_fn (c_string "genre") % 8 = b := ⟨_, rfl⟩
  have ha : a < 8 := by rw [← hna]; exact Nat.mod_lt _ (by decide)
  have hb : b < 8 := by rw [← hgb]; exact Nat.mod_lt _ (by decide)
  have hag := two_key_hash_agrees hash_fn a b ha hb hna hgb
  obtain ⟨hout, r2, r3, r4, r1, c2, c3, c4⟩ := test_ht_two_key_hash a b ha hb
  have hnew : (mc_hashtable_new 1 compare_strings hash_fn : mc_hashtable (List Nat) (List Nat))
      = handle_with_hash (mc_hashtable_new 1 compare_strings (two_key_hash a b)) hash_fn := rfl
  have hname : c_string "name" ∈ [c_string "name", c_string "genre"] := by simp
  have hgenre : c_string "genre" ∈ [c_string "name", c_string "genre"] := by simp
  unfold test_ht_outcome at hout ⊢
  rw [hnew]
  rw [get_after_with_hash hash_fn 8 _ _ _ _ hag r2 c2 hname,
    get_after_with_hash hash_fn 8 _ _ _ _ hag r2 c2 hgenre,
    delete_after_with_hash hash_fn 8 _ _ _ _ hag r2 c2 hgenre,
    get_after_with_hash hash_fn 8 _ _ _ _ hag r3 c3 hgenre,
    get_after_with_hash hash_fn 8 _ _ _ _ hag r4 c4 hgenre,
    cap_after_with_hash hash_fn 8 _ _ _ hag r1,
    cap_after_with_hash hash_fn 8 _ _ _ hag r2,
    cap_after_with_hash hash_fn 8 _ _ _ hag r4]
  exact hout

/-- C10: the scenario of `test_ht` (main.c:12-27) on the code as written.  From
`mc_hashtable_new(1, compare_strings, mc_djb2)`: after the inserts of "name" and
"genre", `get("name")` is "pepe the frog" and `get("genre")` is "Black Metal";
`delete("genre")` returns `DELETE_MEM_RESULT` with key "genre" and value
"Black Metal"; then `get("genre")` is `NULL`; after the insert of "genre" with
"Djent", `get("genre")` is "Djent".  Each of the three inserts rebuilds the table:
the capacities are 2, 4 and 8.  The same outcome (`test_ht_outcome`) holds with any
hash callback in place of `mc_djb2`; with `compare_strings`, which is equality of
the strings, every hash callback is equal on equal keys. -/
theorem C10_test_ht_scenario :
    (get_after [.insert (c_string "name") (c_string "pepe the frog"),
                .insert (c_string "genre") (c_string "Black Metal")]
        test_ht_table (c_string "name") = .ok (c_string "pepe the frog") ∧
     get_after [.insert (c_string "name") (c_string "pepe the frog"),
                .insert (c_string "genre") (c_string "Black Metal")]
        test_ht_table (c_string "genre") = .ok (c_string "Black Metal") ∧
     delete_after [.insert (c_string "name") (c_string "pepe the frog"),
                   .insert (c_string "genre") (c_string "Black Metal")]
        test_ht_table (c_string "genre")
       = .ok { type := .DELETE_MEM_RESULT, key := c_string "genre",
               value := c_string "Black Metal" } ∧
     get_after [.insert (c_string "name") (c_string "pepe the frog"),
                .insert (c_string "genre") (c_string "Black Metal"),
                .delete (c_string "genre")]
        test_ht_table (c_string "genre") = .ok none ∧
     get_after [.insert (c_string "name") (c_string "pepe the frog"),
                .insert (c_string "genre") (c_string "Black Metal"),
                .delete (c_string "genre"),
                .insert (c_string "genre") (c_string "Djent")]
        test_ht_table (c_string "genre") = .ok (c_string "Djent") ∧
     cap_after [.insert (c_string "name") (c_string "pepe the frog")] test_ht_table = .ok 2 ∧
     cap_after [.insert (c_string "name") (c_string "pepe the frog"),
                .insert (c_string "genre") (c_string "Black Metal")] test_ht_table = .ok 4 ∧
     cap_after [.insert (c_string "name") (c_string "pepe the frog"),
                .insert (c_string "genre") (c_string "Black Metal"),
                .delete (c_string "genre"),
                .insert (c_string "genre") (c_string "Djent")] test_ht_table = .ok 8) ∧
    (∀ hash_fn : Option (List Nat) → Nat, test_ht_outcome hash_fn) :=
  ⟨⟨rfl, rfl, rfl, rfl, rfl, rfl, rfl, rfl⟩, test_ht_any_hash⟩

/-! ## More on probing and on the rehash loop -/

/-- A probe that returns stops at the first node of the probe sequence at which the
condition to advance fails: `m` steps from the start index, every node before it
lets the walk advance. -/
theorem probe_first (cont : _mc_ht_node K V → Bool) (buf : List (_mc_ht_node K V))
    (cap : Nat) : ∀ (fuel index r : Nat), index < cap →
      probe cont buf cap fuel index = .ok r →
      ∃ m, m < fuel ∧ (index + m) % cap = r ∧
        (∃ node, buf[r]? = some node ∧ cont node = false) ∧
        ∀ j, j < m → ∃ node, buf[(index + j) % cap]? = some node ∧ cont node = true := by
  intro fuel
  induction fuel with
  | zero => intro index r _ h; simp [probe] at h
  | succ n ih =>
    intro index r hi h
    have hpos : 0 < cap := by omega
    rw [probe] at h
    cases hb : buf[index]? with
    | none => simp [hb] at h
    | some node =>
      simp only [hb] at h
      by_cases hc : cont node = true
      · rw [if_pos hc] at h
        obtain ⟨m, hm, hr, hstop, hbefore⟩ := ih _ _ (Nat.mod_lt _ hpos) h
        refine ⟨m + 1, by omega, ?_, hstop, ?_⟩
        · rw [← hr, Nat.mod_add_mod]
          congr 1
          omega
        · intro j hj
          cases j with
          | zero =>
            rw [Nat.add_zero, Nat.mod_eq_of_lt hi]
            exact ⟨node, hb, hc⟩
          | succ j1 =>
            obtain ⟨node1, h1, h2⟩ := hbefore j1 (by omega)
            refine ⟨node1, ?_, h2⟩
            rw [← h1, Nat.mod_add_mod]
            congr 2
            omega
      · rw [if_neg hc] at h
        have hr : index = r := by injection h
        subst hr
        exact ⟨0, by omega, by rw [Nat.add_zero, Nat.mod_eq_of_lt hi],
          ⟨node, hb, by simpa using hc⟩, by intro j hj; omega⟩

/-- The raw insertion, when it returns, has rewritten one node of the array, at
which the insert loop stopped, reached as `probe_first` says. -/
theorem _mc_ht_insert_inv (table t1 : _mc_ht K V) (key : Option K) (value : Option V)
    (h : _mc_ht_insert table key value = .ok t1) :
    ∃ (index : Nat) (node : _mc_ht_node K V),
      0 < table.cap ∧
      probe (insert_cont table key) table.buf table.cap table.cap
        (table.hash_fn key % table.cap) = .ok index ∧
      table.buf[index]? = some node ∧ insert_cont table key node = false ∧
      t1 = { table with
        buf := table.buf.set index { node with key := key, value := value, _occupied := true },
        size := table.size + 1 } := by
  unfold _mc_ht_insert at h
  split_ifs at h with hc
  rw [insert_loop_eq_probe] at h
  cases hp : probe (insert_cont table key) table.buf table.cap table.cap
      (table.hash_fn key % table.cap) with
  | error e => simp [hp] at h
  | ok index =>
    simp only [hp] at h
    obtain ⟨node, hnode, hstop⟩ := probe_ok_stop _ _ _ _ _ _ hp
    simp only [hnode] at h
    injection h with h
    exact ⟨index, node, by omega, rfl, hnode, hstop, h.symm⟩

/-- A property of tables kept by every raw insertion of an occupied node of the old
table is kept by the rehash loop. -/
theorem rehash_loop_invariant (old : _mc_ht K V) (P : _mc_ht K V → Prop)
    (hstep : ∀ (nt nt1 : _mc_ht K V) (node : _mc_ht_node K V), node ∈ old.buf →
      node._occupied = true → P nt → _mc_ht_insert nt node.key node.value = .ok nt1 → P nt1) :
    ∀ (n i : Nat) (nt nt1 : _mc_ht K V), P nt → rehash_loop old n i nt = .ok nt1 → P nt1 := by
  intro n
  induction n with
  | zero =>
    intro i nt nt1 hP h
    simp only [rehash_loop, Except.ok.injEq] at h
    exact h ▸ hP
  | succ n ih =>
    intro i nt nt1 hP h
    rw [rehash_loop] at h
    cases hb : old.buf[i]? with
    | none => simp [hb] at h
    | some node =>
      simp only [hb] at h
      by_cases hocc : node._occupied = true
      · rw [if_pos hocc] at h
        cases hins : _mc_ht_insert nt node.key node.value with
        | error e => simp [hins] at h
        | ok nt2 =>
          simp only [hins] at h
          exact ih _ _ _ (hstep nt nt2 node (List.mem_iff_getElem?.mpr ⟨i, hb⟩) hocc hP hins) h
      · rw [if_neg hocc] at h
        exact ih _ _ _ hP h

/-- The callbacks of a reachable handle are the ones given to `mc_hashtable_new`. -/
theorem reachable_fns (cmp_fn : Option K → Option K → Bool) (hash_fn : Option K → Nat)
    (table : mc_hashtable K V) (h : Reachable cmp_fn hash_fn table) :
    table._table.compare_fn = cmp_fn ∧ table._table.hash_fn = hash_fn := by
  induction h with
  | new cap hcap => exact ⟨rfl, rfl⟩
  | insert key value hr hins ih =>
    obtain ⟨t1, h1, _, h3, h4⟩ := mc_hashtable_insert_ok _ key value
      (reachable_atRest cmp_fn hash_fn _ hr)
    rw [h1] at hins
    injection hins with hins
    injection hins with _ hins
    rw [← hins, h3, h4]
    exact ih
  | delete key hr hdel ih =>
    obtain ⟨r, t1, h1, _, h3, h4⟩ := mc_hashtable_delete_ok _ key
      (reachable_atRest cmp_fn hash_fn _ hr)
    rw [h1] at hdel
    injection hdel with hdel
    injection hdel with _ hdel
    rw [← hdel, h3, h4]
    exact ih
  | get key _ _ ih => exact ih

/-! ## Load, accounting and bounds -/

theorem never_used_count (l : List (_mc_ht_node K V)) :
    l.countP never_used + used l = l.length := by
  unfold used
  induction l with
  | nil => rfl
  | cons a l ih =>
    simp only [List.countP_cons, List.length_cons]
    have : (if never_used a = true then 1 else 0) + (if in_use a = true then 1 else 0) = 1 := by
      cases ho : a._occupied <;> cases hd : a._deleted <;> simp [never_used, in_use, ho, hd]
    omega

/-- C17: in the table of every handle reachable from `mc_hashtable_new` with
`cap >= 1` by `mc_hashtable_insert`, `mc_hashtable_delete` and `mc_hashtable_get`
calls, between calls: (number of slots occupied or deleted) `<=` insert count `<=`
`cap / 2`; so at most half of the `cap` slots are in use and at least
`cap - cap / 2` of them (half, rounded up) were never used. -/
theorem C17_load_bound (cmp_fn : Option K → Option K → Bool) (hash_fn : Option K → Nat)
    (table : mc_hashtable K V) (h : Reachable cmp_fn hash_fn table) :
    table._table.buf.length = table._table.cap ∧
    table._table.buf.countP (fun node => node._occupied || node._deleted)
      ≤ table._table.size ∧
    table._table.size ≤ table._table.cap / 2 ∧
    table._table.cap - table._table.cap / 2
      ≤ table._table.buf.countP (fun node => !node._occupied && !node._deleted) := by
  have hr := reachable_atRest cmp_fn hash_fn table h
  have h1 := hr.len
  have h2 := hr.used_le
  have h3 := hr.size_le
  have h4 := never_used_count table._table.buf
  refine ⟨h1, h2, h3, ?_⟩
  show _ ≤ table._table.buf.countP never_used
  omega

/-- C17 at `demo_table`: 2 slots in use, insert count 2, capacity 8, 6 slots never
used. -/
theorem C17_load_bound_witness :
    Reachable nat_eq nat_hash demo_table ∧
    (demo_table._table.buf.length = demo_table._table.cap ∧
     demo_table._table.buf.countP (fun node => node._occupied || node._deleted)
       ≤ demo_table._table.size ∧
     demo_table._table.size ≤ demo_table._table.cap / 2 ∧
     demo_table._table.cap - demo_table._table.cap / 2
       ≤ demo_table._table.buf.countP (fun node => !node._occupied && !node._deleted)) :=
  ⟨demo_table_reachable, C17_load_bound nat_eq nat_hash demo_table demo_table_reachable⟩

theorem _mc_ht_insert_size_cap (table t1 : _mc_ht K V) (key : Option K) (value : Option V)
    (h : _mc_ht_insert table key value = .ok t1) :
    t1.size = table.size + 1 ∧ t1.cap = table.cap ∧ t1.buf.length = table.buf.length ∧
    t1.compare_fn = table.compare_fn ∧ t1.hash_fn = table.hash_fn := by
  obtain ⟨index, node, _, _, _, _, ht⟩ := _mc_ht_insert_inv table t1 key value h
  rw [ht]
  exact ⟨rfl, rfl, by simp only [List.length_set], rfl, rfl⟩

theorem mc_hashtable_delete_size_cap (table table1 : mc_hashtable K V) (key : Option K)
    (res : mc_ht_delete_result K V) (h : mc_hashtable_delete table key = .ok (res, table1)) :
    table1._table.size = table._table.size ∧ table1._table.cap = table._table.cap ∧
    table1._table.buf.length = table._table.buf.length ∧
    table1._table.compare_fn = table._table.compare_fn ∧
    table1._table.hash_fn = table._table.hash_fn := by
  unfold mc_hashtable_delete at h
  split at h
  · exact Except.noConfusion h
  · split at h
    · exact Except.noConfusion h
    · split_ifs at h
      · injection h with h
        injection h with _ h
        rw [← h]
        exact ⟨rfl, rfl, rfl, rfl, rfl⟩
      · injection h with h
        injection h with _ h
        rw [← h]
        exact ⟨rfl, rfl, by simp only [List.length_set], rfl, rfl⟩

theorem raw_run_size_cap :
    ∀ (calls : List (Call K V)) (table t1 : _mc_ht K V), raw_run calls table = .ok t1 →
      t1.size = table.size + insert_calls calls ∧ t1.cap = table.cap := by
  intro calls
  induction calls with
  | nil =>
    intro table t1 h
    simp only [raw_run, Except.ok.injEq] at h
    rw [← h]
    exact ⟨rfl, rfl⟩
  | cons c cs ih =>
    intro table t1 h
    rw [raw_run] at h
    cases hc : raw_call c table with
    | error e => simp [hc] at h
    | ok t2 =>
      simp only [hc] at h
      obtain ⟨h1, h2⟩ := ih t2 t1 h
      cases c with
      | insert key value =>
        simp only [raw_call] at hc
        obtain ⟨h3, h4, _⟩ := _mc_ht_insert_size_cap table t2 key value hc
        rw [h1, h2, h3, h4]
        exact ⟨by simp only [insert_calls]; omega, rfl⟩
      | delete key =>
        simp only [raw_call] at hc
        cases hd : mc_hashtable_delete { _table := table } key with
        | error e => simp [hd] at hc
        | ok r =>
          simp only [hd, Except.ok.injEq] at hc
          obtain ⟨h3, h4, _⟩ := mc_hashtable_delete_size_cap _ r.2 key r.1 hd
          rw [h1, h2, ← hc, h3, h4]
          exact ⟨by simp only [insert_calls], rfl⟩

/-- C14: on every reachable handle the raw insertion `_mc_ht_insert` returns, and
whenever it returns (it filled an unoccupied slot or replaced the value of an
existing key) the insert count is one more than before and the capacity is the
same; `mc_hashtable_delete` returns, and whatever it returns (`DELETE_NOT_FOUND` or
`DELETE_MEM_RESULT`) the insert count and the capacity are the same as before.
Hence after any sequence of raw insertions and deletes on one table the count is
the count before plus the number of raw insertions, whatever was deleted. -/
theorem C14_insert_count (cmp_fn : Option K → Option K → Bool) (hash_fn : Option K → Nat)
    (table : mc_hashtable K V) (h : Reachable cmp_fn hash_fn table) (key : Option K)
    (value : Option V) :
    (∃ t1, _mc_ht_insert table._table key value = .ok t1) ∧
    (∀ t1, _mc_ht_insert table._table key value = .ok t1 →
      t1.size = table._table.size + 1 ∧ t1.cap = table._table.cap) ∧
    (∃ res table1, mc_hashtable_delete table key = .ok (res, table1)) ∧
    (∀ res table1, mc_hashtable_delete table key = .ok (res, table1) →
      table1._table.size = table._table.size ∧ table1._table.cap = table._table.cap) ∧
    (∀ calls t1, raw_run calls table._table = .ok t1 →
      t1.size = table._table.size + insert_calls calls ∧ t1.cap = table._table.cap) := by
  have hr := reachable_atRest cmp_fn hash_fn table h
  obtain ⟨j, node, hj, hnu⟩ := atRest_never_used _ hr
  refine ⟨?_, ?_, ?_, ?_, ?_⟩
  · obtain ⟨index, node1, _, _, hins⟩ := _mc_ht_insert_ok table._table key value hr.len hr.pos
      ⟨j, node, hj, never_used_insert_stop _ _ node hnu⟩
    exact ⟨_, hins⟩
  · intro t1 h1
    obtain ⟨h2, h3, _⟩ := _mc_ht_insert_size_cap _ _ _ _ h1
    exact ⟨h2, h3⟩
  · obtain ⟨res, table1, hd, _⟩ := mc_hashtable_delete_ok table key hr
    exact ⟨res, table1, hd⟩
  · intro res table1 h1
    obtain ⟨h2, h3, _⟩ := mc_hashtable_delete_size_cap _ _ _ _ h1
    exact ⟨h2, h3⟩
  · intro calls t1 h1
    exact raw_run_size_cap calls _ _ h1

/-- C14 at `demo_table` (insert count 2, one live entry): the raw insertion of key 9
and the one of key 2 each fill a slot and make the count 3; a second raw insertion of
key 2 replaces its value and makes the count 4; the deletes of key 9 (present) and of
key 1 (absent) leave the count at 2. -/
theorem C14_insert_count_witness :
    Reachable nat_eq nat_hash demo_table ∧
    ((∃ t1, _mc_ht_insert demo_table._table (some 9) (some 21) = .ok t1) ∧
     (∀ t1, _mc_ht_insert demo_table._table (some 9) (some 21) = .ok t1 →
       t1.size = demo_table._table.size + 1 ∧ t1.cap = demo_table._table.cap) ∧
     (∃ res table1, mc_hashtable_delete demo_table (some 9) = .ok (res, table1)) ∧
     (∀ res table1, mc_hashtable_delete demo_table (some 9) = .ok (res, table1) →
       table1._table.size = demo_table._table.size ∧
       table1._table.cap = demo_table._table.cap) ∧
     (∀ calls t1, raw_run calls demo_table._table = .ok t1 →
       t1.size = demo_table._table.size + insert_calls calls ∧
       t1.cap = demo_table._table.cap)) ∧
    (raw_run [.insert (some 9) (some 21)] demo_table._table).map (fun t => t.size)
      = .ok 3 ∧
    (raw_run [.insert (some 2) (some 30)] demo_table._table).map (fun t => t.size)
      = .ok 3 ∧
    (raw_run [.insert (some 2) (some 30), .insert (some 2) (some 31)]
        demo_table._table).map (fun t => t.size) = .ok 4 ∧
    (raw_run [.delete (some 9)] demo_table._table).map (fun t => t.size) = .ok 2 ∧
    (raw_run [.delete (some 1)] demo_table._table).map (fun t => t.size) = .ok 2 :=
  ⟨demo_table_reachable,
   C14_insert_count nat_eq nat_hash demo_table demo_table_reachable (some 9) (some 21),
   rfl, rfl, rfl, rfl, rfl⟩

theorem in_bounds_ok {α : Type} (a : α) : in_bounds (Except.ok a : Except Fault α) :=
  ⟨fun h => Except.noConfusion h, fun h => Except.noConfusion h⟩

theorem in_bounds_no_termination {α : Type} :
    in_bounds (Except.error Fault.no_termination : Except Fault α) := by
  constructor <;> intro h <;> injection h with h <;> exact Fault.noConfusion h

/-- A probe started inside an array of `cap` slots reads only slots of the array and
returns only indices below `cap`. -/
theorem probe_in_bounds (cont : _mc_ht_node K V → Bool) (buf : List (_mc_ht_node K V))
    (cap : Nat) (hlen : buf.length = cap) :
    ∀ (fuel index : Nat), index < cap →
      in_bounds (probe cont buf cap fuel index) ∧
      ∀ r, probe cont buf cap fuel index = .ok r → r < cap := by
  intro fuel
  induction fuel with
  | zero =>
    intro index _
    exact ⟨in_bounds_no_termination, fun r h => by simp [probe] at h⟩
  | succ n ih =>
    intro index hi
    have hlt : index < buf.length := by omega
    rw [probe, List.getElem?_eq_getElem hlt]
    simp only
    by_cases hc : cont buf[index] = true
    · rw [if_pos hc]
      exact ih _ (Nat.mod_lt _ (by omega))
    · rw [if_neg hc]
      refine ⟨in_bounds_ok _, ?_⟩
      intro r h
      injection h with h
      omega

theorem _mc_ht_insert_in_bounds (table : _mc_ht K V) (key : Option K) (value : Option V)
    (hlen : table.buf.length = table.cap) (hpos : 1 ≤ table.cap) :
    in_bounds (_mc_ht_insert table key value) := by
  have hi : table.hash_fn key % table.cap < table.cap := Nat.mod_lt _ (by omega)
  obtain ⟨h1, h2⟩ := probe_in_bounds (insert_cont table key) table.buf table.cap hlen
    table.cap _ hi
  unfold _mc_ht_insert
  rw [if_neg (by omega), insert_loop_eq_probe]
  cases hp : probe (insert_cont table key) table.buf table.cap table.cap
      (table.hash_fn key % table.cap) with
  | error e =>
    simp only
    rw [hp] at h1
    constructor
    · intro h; injection h with h; exact h1.1 (by rw [h])
    · intro h; injection h with h; exact h1.2 (by rw [h])
  | ok index =>
    simp only
    have hlt : index < table.buf.length := by have := h2 index hp; omega
    rw [List.getElem?_eq_getElem hlt]
    exact in_bounds_ok _

theorem _mc_ht_get_in_bounds (table : _mc_ht K V) (key : Option K)
    (hlen : table.buf.length = table.cap) (hpos : 1 ≤ table.cap) :
    in_bounds (_mc_ht_get table key) ∧ ∀ r, _mc_ht_get table key = .ok r → r < table.cap := by
  have hi : table.hash_fn key % table.cap < table.cap := Nat.mod_lt _ (by omega)
  unfold _mc_ht_get
  rw [if_neg (by omega), get_loop_eq_probe]
  exact probe_in_bounds (get_cont table key) table.buf table.cap hlen table.cap _ hi

theorem rehash_loop_in_bounds (old : _mc_ht K V) (hlen : old.buf.length = old.cap) :
    ∀ (n i : Nat) (nt : _mc_ht K V), i + n ≤ old.cap → nt.buf.length = nt.cap → 1 ≤ nt.cap →
      in_bounds (rehash_loop old n i nt) := by
  intro n
  induction n with
  | zero => intro i nt _ _ _; exact in_bounds_ok _
  | succ n ih =>
    intro i nt hin hl hp
    have hi : i < old.buf.length := by omega
    rw [rehash_loop, List.getElem?_eq_getElem hi]
    simp only
    by_cases hocc : (old.buf[i])._occupied = true
    · rw [if_pos hocc]
      have hb := _mc_ht_insert_in_bounds nt (old.buf[i]).key (old.buf[i]).value hl hp
      cases hins : _mc_ht_insert nt (old.buf[i]).key (old.buf[i]).value with
      | error e =>
        simp only
        rw [hins] at hb
        exact hb
      | ok nt1 =>
        simp only
        obtain ⟨_, h2, h3, _⟩ := _mc_ht_insert_size_cap _ _ _ _ hins
        exact ih (i + 1) nt1 (by omega) (by rw [h3, h2]; exact hl) (by rw [h2]; exact hp)
    · rw [if_neg hocc]
      exact ih (i + 1) nt (by omega) hl hp

theorem mc_hashtable_insert_in_bounds (table : mc_hashtable K V) (key : Option K)
    (value : Option V) (hlen : table._table.buf.length = table._table.cap)
    (hpos : 1 ≤ table._table.cap) : in_bounds (mc_hashtable_insert table key value) := by
  have hb := _mc_ht_insert_in_bounds table._table key value hlen hpos
  unfold mc_hashtable_insert
  cases hins : _mc_ht_insert table._table key value with
  | error e =>
    simp only
    rw [hins] at hb
    constructor
    · intro h; injection h with h; exact hb.1 (by rw [h])
    · intro h; injection h with h; exact hb.2 (by rw [h])
  | ok t =>
    simp only
    obtain ⟨_, h2, h3, _⟩ := _mc_ht_insert_size_cap _ _ _ _ hins
    by_cases hsz : t.size < t.cap / 2
    · rw [if_pos hsz]
      exact in_bounds_ok _
    · rw [if_neg hsz]
      have hre := rehash_loop_in_bounds t (by rw [h3, h2]; exact hlen) t.cap 0
        (_mc_ht_new (t.cap * 2) t.compare_fn t.hash_fn) (by omega)
        (by simp [_mc_ht_new]) (by simp only [_mc_ht_new]; omega)
      cases hr : rehash_loop t t.cap 0 (_mc_ht_new (t.cap * 2) t.compare_fn t.hash_fn) with
      | error e =>
        simp only
        rw [hr] at hre
        constructor
        · intro h; injection h with h; exact hre.1 (by rw [h])
        · intro h; injection h with h; exact hre.2 (by rw [h])
      | ok nt => exact in_bounds_ok _

theorem mc_hashtable_get_in_bounds (table : mc_hashtable K V) (key : Option K)
    (hlen : table._table.buf.length = table._table.cap) (hpos : 1 ≤ table._table.cap) :
    in_bounds (mc_hashtable_get table key) := by
  obtain ⟨hb, hr⟩ := _mc_ht_get_in_bounds table._table key hlen hpos
  unfold mc_hashtable_get
  cases hg : _mc_ht_get table._table key with
  | error e =>
    simp only
    rw [hg] at hb
    constructor
    · intro h; injection h with h; exact hb.1 (by rw [h])
    · intro h; injection h with h; exact hb.2 (by rw [h])
  | ok index =>
    simp only
    have hlt : index < table._table.buf.length := by have := hr index hg; omega
    rw [List.getElem?_eq_getElem hlt]
    simp only
    split_ifs <;> exact in_bounds_ok _

theorem mc_hashtable_delete_in_bounds (table : mc_hashtable K V) (key : Option K)
    (hlen : table._table.buf.length = table._table.cap) (hpos : 1 ≤ table._table.cap) :
    in_bounds (mc_hashtable_delete table key) := by
  obtain ⟨hb, hr⟩ := _mc_ht_get_in_bounds table._table key hlen hpos
  unfold mc_hashtable_delete
  cases hg : _mc_ht_get table._table key with
  | error e =>
    simp only
    rw [hg] at hb
    constructor
    · intro h; injection h with h; exact hb.1 (by rw [h])
    · intro h; injection h with h; exact hb.2 (by rw [h])
  | ok index =>
    simp only
    have hlt : index < table._table.buf.length := by have := hr index hg; omega
    rw [List.getElem?_eq_getElem hlt]
    simp only
    split_ifs <;> exact in_bounds_ok _

/-- C16: for every table with `cap >= 1` slots (as the table of every reachable
handle is) and every key: the start index `hash_fn(key) % cap` and the next index
`(index + 1) % cap` of an index below `cap` are below `cap`; the loops of
`_mc_ht_insert` and `_mc_ht_get`, started below `cap`, never read outside the array
and return only indices below `cap`, with any amount of fuel; the rehash loop of
`mc_hashtable_insert`, with `i + n <= cap`, reads only slots of the old table; and
`_mc_ht_insert`, `_mc_ht_get`, `mc_hashtable_get`, `mc_hashtable_delete` and
`mc_hashtable_insert` never end in the out-of-range branch of a slot access or in a
modulus by zero. -/
theorem C16_indices_in_bounds (table : mc_hashtable K V)
    (hlen : table._table.buf.length = table._table.cap) (hpos : 1 ≤ table._table.cap) :
    (∀ key, table._table.hash_fn key % table._table.cap < table._table.cap) ∧
    (∀ index, index < table._table.cap → (index + 1) % table._table.cap < table._table.cap) ∧
    (∀ key fuel index, index < table._table.cap →
      in_bounds (_mc_ht_insert_loop table._table key fuel index) ∧
      ∀ r, _mc_ht_insert_loop table._table key fuel index = .ok r → r < table._table.cap) ∧
    (∀ key fuel index, index < table._table.cap →
      in_bounds (_mc_ht_get_loop table._table key fuel index) ∧
      ∀ r, _mc_ht_get_loop table._table key fuel index = .ok r → r < table._table.cap) ∧
    (∀ n i (new_table : _mc_ht K V), i + n ≤ table._table.cap →
      new_table.buf.length = new_table.cap → 1 ≤ new_table.cap →
      in_bounds (rehash_loop table._table n i new_table)) ∧
    (∀ key value, in_bounds (_mc_ht_insert table._table key value)) ∧
    (∀ key, in_bounds (_mc_ht_get table._table key)) ∧
    (∀ key, in_bounds (mc_hashtable_get table key)) ∧
    (∀ key, in_bounds (mc_hashtable_delete table key)) ∧
    (∀ key value, in_bounds (mc_hashtable_insert table key value)) := by
  refine ⟨?_, ?_, ?_, ?_, ?_, ?_, ?_, ?_, ?_, ?_⟩
  · intro key; exact Nat.mod_lt _ (by omega)
  · intro index _; exact Nat.mod_lt _ (by omega)
  · intro key fuel index hi
    rw [insert_loop_eq_probe]
    exact probe_in_bounds _ _ _ hlen fuel index hi
  · intro key fuel index hi
    rw [get_loop_eq_probe]
    exact probe_in_bounds _ _ _ hlen fuel index hi
  · intro n i new_table hin hl hp
    exact rehash_loop_in_bounds _ hlen n i new_table hin hl hp
  · intro key value; exact _mc_ht_insert_in_bounds _ key value hlen hpos
  · intro key; exact (_mc_ht_get_in_bounds _ key hlen hpos).1
  · intro key; exact mc_hashtable_get_in_bounds table key hlen hpos
  · intro key; exact mc_hashtable_delete_in_bounds table key hlen hpos
  · intro key value; exact mc_hashtable_insert_in_bounds table key value hlen hpos

/-- C16 at the reachable `demo_table` (8 slots). -/
theorem C16_indices_in_bounds_witness :
    Reachable nat_eq nat_hash demo_table ∧
    (∀ key, demo_table._table.hash_fn key % demo_table._table.cap < demo_table._table.cap) ∧
    (∀ key fuel index, index < demo_table._table.cap →
      in_bounds (_mc_ht_get_loop demo_table._table key fuel index) ∧
      ∀ r, _mc_ht_get_loop demo_table._table key fuel index = .ok r →
        r < demo_table._table.cap) ∧
    (∀ key value, in_bounds (mc_hashtable_insert demo_table key value)) :=
  have h := C16_indices_in_bounds demo_table rfl (by decide)
  ⟨demo_table_reachable, h.1, h.2.2.2.1, h.2.2.2.2.2.2.2.2.2⟩

/-! ## Tombstones -/

theorem _mc_ht_insert_deleted (table t1 : _mc_ht K V) (key : Option K) (value : Option V)
    (h : _mc_ht_insert table key value = .ok t1) (j : Nat) (node : _mc_ht_node K V)
    (hj : table.buf[j]? = some node) :
    ∃ node1, t1.buf[j]? = some node1 ∧ node1._deleted = node._deleted := by
  obtain ⟨index, node0, _, _, hnode0, _, ht⟩ := _mc_ht_insert_inv table t1 key value h
  rw [ht]
  simp only
  have hjlt : j < table.buf.length := (List.getElem?_eq_some_iff.mp hj).1
  by_cases hij : index = j
  · subst hij
    rw [List.getElem?_set_self hjlt]
    rw [hnode0] at hj
    injection hj with hj
    exact ⟨_, rfl, by rw [← hj]⟩
  · rw [List.getElem?_set_ne hij]
    exact ⟨node, hj, rfl⟩

theorem mc_hashtable_delete_deleted (table table1 : mc_hashtable K V) (key : Option K)
    (res : mc_ht_delete_result K V) (h : mc_hashtable_delete table key = .ok (res, table1))
    (j : Nat) (node : _mc_ht_node K V) (hj : table._table.buf[j]? = some node)
    (hd : node._deleted = true) :
    ∃ node1, table1._table.buf[j]? = some node1 ∧ node1._deleted = true := by
  unfold mc_hashtable_delete at h
  split at h
  · exact Except.noConfusion h
  · rename_i index _
    split at h
    · exact Except.noConfusion h
    · split_ifs at h
      · injection h with h
        injection h with _ h
        rw [← h]
        exact ⟨node, hj, hd⟩
      · injection h with h
        injection h with _ h
        rw [← h]
        simp only
        have hjlt : j < table._table.buf.length := (List.getElem?_eq_some_iff.mp hj).1
        by_cases hij : index = j
        · subst hij
          rw [List.getElem?_set_self hjlt]
          exact ⟨_, rfl, rfl⟩
        · rw [List.getElem?_set_ne hij]
          exact ⟨node, hj, hd⟩

/-- The rehash loop performs one raw insertion per occupied slot of the old table
from index `i` on: the insert count of the new table grows by their number. -/
theorem rehash_loop_size (old : _mc_ht K V) :
    ∀ (n i : Nat) (nt nt1 : _mc_ht K V), i + n = old.buf.length →
      rehash_loop old n i nt = .ok nt1 →
      nt1.size = nt.size + (old.buf.drop i).countP (fun node => node._occupied) := by
  intro n
  induction n with
  | zero =>
    intro i nt nt1 hin h
    simp only [rehash_loop, Except.ok.injEq] at h
    rw [← h, List.drop_of_length_le (by omega)]
    rfl
  | succ n ih =>
    intro i nt nt1 hin h
    have hi : i < old.buf.length := by omega
    rw [rehash_loop, List.getElem?_eq_getElem hi] at h
    simp only at h
    rw [List.drop_eq_getElem_cons hi, List.countP_cons]
    by_cases hocc : (old.buf[i])._occupied = true
    · rw [if_pos hocc] at h
      cases hins : _mc_ht_insert nt (old.buf[i]).key (old.buf[i]).value with
      | error e => simp [hins] at h
      | ok nt2 =>
        simp only [hins] at h
        rw [ih (i + 1) nt2 nt1 (by omega) h, (_mc_ht_insert_size_cap _ _ _ _ hins).1,
          if_pos hocc]
        omega
    · rw [if_neg hocc] at h
      rw [ih (i + 1) nt nt1 (by omega) h, if_neg hocc]
      rfl

theorem rehash_loop_no_deleted (old : _mc_ht K V) (n i : Nat) (nt nt1 : _mc_ht K V)
    (hnt : ∀ node ∈ nt.buf, node._deleted = false)
    (h : rehash_loop old n i nt = .ok nt1) : ∀ node ∈ nt1.buf, node._deleted = false := by
  refine rehash_loop_invariant old (fun t => ∀ node ∈ t.buf, node._deleted = false) ?_
    n i nt nt1 hnt h
  intro t t1 node0 _ _ hP hins node hmem
  obtain ⟨index, node1, _, _, hnode1, _, ht⟩ := _mc_ht_insert_inv t t1 _ _ hins
  rw [ht] at hmem
  rcases List.mem_or_eq_of_mem_set hmem with hm | hm
  · exact hP node hm
  · rw [hm]
    exact hP node1 (List.mem_iff_getElem?.mpr ⟨index, hnode1⟩)

theorem rehash_loop_copies (old : _mc_ht K V) (n i : Nat) (nt nt1 : _mc_ht K V)
    (hnt : ∀ node ∈ nt.buf, node._occupied = false)
    (h : rehash_loop old n i nt = .ok nt1) :
    ∀ node ∈ nt1.buf, node._occupied = true →
      ∃ node0 ∈ old.buf, node0._occupied = true ∧ node0.key = node.key ∧
        node0.value = node.value := by
  refine rehash_loop_invariant old (fun t => ∀ node ∈ t.buf, node._occupied = true →
      ∃ node0 ∈ old.buf, node0._occupied = true ∧ node0.key = node.key ∧
        node0.value = node.value) ?_ n i nt nt1 ?_ h
  · intro t t1 node0 hmem0 hocc0 hP hins node hmem hocc
    obtain ⟨index, node1, _, _, hnode1, _, ht⟩ := _mc_ht_insert_inv t t1 _ _ hins
    rw [ht] at hmem
    rcases List.mem_or_eq_of_mem_set hmem with hm | hm
    · exact hP node hm hocc
    · rw [hm]
      exact ⟨node0, hmem0, hocc0, rfl, rfl⟩
  · intro node hmem hocc
    rw [hnt node hmem] at hocc
    exact Bool.noConfusion hocc

/-- C15: on every reachable handle, (a) `mc_hashtable_delete` returns and every slot
marked deleted before it is marked deleted after it, and the same holds for
`mc_hashtable_insert` when it does not grow the table (so no such slot is
never-used afterwards); (b) when `mc_hashtable_insert` grows the table, the new
table has no slot marked deleted, each of its occupied slots holds the key and the
value of an occupied slot of the old table (as it was after the raw insertion), and
its insert count is the number of occupied slots of that old table. -/
theorem C15_tombstones (cmp_fn : Option K → Option K → Bool) (hash_fn : Option K → Nat)
    (table : mc_hashtable K V) (h : Reachable cmp_fn hash_fn table) (key : Option K)
    (value : Option V) :
    (∃ res table1, mc_hashtable_delete table key = .ok (res, table1) ∧
      ∀ (j : Nat) (node : _mc_ht_node K V), table._table.buf[j]? = some node →
        node._deleted = true →
        ∃ node1, table1._table.buf[j]? = some node1 ∧ node1._deleted = true) ∧
    (∃ t1, _mc_ht_insert table._table key value = .ok t1 ∧
      (t1.size < t1.cap / 2 →
        mc_hashtable_insert table key value = .ok (0, { _table := t1 }) ∧
        ∀ (j : Nat) (node : _mc_ht_node K V), table._table.buf[j]? = some node →
          node._deleted = true → ∃ node1, t1.buf[j]? = some node1 ∧ node1._deleted = true) ∧
      (¬ t1.size < t1.cap / 2 →
        ∃ new_table, mc_hashtable_insert table key value = .ok (0, { _table := new_table }) ∧
          (∀ node ∈ new_table.buf, node._deleted = false) ∧
          (∀ node ∈ new_table.buf, node._occupied = true →
            ∃ node0 ∈ t1.buf, node0._occupied = true ∧ node0.key = node.key ∧
              node0.value = node.value) ∧
          new_table.size = t1.buf.countP (fun node => node._occupied))) := by
  have hr := reachable_atRest cmp_fn hash_fn table h
  obtain ⟨j, node, hj, hnu⟩ := atRest_never_used _ hr
  constructor
  · obtain ⟨res, table1, hd, _⟩ := mc_hashtable_delete_ok table key hr
    exact ⟨res, table1, hd, fun j node hj hdel =>
      mc_hashtable_delete_deleted table table1 key res hd j node hj hdel⟩
  · obtain ⟨index, node1, _, _, hins⟩ := _mc_ht_insert_ok table._table key value hr.len hr.pos
      ⟨j, node, hj, never_used_insert_stop _ _ node hnu⟩
    refine ⟨_, hins, ?_, ?_⟩
    · intro hlt
      refine ⟨?_, ?_⟩
      · unfold mc_hashtable_insert
        rw [hins]
        simp only
        rw [if_pos hlt]
      · intro j1 node2 hj1 hdel
        obtain ⟨node3, h3, h4⟩ := _mc_ht_insert_deleted _ _ key value hins j1 node2 hj1
        exact ⟨node3, h3, by rw [h4, hdel]⟩
    · intro hge
      have hlen1 : (table._table.buf.set index
          { node1 with key := key, value := value, _occupied := true }).length
            = table._table.cap := by
        simp only [List.length_set]; exact hr.len
      obtain ⟨nt1, hre, _⟩ := rehash_loop_ok
        ({ table._table with
            buf := table._table.buf.set index
              { node1 with key := key, value := value, _occupied := true },
            size := table._table.size + 1 } : _mc_ht K V)
        hlen1 table._table.cap 0
        (_mc_ht_new (table._table.cap * 2) table._table.compare_fn table._table.hash_fn)
        (by simp) (by simp [_mc_ht_new]) (by simp [_mc_ht_new])
        (by simp [_mc_ht_new, used_replicate_zero]) (by simp [_mc_ht_new])
      have hzero : ∀ nd ∈ (_mc_ht_new (table._table.cap * 2) table._table.compare_fn
          table._table.hash_fn : _mc_ht K V).buf, nd = zero_node := by
        intro nd hm
        simp only [_mc_ht_new, List.mem_replicate] at hm
        exact hm.2
      refine ⟨nt1, ?_, ?_, ?_, ?_⟩
      · unfold mc_hashtable_insert
        rw [hins]
        simp only
        rw [if_neg hge, hre]
      · exact rehash_loop_no_deleted _ _ _ _ _ (fun nd hm => by rw [hzero nd hm]; rfl) hre
      · exact rehash_loop_copies _ _ _ _ _ (fun nd hm => by rw [hzero nd hm]; rfl) hre
      · have hsz := rehash_loop_size _ _ 0 _ _ (by rw [Nat.zero_add]; exact hlen1.symm) hre
        rw [hsz]
        simp [_mc_ht_new]

/-- C15 at the reachable `demo_table`, whose slot 1 is marked deleted: a delete and a
non-growing insert keep the mark; two inserts later the table is rebuilt with 16
slots, none of them marked deleted. -/
theorem C15_tombstones_witness :
    Reachable nat_eq nat_hash demo_table ∧
    ((∃ res table1, mc_hashtable_delete demo_table (some 1) = .ok (res, table1) ∧
      ∀ (j : Nat) (node : _mc_ht_node Nat Nat), demo_table._table.buf[j]? = some node →
        node._deleted = true →
        ∃ node1, table1._table.buf[j]? = some node1 ∧ node1._deleted = true) ∧
    (∃ t1, _mc_ht_insert demo_table._table (some 1) (some 11) = .ok t1 ∧
      (t1.size < t1.cap / 2 →
        mc_hashtable_insert demo_table (some 1) (some 11) = .ok (0, { _table := t1 }) ∧
        ∀ (j : Nat) (node : _mc_ht_node Nat Nat), demo_table._table.buf[j]? = some node →
          node._deleted = true → ∃ node1, t1.buf[j]? = some node1 ∧ node1._deleted = true) ∧
      (¬ t1.size < t1.cap / 2 →
        ∃ new_table, mc_hashtable_insert demo_table (some 1) (some 11)
            = .ok (0, { _table := new_table }) ∧
          (∀ node ∈ new_table.buf, node._deleted = false) ∧
          (∀ node ∈ new_table.buf, node._occupied = true →
            ∃ node0 ∈ t1.buf, node0._occupied = true ∧ node0.key = node.key ∧
              node0.value = node.value) ∧
          new_table.size = t1.buf.countP (fun node => node._occupied)))) ∧
    buf_after [.insert (some 1) (some 11), .insert (some 2) (some 30)] demo_table
      = .ok [zero_node, { key := some 1, _occupied := true, _deleted := false, value := some 11 },
             { key := some 2, _occupied := true, _deleted := false, value := some 30 },
             zero_node, zero_node, zero_node, zero_node, zero_node, zero_node,
             { key := some 9, _occupied := true, _deleted := false, value := some 20 },
             zero_node, zero_node, zero_node, zero_node, zero_node, zero_node] :=
  ⟨demo_table_reachable,
   C15_tombstones nat_eq nat_hash demo_table demo_table_reachable (some 1) (some 11), rfl⟩

/-! ## Allocation failure -/

/-- With both allocations succeeding the rehash loop is the one of the model above. -/
theorem rehash_loop_alloc_ok (old : _mc_ht K V) :
    ∀ (n i : Nat) (nt : _mc_ht K V), 1 ≤ nt.cap →
      rehash_loop_alloc old n i nt.to_heap
        = match rehash_loop old n i nt with
          | .error e => .fault e
          | .ok nt1 => .returns nt1.to_heap := by
  intro n
  induction n with
  | zero => intro i nt _; rfl
  | succ n ih =>
    intro i nt hp
    rw [rehash_loop_alloc, rehash_loop]
    cases old.buf[i]? with
    | none => rfl
    | some node =>
      simp only
      by_cases hocc : node._occupied = true
      · rw [if_pos hocc, if_pos hocc]
        have hins : _mc_ht_insert_heap nt.to_heap node.key node.value
            = match _mc_ht_insert nt node.key node.value with
              | .error e => .fault e
              | .ok t1 => .returns t1.to_heap := by
          unfold _mc_ht_insert_heap
          simp only [_mc_ht.to_heap]
          rw [if_neg (by omega)]
        rw [hins]
        cases hi : _mc_ht_insert nt node.key node.value with
        | error e => rfl
        | ok nt1 =>
          simp only
          exact ih (i + 1) nt1 (by rw [(_mc_ht_insert_size_cap _ _ _ _ hi).2.1]; exact hp)
      · rw [if_neg hocc, if_neg hocc]
        exact ih (i + 1) nt hp

/-- With both allocations succeeding `mc_hashtable_insert_alloc` is
`mc_hashtable_insert`. -/
theorem mc_hashtable_insert_alloc_ok (table : mc_hashtable K V) (key : Option K)
    (value : Option V) (hpos : 1 ≤ table._table.cap) :
    mc_hashtable_insert_alloc true true table key value
      = match mc_hashtable_insert table key value with
        | .error e => .fault e
        | .ok r => .returns (r.1, r.2._table.to_heap) := by
  unfold mc_hashtable_insert_alloc mc_hashtable_insert
  cases hins : _mc_ht_insert table._table key value with
  | error e => rfl
  | ok t =>
    simp only
    by_cases hsz : t.size < t.cap / 2
    · rw [if_pos hsz, if_pos hsz]
    · rw [if_neg hsz, if_neg hsz]
      have hnew : (_mc_ht_new_alloc true true (t.cap * 2) t.compare_fn t.hash_fn :
          Outcome (Option (_mc_ht_heap K V)))
          = .returns (some (_mc_ht_new (t.cap * 2) t.compare_fn t.hash_fn).to_heap) := rfl
      rw [hnew]
      simp only
      rw [rehash_loop_alloc_ok t t.cap 0 _ (by
        simp only [_mc_ht_new]
        have := (_mc_ht_insert_size_cap _ _ _ _ hins).2.1
        omega)]
      cases rehash_loop t t.cap 0 (_mc_ht_new (t.cap * 2) t.compare_fn t.hash_fn) with
      | error e => rfl
      | ok nt => rfl

/-- Whatever the allocator does, `mc_hashtable_insert_alloc` does not return `-1`:
`_mc_ht_new_alloc` never returns `NULL`. -/
theorem mc_hashtable_insert_alloc_status (calloc_ok malloc_ok : Bool)
    (table : mc_hashtable K V) (key : Option K) (value : Option V) (status : Int)
    (t1 : _mc_ht_heap K V)
    (h : mc_hashtable_insert_alloc calloc_ok malloc_ok table key value
      = .returns (status, t1)) : status = 0 := by
  unfold mc_hashtable_insert_alloc at h
  split at h
  · exact Outcome.noConfusion h
  · split_ifs at h
    · injection h with h
      injection h with h _
      exact h.symm
    · cases malloc_ok with
      | false => simp [_mc_ht_new_alloc] at h
      | true =>
        simp only [_mc_ht_new_alloc, if_true] at h
        split at h
        · exact Outcome.noConfusion h
        · exact Outcome.noConfusion h
        · injection h with h
          injection h with h _
          exact h.symm

/-- When `malloc` fails in a growing insert, the call writes through `NULL`. -/
theorem mc_hashtable_insert_alloc_malloc_fails (calloc_ok : Bool) (table : mc_hashtable K V)
    (key : Option K) (value : Option V) (t : _mc_ht K V)
    (hins : _mc_ht_insert table._table key value = .ok t) (hgrow : ¬ t.size < t.cap / 2) :
    mc_hashtable_insert_alloc calloc_ok false table key value = .null_dereference := by
  unfold mc_hashtable_insert_alloc
  rw [hins]
  simp only
  rw [if_neg hgrow]
  rfl

/-- The rehash loop into a table whose `buf` is `NULL` reads through `NULL` at the
first occupied slot of the old table. -/
theorem rehash_loop_alloc_null (old : _mc_ht K V) (hlen : old.buf.length = old.cap) :
    ∀ (n i : Nat) (nt : _mc_ht_heap K V), i + n = old.cap → nt.buf = none → nt.cap ≠ 0 →
      (∃ (j : Nat) (node : _mc_ht_node K V), i ≤ j ∧ old.buf[j]? = some node ∧
        node._occupied = true) →
      rehash_loop_alloc old n i nt = .null_dereference := by
  intro n
  induction n with
  | zero =>
    rintro i nt hin _ _ ⟨j, node, hij, hj, _⟩
    have := (List.getElem?_eq_some_iff.mp hj).1
    omega
  | succ n ih =>
    rintro i nt hin hbuf hcap ⟨j, node, hij, hj, hocc⟩
    have hi : i < old.buf.length := by omega
    rw [rehash_loop_alloc, List.getElem?_eq_getElem hi]
    simp only
    by_cases ho : (old.buf[i])._occupied = true
    · rw [if_pos ho]
      have : _mc_ht_insert_heap nt (old.buf[i]).key (old.buf[i]).value
          = .null_dereference := by
        unfold _mc_ht_insert_heap
        rw [if_neg hcap, hbuf]
      rw [this]
    · rw [if_neg ho]
      apply ih (i + 1) nt (by omega) hbuf hcap
      refine ⟨j, node, ?_, hj, hocc⟩
      by_contra hlt
      have hji : j = i := by omega
      subst hji
      rw [List.getElem?_eq_getElem hi] at hj
      injection hj with hj
      rw [hj] at ho
      exact ho hocc

/-- When `calloc` fails in a growing insert on a table with `cap >= 1` slots, the call
reads through the `NULL` slot array of the new table. -/
theorem mc_hashtable_insert_alloc_calloc_fails (table : mc_hashtable K V) (key : Option K)
    (value : Option V) (t : _mc_ht K V) (hlen : table._table.buf.length = table._table.cap)
    (hins : _mc_ht_insert table._table key value = .ok t) (hgrow : ¬ t.size < t.cap / 2) :
    mc_hashtable_insert_alloc false true table key value = .null_dereference := by
  obtain ⟨index, node, hpos, _, hnode, _, ht⟩ := _mc_ht_insert_inv _ _ _ _ hins
  have hlt : index < table._table.buf.length := (List.getElem?_eq_some_iff.mp hnode).1
  unfold mc_hashtable_insert_alloc
  rw [hins]
  simp only
  rw [if_neg hgrow]
  simp only [_mc_ht_new_alloc, if_true]
  rw [rehash_loop_alloc_null t (by rw [ht]; simp only [List.length_set]; exact hlen) t.cap 0 _
    (by omega) rfl (by rw [ht]; simp only; omega)]
  refine ⟨index, { node with key := key, value := value, _occupied := true },
    Nat.zero_le _, ?_, rfl⟩
  rw [ht]
  simp only
  rw [List.getElem?_set_self hlt]

theorem reinsert_table_run :
    run_calls [.insert (some 1) (some 10), .delete (some 1), .insert (some 1) (some 11)]
      (mc_hashtable_new 8 nat_eq nat_hash) = .ok reinsert_table := rfl

theorem reinsert_table_reachable : Reachable nat_eq nat_hash reinsert_table :=
  reachable_run_calls nat_eq nat_hash _ _ _ (Reachable.new 8 (by decide)) reinsert_table_run

/-- C11, the code at a failing input: the first insert into a table of capacity 1
grows the table.  When `malloc` returns `NULL` in `_mc_ht_new` (whether or not
`calloc` does), the stores through the new table pointer go through `NULL`; when
only `calloc` returns `NULL`, the rehash reads through the `NULL` slot array of the
new table.  In no case does the call return `-1`: every status it returns is `0`. -/
theorem C11_allocation_failure_dereferences_null :
    mc_hashtable_insert_alloc true false (mc_hashtable_new 1 nat_eq nat_hash)
      (some 1) (some 10) = (Outcome.null_dereference : Outcome (Int × _mc_ht_heap Nat Nat)) ∧
    mc_hashtable_insert_alloc false false (mc_hashtable_new 1 nat_eq nat_hash)
      (some 1) (some 10) = (Outcome.null_dereference : Outcome (Int × _mc_ht_heap Nat Nat)) ∧
    mc_hashtable_insert_alloc false true (mc_hashtable_new 1 nat_eq nat_hash)
      (some 1) (some 10) = (Outcome.null_dereference : Outcome (Int × _mc_ht_heap Nat Nat)) ∧
    (∀ (calloc_ok malloc_ok : Bool) (status : Int) (t1 : _mc_ht_heap Nat Nat),
      mc_hashtable_insert_alloc calloc_ok malloc_ok (mc_hashtable_new 1 nat_eq nat_hash)
        (some 1) (some 10) = .returns (status, t1) → status = 0) :=
  ⟨rfl, rfl, rfl, fun calloc_ok malloc_ok status t1 h =>
    mc_hashtable_insert_alloc_status calloc_ok malloc_ok _ _ _ status t1 h⟩

/-- The raw insertion on a table with `cap >= 1` slots, one of them unoccupied,
returns, and writes exactly one slot: the first slot of the probe sequence from
`hash_fn(key) % cap` that is unoccupied or holds a key that compares equal.  The
slot gets `key`, `value` and `_occupied = true` and keeps its `_deleted` field;
every other slot is unchanged. -/
theorem _mc_ht_insert_first_slot (table : _mc_ht K V) (key : Option K) (value : Option V)
    (hlen : table.buf.length = table.cap) (hpos : 1 ≤ table.cap)
    (hfree : ∃ (j : Nat) (node : _mc_ht_node K V),
      table.buf[j]? = some node ∧ node._occupied = false) :
    ∃ (t1 : _mc_ht K V) (index m : Nat) (node : _mc_ht_node K V),
      _mc_ht_insert table key value = .ok t1 ∧
      m < table.cap ∧ (table.hash_fn key % table.cap + m) % table.cap = index ∧
      table.buf[index]? = some node ∧
      (node._occupied = false ∨ table.compare_fn node.key key = true) ∧
      (∀ j, j < m → ∃ nj, table.buf[(table.hash_fn key % table.cap + j) % table.cap]? = some nj ∧
        nj._occupied = true ∧ table.compare_fn nj.key key = false) ∧
      t1.buf[index]? = some { key := key, _occupied := true, _deleted := node._deleted,
                              value := value } ∧
      (∀ (j : Nat), j ≠ index → t1.buf[j]? = table.buf[j]?) ∧
      t1.buf.length = table.buf.length := by
  obtain ⟨j, node0, hj, hocc0⟩ := hfree
  obtain ⟨index, node, hnode, hstop, hins⟩ := _mc_ht_insert_ok table key value hlen hpos
    ⟨j, node0, hj, by simp [insert_cont, hocc0]⟩
  obtain ⟨index1, node1, _, hp, hnode1, _, ht⟩ := _mc_ht_insert_inv _ _ _ _ hins
  have hi : table.hash_fn key % table.cap < table.cap := Nat.mod_lt _ (by omega)
  obtain ⟨m, hm, hr, _, hbefore⟩ := probe_first _ _ _ _ _ _ hi hp
  have hlt : index1 < table.buf.length := (List.getElem?_eq_some_iff.mp hnode1).1
  refine ⟨_, index1, m, node1, hins, hm, hr, hnode1, ?_, ?_, ?_, ?_, ?_⟩
  · have hs := (probe_ok_stop _ _ _ _ _ _ hp)
    obtain ⟨n2, hn2, hc2⟩ := hs
    rw [hnode1] at hn2
    injection hn2 with hn2
    subst hn2
    simp only [insert_cont, Bool.and_eq_false_imp, beq_iff_eq] at hc2
    cases ho : node1._occupied with
    | false => exact Or.inl rfl
    | true =>
      right
      have := hc2 ho
      simpa using this
  · intro j1 hj1
    obtain ⟨nj, h1, h2⟩ := hbefore j1 hj1
    refine ⟨nj, h1, ?_⟩
    simp only [insert_cont, Bool.and_eq_true, beq_iff_eq, bne_iff_ne, ne_eq,
      Bool.not_eq_true] at h2
    exact h2
  · rw [ht]
    simp only
    rw [List.getElem?_set_self hlt]
  · intro j1 hj1
    rw [ht]
    simp only
    rw [List.getElem?_set_ne (Ne.symm hj1)]
  · rw [ht]
    simp only [List.length_set]

/-- C12, the code at a failing input: in `demo_table` (8 slots, slot 1 marked
deleted and unoccupied) the raw insertion of key 1 writes slot 1, the start slot of
key 1, and leaves it with `_occupied = true` and `_deleted = true`: the slot is both
occupied and tombstoned.  Every other slot is unchanged. -/
theorem C12_raw_insert_keeps_deleted_mark :
    demo_table._table.buf[1]?
      = some { key := none, _occupied := false, _deleted := true, value := some 10 } ∧
    (_mc_ht_insert demo_table._table (some 1) (some 11)).map (fun t => t.buf)
      = .ok [zero_node,
             { key := some 1, _occupied := true, _deleted := true, value := some 11 },
             { key := some 9, _occupied := true, _deleted := false, value := some 20 },
             zero_node, zero_node, zero_node, zero_node, zero_node] :=
  ⟨rfl, rfl⟩

/-! ## The lookup -/

theorem get_cont_false_iff (table : _mc_ht K V) (key : Option K) (node : _mc_ht_node K V) :
    get_cont table key node = false ↔
      node._deleted = false ∧
        (node._occupied = false ∨ table.compare_fn node.key key = true) := by
  cases ho : node._occupied <;> cases hd : node._deleted <;>
    cases hc : table.compare_fn node.key key <;> simp [get_cont, ho, hd, hc]

theorem get_cont_true_iff (table : _mc_ht K V) (key : Option K) (node : _mc_ht_node K V) :
    get_cont table key node = true ↔
      node._deleted = true ∨
        (node._occupied = true ∧ table.compare_fn node.key key = false) := by
  cases ho : node._occupied <;> cases hd : node._deleted <;>
    cases hc : table.compare_fn node.key key <;> simp [get_cont, ho, hd, hc]

/-- The lookup, when it returns, returns the first slot of the probe sequence at
which its loop stops. -/
theorem _mc_ht_get_first (table : _mc_ht K V) (key : Option K) (r : Nat)
    (h : _mc_ht_get table key = .ok r) :
    ∃ (m : Nat) (node : _mc_ht_node K V), m < table.cap ∧
      (table.hash_fn key % table.cap + m) % table.cap = r ∧
      table.buf[r]? = some node ∧ get_cont table key node = false ∧
      ∀ j, j < m → ∃ nj, table.buf[(table.hash_fn key % table.cap + j) % table.cap]? = some nj ∧
        get_cont table key nj = true := by
  unfold _mc_ht_get at h
  split_ifs at h with hc
  rw [get_loop_eq_probe] at h
  have hi : table.hash_fn key % table.cap < table.cap := Nat.mod_lt _ (by omega)
  obtain ⟨m, hm, hr, ⟨node, hnode, hstop⟩, hbefore⟩ := probe_first _ _ _ _ _ _ hi h
  exact ⟨m, node, hm, hr, hnode, hstop, hbefore⟩

/-- C13, the code at a failing input: at `reinsert_table`, the handle reached by
insert(1, 10), delete(1), insert(1, 11), the start slot of key 1, slot 1, is occupied
with key 1, so it is the first slot of the probe sequence that is occupied with an
equal key or never used; because the raw insertion left the slot marked deleted,
`_mc_ht_get` passes it and returns slot 2, a never-used slot, and
`mc_hashtable_get` returns `NULL`, not the value 11 of slot 1. -/
theorem C13_lookup_passes_occupied_equal_key :
    Reachable nat_eq nat_hash reinsert_table ∧
    reinsert_table._table.hash_fn (some 1) % reinsert_table._table.cap = 1 ∧
    reinsert_table._table.buf[1]?
      = some { key := some 1, _occupied := true, _deleted := true, value := some 11 } ∧
    reinsert_table._table.compare_fn (some 1) (some 1) = true ∧
    _mc_ht_get reinsert_table._table (some 1) = .ok 2 ∧
    reinsert_table._table.buf[2]? = some zero_node ∧
    mc_hashtable_get reinsert_table (some 1) = .ok none :=
  ⟨reinsert_table_reachable, rfl, rfl, rfl, rfl, rfl, rfl⟩

/-- What the lookup loop does as written (mc_ht.h:97): on every reachable handle
`_mc_ht_get` returns, and the slot it returns is the first slot of the probe sequence
`hash_fn(key) % cap`, `+1 % cap`, ... at which the loop condition fails, that is,
which is not marked deleted and is either not occupied or occupied with a key that
compares equal; at every slot before it the condition holds.  `mc_hashtable_get`
returns the value of that slot when it is occupied and `NULL` otherwise. -/
theorem _mc_ht_get_first_stop (cmp_fn : Option K → Option K → Bool)
    (hash_fn : Option K → Nat) (table : mc_hashtable K V)
    (h : Reachable cmp_fn hash_fn table) (key : Option K) :
    ∃ (r m : Nat) (node : _mc_ht_node K V),
      _mc_ht_get table._table key = .ok r ∧ m < table._table.cap ∧
      (table._table.hash_fn key % table._table.cap + m) % table._table.cap = r ∧
      table._table.buf[r]? = some node ∧
      node._deleted = false ∧
      (node._occupied = false ∨ table._table.compare_fn node.key key = true) ∧
      (∀ j, j < m → ∃ nj,
        table._table.buf[(table._table.hash_fn key % table._table.cap + j)
          % table._table.cap]? = some nj ∧
        (nj._deleted = true ∨
          (nj._occupied = true ∧ table._table.compare_fn nj.key key = false))) ∧
      mc_hashtable_get table key = .ok (if node._occupied = true then node.value else none) := by
  have hr := reachable_atRest cmp_fn hash_fn table h
  obtain ⟨j, node0, hj, hnu⟩ := atRest_never_used _ hr
  obtain ⟨index, _, _, _, hget⟩ := _mc_ht_get_ok table._table key hr.len hr.pos
    ⟨j, node0, hj, never_used_get_stop _ _ node0 hnu⟩
  obtain ⟨m, node, hm, hrm, hnode, hstop, hbefore⟩ := _mc_ht_get_first _ _ _ hget
  rw [get_cont_false_iff] at hstop
  refine ⟨index, m, node, hget, hm, hrm, hnode, hstop.1, hstop.2, ?_, ?_⟩
  · intro j1 hj1
    obtain ⟨nj, h1, h2⟩ := hbefore j1 hj1
    exact ⟨nj, h1, (get_cont_true_iff _ _ _).mp h2⟩
  · unfold mc_hashtable_get
    rw [hget]
    simp only [hnode]
    split_ifs <;> rfl

/-- The lookup loop at `reinsert_table` and key 1: the lookup passes slot 1, which is
marked deleted, and resolves to the never-used slot 2. -/
theorem _mc_ht_get_first_stop_witness :
    Reachable nat_eq nat_hash reinsert_table ∧
    _mc_ht_get reinsert_table._table (some 1) = .ok 2 ∧
    ∃ (r m : Nat) (node : _mc_ht_node Nat Nat),
      _mc_ht_get reinsert_table._table (some 1) = .ok r ∧ m < reinsert_table._table.cap ∧
      (reinsert_table._table.hash_fn (some 1) % reinsert_table._table.cap + m)
        % reinsert_table._table.cap = r ∧
      reinsert_table._table.buf[r]? = some node ∧
      node._deleted = false ∧
      (node._occupied = false ∨ reinsert_table._table.compare_fn node.key (some 1) = true) ∧
      (∀ j, j < m → ∃ nj,
        reinsert_table._table.buf[(reinsert_table._table.hash_fn (some 1)
          % reinsert_table._table.cap + j) % reinsert_table._table.cap]? = some nj ∧
        (nj._deleted = true ∨
          (nj._occupied = true ∧ reinsert_table._table.compare_fn nj.key (some 1) = false))) ∧
      mc_hashtable_get reinsert_table (some 1)
        = .ok (if node._occupied = true then node.value else none) :=
  ⟨reinsert_table_reachable, rfl,
   _mc_ht_get_first_stop nat_eq nat_hash reinsert_table reinsert_table_reachable (some 1)⟩

/-- Two slot arrays on which the condition to advance agrees slot by slot are probed
alike. -/
theorem probe_congr (cont : _mc_ht_node K V → Bool) (buf buf1 : List (_mc_ht_node K V))
    (cap : Nat) (h : ∀ (i : Nat), (buf1[i]?).map cont = (buf[i]?).map cont) :
    ∀ (fuel index : Nat), probe cont buf1 cap fuel index = probe cont buf cap fuel index := by
  intro fuel
  induction fuel with
  | zero => intro index; rfl
  | succ n ih =>
    intro index
    rw [probe, probe]
    have hi := h index
    cases hb : buf[index]? with
    | none =>
      cases hb1 : buf1[index]? with
      | none => rfl
      | some node1 => simp [hb, hb1] at hi
    | some node =>
      cases hb1 : buf1[index]? with
      | none => simp [hb, hb1] at hi
      | some node1 =>
        simp only [hb, hb1, Option.map_some', Option.some.injEq] at hi
        simp only
        rw [hi, ih]

/-- C20: on every reachable handle, with a comparison callback that is symmetric and
transitive, and for keys `key1` and `key` that do not compare equal:
`mc_hashtable_delete` of `key` returns, and `mc_hashtable_get` of `key1` on the
handle after the delete is what it was before. -/
theorem C20_delete_keeps_other_keys (cmp_fn : Option K → Option K → Bool)
    (hash_fn : Option K → Nat) (table : mc_hashtable K V)
    (h : Reachable cmp_fn hash_fn table)
    (hsymm : ∀ a b, cmp_fn a b = true → cmp_fn b a = true)
    (htrans : ∀ a b c, cmp_fn a b = true → cmp_fn b c = true → cmp_fn a c = true)
    (key key1 : Option K) (hne : cmp_fn key1 key = false) :
    ∃ res table1, mc_hashtable_delete table key = .ok (res, table1) ∧
      mc_hashtable_get table1 key1 = mc_hashtable_get table key1 := by
  have hr := reachable_atRest cmp_fn hash_fn table h
  have hcmp := (reachable_fns cmp_fn hash_fn table h).1
  obtain ⟨j, node0, hj, hnu⟩ := atRest_never_used _ hr
  obtain ⟨index, node, hnode, hstop, hget⟩ := _mc_ht_get_ok table._table key hr.len hr.pos
    ⟨j, node0, hj, never_used_get_stop _ _ node0 hnu⟩
  have hlt : index < table._table.buf.length := (List.getElem?_eq_some_iff.mp hnode).1
  by_cases hocc : node._occupied = false
  · refine ⟨{ type := .DELETE_NOT_FOUND, key := none, value := none }, table, ?_, rfl⟩
    unfold mc_hashtable_delete
    rw [hget]
    simp only [hnode]
    rw [if_pos hocc]
  · have hocc1 : node._occupied = true := by simpa using hocc
    refine ⟨{ type := .DELETE_MEM_RESULT, key := node.key, value := node.value }, { _table := { table._table with
        buf := table._table.buf.set index
          { node with _deleted := true, _occupied := false, key := none } } }, ?_, ?_⟩
    · unfold mc_hashtable_delete
      rw [hget]
      simp only [hnode]
      rw [if_neg hocc]
    · rw [get_cont_false_iff] at hstop
      have hk : table._table.compare_fn node.key key = true := by
        rcases hstop.2 with h1 | h1
        · rw [hocc1] at h1; exact Bool.noConfusion h1
        · exact h1
      have hk1 : table._table.compare_fn node.key key1 = false := by
        cases hc : table._table.compare_fn node.key key1 with
        | false => rfl
        | true =>
          rw [hcmp] at hc hk
          have := htrans _ _ _ (hsymm _ _ hc) hk
          rw [this] at hne
          exact Bool.noConfusion hne
      have hold : get_cont table._table key1 node = true :=
        (get_cont_true_iff _ _ _).mpr (Or.inr ⟨hocc1, hk1⟩)
      have hagree : ∀ (i : Nat),
          ((table._table.buf.set index
            { node with _deleted := true, _occupied := false, key := none })[i]?).map
              (get_cont table._table key1)
            = (table._table.buf[i]?).map (get_cont table._table key1) := by
        intro i
        by_cases hi : index = i
        · subst hi
          rw [List.getElem?_set_self hlt, hnode]
          simp only [Option.map_some', Option.some.injEq]
          rw [hold]
          simp [get_cont]
        · rw [List.getElem?_set_ne hi]
      have hgeteq : _mc_ht_get ({ table._table with
          buf := table._table.buf.set index
            { node with _deleted := true, _occupied := false, key := none } } : _mc_ht K V) key1
          = _mc_ht_get table._table key1 := by
        unfold _mc_ht_get
        simp only
        rw [get_loop_eq_probe, get_loop_eq_probe]
        by_cases hc0 : table._table.cap = 0
        · rw [if_pos hc0, if_pos hc0]
        · rw [if_neg hc0, if_neg hc0]
          exact probe_congr (get_cont table._table key1) _ _ _ hagree _ _
      unfold mc_hashtable_get
      simp only
      rw [hgeteq]
      cases hg : _mc_ht_get table._table key1 with
      | error e => rfl
      | ok r =>
        simp only
        obtain ⟨nr, hnr, hcr⟩ := _mc_ht_get_stop _ _ _ hg
        have hri : index ≠ r := by
          intro hir
          subst hir
          rw [hnode] at hnr
          injection hnr with hnr
          rw [← hnr, hold] at hcr
          exact Bool.noConfusion hcr
        rw [List.getElem?_set_ne hri]

/-- C20 at the reachable `demo_table`: the delete of key 9 leaves the results of the
lookups of the other keys 1 and 2 as they were. -/
theorem C20_delete_keeps_other_keys_witness :
    Reachable nat_eq nat_hash demo_table ∧
    (∃ res table1, mc_hashtable_delete demo_table (some 9) = .ok (res, table1) ∧
      mc_hashtable_get table1 (some 1) = mc_hashtable_get demo_table (some 1)) ∧
    (∃ res table1, mc_hashtable_delete demo_table (some 9) = .ok (res, table1) ∧
      mc_hashtable_get table1 (some 2) = mc_hashtable_get demo_table (some 2)) :=
  ⟨demo_table_reachable,
   C20_delete_keeps_other_keys nat_eq nat_hash demo_table demo_table_reachable
     nat_callbacks_lawful.2.1 nat_callbacks_lawful.2.2.1 (some 9) (some 1) rfl,
   C20_delete_keeps_other_keys nat_eq nat_hash demo_table demo_table_reachable
     nat_callbacks_lawful.2.1 nat_callbacks_lawful.2.2.1 (some 9) (some 2) rfl⟩

/-! ## Visible slots: the chain to each of them and their uniqueness -/

theorem visible_iff (node : _mc_ht_node K V) :
    visible node = true ↔ node._occupied = true ∧ node._deleted = false := by
  cases ho : node._occupied <;> cases hd : node._deleted <;> simp [visible, ho, hd]

theorem in_use_of_occupied (node : _mc_ht_node K V) (h : node._occupied = true) :
    in_use node = true := by
  simp [in_use, h]

theorem insert_cont_true_iff (table : _mc_ht K V) (key : Option K) (node : _mc_ht_node K V) :
    insert_cont table key node = true ↔
      node._occupied = true ∧ table.compare_fn node.key key = false := by
  cases ho : node._occupied <;> cases hc : table.compare_fn node.key key <;>
    simp [insert_cont, ho, hc]

theorem insert_cont_false_iff (table : _mc_ht K V) (key : Option K) (node : _mc_ht_node K V) :
    insert_cont table key node = false ↔
      node._occupied = false ∨ table.compare_fn node.key key = true := by
  cases ho : node._occupied <;> cases hc : table.compare_fn node.key key <;>
    simp [insert_cont, ho, hc]

/-- The slot at which the insert loop stops, when it is not marked deleted, is the
only visible slot that can hold a key comparing equal to the inserted key. -/
theorem insert_target_unique (table : _mc_ht K V) (key : Option K)
    (hl : Lawful table.compare_fn table.hash_fn) (hchain : Chain table) (huniq : Unique table)
    (r : Nat) (node : _mc_ht_node K V) (hpos : 0 < table.cap)
    (hp : probe (insert_cont table key) table.buf table.cap table.cap
      (table.hash_fn key % table.cap) = .ok r)
    (hnode : table.buf[r]? = some node) (hdel : node._deleted = false)
    (j : Nat) (nj : _mc_ht_node K V) (hj : table.buf[j]? = some nj)
    (hvis : visible nj = true) (hcmp : table.compare_fn nj.key key = true) : j = r := by
  have hi : table.hash_fn key % table.cap < table.cap := Nat.mod_lt _ hpos
  obtain ⟨m, _, hr, ⟨node1, hnode1, hstop⟩, hbefore⟩ := probe_first _ _ _ _ _ _ hi hp
  rw [hnode] at hnode1
  injection hnode1 with hnode1
  subst hnode1
  obtain ⟨d, _, hd, hchainj⟩ := hchain j nj hj hvis
  rw [hl.hash_eq _ _ hcmp] at hd hchainj
  rcases Nat.lt_trichotomy d m with hlt | heq | hgt
  · obtain ⟨n1, h1, h2⟩ := hbefore d hlt
    rw [hd, hj] at h1
    injection h1 with h1
    subst h1
    rw [insert_cont_true_iff] at h2
    rw [h2.2] at hcmp
    exact Bool.noConfusion hcmp
  · rw [← hd, ← hr, heq]
  · obtain ⟨n1, h1, h2⟩ := hchainj m hgt
    rw [hr, hnode] at h1
    injection h1 with h1
    subst h1
    have hocc : node._occupied = true := by
      cases ho : node._occupied with
      | true => rfl
      | false => simp [in_use, ho, hdel] at h2
    have hvr : visible node = true := (visible_iff _).mpr ⟨hocc, hdel⟩
    rw [insert_cont_false_iff] at hstop
    have hrk : table.compare_fn node.key key = true := by
      rcases hstop with h3 | h3
      · rw [hocc] at h3; exact Bool.noConfusion h3
      · exact h3
    exact huniq j r nj node hj hnode hvis hvr (hl.trans _ _ _ hcmp (hl.symm _ _ hrk))

/-- A lookup that stops at an unoccupied slot has passed no visible slot holding a key
that compares equal: there is none in the table. -/
theorem lookup_miss_no_visible (table : _mc_ht K V) (key : Option K)
    (hl : Lawful table.compare_fn table.hash_fn) (hchain : Chain table)
    (r : Nat) (node : _mc_ht_node K V) (hget : _mc_ht_get table key = .ok r)
    (hnode : table.buf[r]? = some node) (hocc : node._occupied = false)
    (j : Nat) (nj : _mc_ht_node K V) (hj : table.buf[j]? = some nj)
    (hvis : visible nj = true) (hcmp : table.compare_fn nj.key key = true) : False := by
  obtain ⟨m, node1, _, hr, hnode1, hstop, hbefore⟩ := _mc_ht_get_first _ _ _ hget
  rw [hnode] at hnode1
  injection hnode1 with hnode1
  subst hnode1
  rw [get_cont_false_iff] at hstop
  obtain ⟨d, _, hd, hchainj⟩ := hchain j nj hj hvis
  rw [hl.hash_eq _ _ hcmp] at hd hchainj
  rw [visible_iff] at hvis
  rcases Nat.lt_trichotomy d m with hlt | heq | hgt
  · obtain ⟨n1, h1, h2⟩ := hbefore d hlt
    rw [hd, hj] at h1
    injection h1 with h1
    subst h1
    rw [get_cont_true_iff] at h2
    rcases h2 with h3 | h3
    · rw [hvis.2] at h3; exact Bool.noConfusion h3
    · rw [h3.2] at hcmp; exact Bool.noConfusion hcmp
  · have hjr : j = r := by rw [← hd, ← hr, heq]
    subst hjr
    rw [hnode] at hj
    injection hj with hj
    subst hj
    rw [hocc] at hvis
    exact Bool.noConfusion hvis.1
  · obtain ⟨n1, h1, h2⟩ := hchainj m hgt
    rw [hr, hnode] at h1
    injection h1 with h1
    subst h1
    simp [in_use, hocc, hstop.1] at h2

/-- The raw insertion keeps the chain to every visible slot and the uniqueness of
visible keys. -/
theorem _mc_ht_insert_chain_unique (table t1 : _mc_ht K V) (key : Option K)
    (value : Option V) (hl : Lawful table.compare_fn table.hash_fn)
    (hchain : Chain table) (huniq : Unique table)
    (h : _mc_ht_insert table key value = .ok t1) : Chain t1 ∧ Unique t1 := by
  obtain ⟨r, node, hpos, hp, hnode, hstop, ht⟩ := _mc_ht_insert_inv _ _ _ _ h
  have hrlt : r < table.buf.length := (List.getElem?_eq_some_iff.mp hnode).1
  have hi : table.hash_fn key % table.cap < table.cap := Nat.mod_lt _ hpos
  obtain ⟨m, hm, hr, _, hbefore⟩ := probe_first _ _ _ _ _ _ hi hp
  have hmono : ∀ (idx : Nat) (n0 : _mc_ht_node K V), table.buf[idx]? = some n0 →
      in_use n0 = true → ∃ n1, t1.buf[idx]? = some n1 ∧ in_use n1 = true := by
    intro idx n0 h0 hin
    rw [ht]
    simp only
    by_cases hidx : r = idx
    · subst hidx
      rw [List.getElem?_set_self hrlt]
      exact ⟨_, rfl, in_use_of_occupied _ rfl⟩
    · rw [List.getElem?_set_ne hidx]
      exact ⟨n0, h0, hin⟩
  have hnew : t1.buf[r]? = some { node with key := key, value := value, _occupied := true } := by
    rw [ht]
    simp only
    rw [List.getElem?_set_self hrlt]
  have hother : ∀ (idx : Nat), idx ≠ r → t1.buf[idx]? = table.buf[idx]? := by
    intro idx hidx
    rw [ht]
    simp only
    rw [List.getElem?_set_ne (Ne.symm hidx)]
  have hcap : t1.cap = table.cap := by rw [ht]
  have hhash : t1.hash_fn = table.hash_fn := by rw [ht]
  have hcmpf : t1.compare_fn = table.compare_fn := by rw [ht]
  constructor
  · intro i ni hni hvis
    rw [hcap, hhash]
    by_cases hir : i = r
    · subst hir
      rw [hnew] at hni
      injection hni with hni
      subst hni
      refine ⟨m, hm, hr, ?_⟩
      intro j hj
      obtain ⟨n0, h0, hc0⟩ := hbefore j hj
      rw [insert_cont_true_iff] at hc0
      exact hmono _ n0 h0 (in_use_of_occupied _ hc0.1)
    · rw [hother i hir] at hni
      obtain ⟨d, hd, hdi, hb⟩ := hchain i ni hni hvis
      refine ⟨d, hd, hdi, ?_⟩
      intro j hj
      obtain ⟨n0, h0, hin⟩ := hb j hj
      exact hmono _ n0 h0 hin
  · intro i j ni nj hni hnj hvi hvj hc
    rw [hcmpf] at hc
    by_cases hir : i = r
    · by_cases hjr : j = r
      · rw [hir, hjr]
      · subst hir
        rw [hnew] at hni
        injection hni with hni
        subst hni
        rw [hother j hjr] at hnj
        have hdel : node._deleted = false := ((visible_iff _).mp hvi).2
        exact (insert_target_unique table key hl hchain huniq i node hpos hp hnode hdel
          j nj hnj hvj (hl.symm _ _ hc)).symm
    · by_cases hjr : j = r
      · subst hjr
        rw [hnew] at hnj
        injection hnj with hnj
        subst hnj
        rw [hother i hir] at hni
        have hdel : node._deleted = false := ((visible_iff _).mp hvj).2
        exact insert_target_unique table key hl hchain huniq j node hpos hp hnode hdel
          i ni hni hvi hc
      · rw [hother i hir] at hni
        rw [hother j hjr] at hnj
        exact huniq i j ni nj hni hnj hvi hvj hc

theorem mc_hashtable_delete_chain_unique (table table1 : mc_hashtable K V) (key : Option K)
    (res : mc_ht_delete_result K V) (hchain : Chain table._table) (huniq : Unique table._table)
    (h : mc_hashtable_delete table key = .ok (res, table1)) :
    Chain table1._table ∧ Unique table1._table := by
  unfold mc_hashtable_delete at h
  split at h
  · exact Except.noConfusion h
  · rename_i index _
    split at h
    · exact Except.noConfusion h
    · rename_i node hnode
      split_ifs at h
      · injection h with h
        injection h with _ h
        rw [← h]
        exact ⟨hchain, huniq⟩
      · injection h with h
        injection h with _ h
        rw [← h]
        have hlt : index < table._table.buf.length := (List.getElem?_eq_some_iff.mp hnode).1
        have hnew : (table._table.buf.set index
            { node with _deleted := true, _occupied := false, key := none })[index]?
            = some { node with _deleted := true, _occupied := false, key := none } :=
          List.getElem?_set_self hlt
        have hother : ∀ (idx : Nat), idx ≠ index → (table._table.buf.set index
            { node with _deleted := true, _occupied := false, key := none })[idx]?
            = table._table.buf[idx]? := by
          intro idx hidx
          rw [List.getElem?_set_ne (Ne.symm hidx)]
        have hmono : ∀ (idx : Nat) (n0 : _mc_ht_node K V), table._table.buf[idx]? = some n0 →
            in_use n0 = true → ∃ n1, (table._table.buf.set index
              { node with _deleted := true, _occupied := false, key := none })[idx]? = some n1 ∧
              in_use n1 = true := by
          intro idx n0 h0 hin
          by_cases hidx : idx = index
          · subst hidx
            exact ⟨_, hnew, by simp [in_use]⟩
          · rw [hother idx hidx]
            exact ⟨n0, h0, hin⟩
        constructor
        · intro i ni hni hvis
          simp only at hni ⊢
          by_cases hi : i = index
          · subst hi
            rw [hnew] at hni
            injection hni with hni
            rw [← hni] at hvis
            simp [visible] at hvis
          · rw [hother i hi] at hni
            obtain ⟨d, hd, hdi, hb⟩ := hchain i ni hni hvis
            refine ⟨d, hd, hdi, ?_⟩
            intro j hj
            obtain ⟨n0, h0, hin⟩ := hb j hj
            exact hmono _ n0 h0 hin
        · intro i j ni nj hni hnj hvi hvj hc
          simp only at hni hnj hc
          by_cases hi : i = index
          · subst hi
            rw [hnew] at hni
            injection hni with hni
            rw [← hni] at hvi
            simp [visible] at hvi
          · by_cases hj : j = index
            · subst hj
              rw [hnew] at hnj
              injection hnj with hnj
              rw [← hnj] at hvj
              simp [visible] at hvj
            · rw [hother i hi] at hni
              rw [hother j hj] at hnj
              exact huniq i j ni nj hni hnj hvi hvj hc

theorem _mc_ht_new_chain_unique (cap : Nat) (cmp_fn : Option K → Option K → Bool)
    (hash_fn : Option K → Nat) :
    Chain (_mc_ht_new cap cmp_fn hash_fn : _mc_ht K V) ∧
    Unique (_mc_ht_new cap cmp_fn hash_fn : _mc_ht K V) := by
  have hz : ∀ (i : Nat) (node : _mc_ht_node K V),
      (_mc_ht_new cap cmp_fn hash_fn : _mc_ht K V).buf[i]? = some node →
      visible node = true → False := by
    intro i node hnode hvis
    have hmem : node ∈ (_mc_ht_new cap cmp_fn hash_fn : _mc_ht K V).buf :=
      List.mem_iff_getElem?.mpr ⟨i, hnode⟩
    simp only [_mc_ht_new, List.mem_replicate] at hmem
    rw [hmem.2] at hvis
    simp [visible, zero_node] at hvis
  constructor
  · intro i node hnode hvis
    exact (hz i node hnode hvis).elim
  · intro i j ni nj hni _ hvi _ _
    exact (hz i ni hni hvi).elim

/-- The public insert keeps the chain to every visible slot and the uniqueness of
visible keys, whether or not it rebuilds the table. -/
theorem mc_hashtable_insert_chain_unique (table table1 : mc_hashtable K V) (key : Option K)
    (value : Option V) (status : Int) (hl : Lawful table._table.compare_fn table._table.hash_fn)
    (hchain : Chain table._table) (huniq : Unique table._table)
    (h : mc_hashtable_insert table key value = .ok (status, table1)) :
    Chain table1._table ∧ Unique table1._table := by
  unfold mc_hashtable_insert at h
  split at h
  · exact Except.noConfusion h
  · rename_i t hins
    obtain ⟨_, _, _, hcf, hhf⟩ := _mc_ht_insert_size_cap _ _ _ _ hins
    split_ifs at h
    · injection h with h
      injection h with _ h
      rw [← h]
      exact _mc_ht_insert_chain_unique _ _ _ _ hl hchain huniq hins
    · split at h
      · exact Except.noConfusion h
      · rename_i nt hre
        injection h with h
        injection h with _ h
        rw [← h]
        have hP := rehash_loop_invariant t
          (fun x => (x.compare_fn = table._table.compare_fn ∧
            x.hash_fn = table._table.hash_fn) ∧ Chain x ∧ Unique x)
          (by
            intro x x1 node _ _ hx hxi
            obtain ⟨_, _, _, hc1, hh1⟩ := _mc_ht_insert_size_cap _ _ _ _ hxi
            refine ⟨⟨by rw [hc1, hx.1.1], by rw [hh1, hx.1.2]⟩, ?_⟩
            exact _mc_ht_insert_chain_unique _ _ _ _ (by rw [hx.1.1, hx.1.2]; exact hl)
              hx.2.1 hx.2.2 hxi)
          t.cap 0 _ nt
          ⟨⟨by simp only [_mc_ht_new]; exact hcf, by simp only [_mc_ht_new]; exact hhf⟩,
            _mc_ht_new_chain_unique _ _ _⟩ hre
        exact hP.2

/-- In the table of every reachable handle with lawful callbacks, every visible slot
is reached through slots in use and no two visible slots hold equal keys. -/
theorem reachable_chain_unique (cmp_fn : Option K → Option K → Bool)
    (hash_fn : Option K → Nat) (hl : Lawful cmp_fn hash_fn) (table : mc_hashtable K V)
    (h : Reachable cmp_fn hash_fn table) : Chain table._table ∧ Unique table._table := by
  induction h with
  | new cap hcap => exact _mc_ht_new_chain_unique _ _ _
  | insert key value hr hins ih =>
    obtain ⟨hc, hh⟩ := reachable_fns cmp_fn hash_fn _ hr
    exact mc_hashtable_insert_chain_unique _ _ key value _ (by rw [hc, hh]; exact hl)
      ih.1 ih.2 hins
  | delete key hr hdel ih =>
    exact mc_hashtable_delete_chain_unique _ _ key _ ih.1 ih.2 hdel
  | get key _ _ ih => exact ih

/-- C19: on every reachable handle with lawful callbacks and for every key,
`mc_hashtable_delete` of the key returns, and `mc_hashtable_get` of the same key on
the handle after it returns `NULL`, whether the delete reported
`DELETE_MEM_RESULT` or `DELETE_NOT_FOUND`; and no two different slots of the table
are occupied, not marked deleted, and hold keys that compare equal. -/
theorem C19_get_after_delete (cmp_fn : Option K → Option K → Bool)
    (hash_fn : Option K → Nat) (hl : Lawful cmp_fn hash_fn) (table : mc_hashtable K V)
    (h : Reachable cmp_fn hash_fn table) (key : Option K) :
    (∃ res table1, mc_hashtable_delete table key = .ok (res, table1) ∧
      mc_hashtable_get table1 key = .ok none) ∧
    (∀ (i j : Nat) (ni nj : _mc_ht_node K V),
      table._table.buf[i]? = some ni → table._table.buf[j]? = some nj →
      ni._occupied = true → ni._deleted = false → nj._occupied = true → nj._deleted = false →
      cmp_fn ni.key nj.key = true → i = j) := by
  obtain ⟨hchain, huniq⟩ := reachable_chain_unique cmp_fn hash_fn hl table h
  obtain ⟨hcf, hhf⟩ := reachable_fns cmp_fn hash_fn table h
  have hr := reachable_atRest cmp_fn hash_fn table h
  constructor
  · obtain ⟨res, table1, hdel, hr1, hcf1, _⟩ := mc_hashtable_delete_ok table key hr
    refine ⟨res, table1, hdel, ?_⟩
    obtain ⟨j0, n0, hj0, hnu0⟩ := atRest_never_used _ hr1
    obtain ⟨r, nr, hnr, hstop, hget1⟩ := _mc_ht_get_ok table1._table key hr1.len hr1.pos
      ⟨j0, n0, hj0, never_used_get_stop _ _ n0 hnu0⟩
    unfold mc_hashtable_get
    rw [hget1]
    simp only [hnr]
    by_cases hocc : nr._occupied = true
    · exfalso
      rw [get_cont_false_iff] at hstop
      have hkr : table1._table.compare_fn nr.key key = true := by
        rcases hstop.2 with h1 | h1
        · rw [hocc] at h1; exact Bool.noConfusion h1
        · exact h1
      rw [hcf1] at hkr
      unfold mc_hashtable_delete at hdel
      split at hdel
      · exact Except.noConfusion hdel
      · rename_i index hget
        split at hdel
        · exact Except.noConfusion hdel
        · rename_i node hnode
          split_ifs at hdel with ho
          · injection hdel with hdel
            injection hdel with _ hdel
            subst hdel
            rw [hget] at hget1
            injection hget1 with hget1
            subst hget1
            rw [hnode] at hnr
            injection hnr with hnr
            subst hnr
            rw [ho] at hocc
            exact Bool.noConfusion hocc
          · injection hdel with hdel
            injection hdel with _ hdel
            subst hdel
            simp only at hnr
            have hlt : index < table._table.buf.length :=
              (List.getElem?_eq_some_iff.mp hnode).1
            have hri : r ≠ index := by
              intro hri
              subst hri
              rw [List.getElem?_set_self hlt] at hnr
              injection hnr with hnr
              rw [← hnr] at hocc
              exact Bool.noConfusion hocc
            rw [List.getElem?_set_ne (Ne.symm hri)] at hnr
            obtain ⟨node1, hnode1, hstop1⟩ := _mc_ht_get_stop _ _ _ hget
            rw [hnode] at hnode1
            injection hnode1 with hnode1
            subst hnode1
            rw [get_cont_false_iff] at hstop1
            have hocc1 : node._occupied = true := by simpa using ho
            have hk1 : table._table.compare_fn node.key key = true := by
              rcases hstop1.2 with h1 | h1
              · rw [hocc1] at h1; exact Bool.noConfusion h1
              · exact h1
            have hl1 : Lawful table._table.compare_fn table._table.hash_fn := by
              rw [hcf, hhf]; exact hl
            exact hri (huniq r index nr node hnr hnode ((visible_iff _).mpr ⟨hocc, hstop.1⟩)
              ((visible_iff _).mpr ⟨hocc1, hstop1.1⟩)
              (hl1.trans _ _ _ hkr (hl1.symm _ _ hk1)))
    · rw [if_neg hocc]
  · intro i j ni nj hni hnj hoi hdi hoj hdj hc
    rw [← hcf] at hc
    exact huniq i j ni nj hni hnj ((visible_iff _).mpr ⟨hoi, hdi⟩)
      ((visible_iff _).mpr ⟨hoj, hdj⟩) hc

/-- The callbacks `nat_eq` and `nat_hash` are lawful. -/
theorem nat_lawful : Lawful nat_eq nat_hash :=
  ⟨nat_callbacks_lawful.1, nat_callbacks_lawful.2.1, nat_callbacks_lawful.2.2.1,
    nat_callbacks_lawful.2.2.2⟩

/-- C19 at the reachable `demo_table` and the present key 9. -/
theorem C19_get_after_delete_witness :
    Lawful nat_eq nat_hash ∧ Reachable nat_eq nat_hash demo_table ∧
    (∃ res table1, mc_hashtable_delete demo_table (some 9) = .ok (res, table1) ∧
      mc_hashtable_get table1 (some 9) = .ok none) ∧
    (∀ (i j : Nat) (ni nj : _mc_ht_node Nat Nat),
      demo_table._table.buf[i]? = some ni → demo_table._table.buf[j]? = some nj →
      ni._occupied = true → ni._deleted = false → nj._occupied = true → nj._deleted = false →
      nat_eq ni.key nj.key = true → i = j) ∧
    delete_after [] demo_table (some 9)
      = .ok { type := .DELETE_MEM_RESULT, key := some 9, value := some 20 } ∧
    get_after [.delete (some 9)] demo_table (some 9) = .ok none :=
  have h := C19_get_after_delete nat_eq nat_hash nat_lawful demo_table demo_table_reachable
    (some 9)
  ⟨nat_lawful, demo_table_reachable, h.1, h.2, rfl, rfl⟩

/-! ## Without deletes the table is a finite map -/

theorem _mc_ht_insert_no_deleted (table t1 : _mc_ht K V) (key : Option K) (value : Option V)
    (hnd : ∀ node ∈ table.buf, node._deleted = false)
    (h : _mc_ht_insert table key value = .ok t1) : ∀ node ∈ t1.buf, node._deleted = false := by
  intro node hmem
  obtain ⟨index, node1, _, _, hnode1, _, ht⟩ := _mc_ht_insert_inv _ _ _ _ h
  rw [ht] at hmem
  rcases List.mem_or_eq_of_mem_set hmem with hm | hm
  · exact hnd node hm
  · rw [hm]
    exact hnd node1 (List.mem_iff_getElem?.mpr ⟨index, hnode1⟩)

/-- What the table holds after a raw insertion into a table without deleted marks:
the inserted value for every key that compares equal to the inserted key, and what
it held before for every other key. -/
theorem _mc_ht_insert_holds (table t1 : _mc_ht K V) (key : Option K) (value : Option V)
    (hl : Lawful table.compare_fn table.hash_fn) (hchain : Chain table) (huniq : Unique table)
    (hnd : ∀ node ∈ table.buf, node._deleted = false)
    (h : _mc_ht_insert table key value = .ok t1) (k : Option K) (v : Option V) :
    Holds t1 k v ↔
      (table.compare_fn key k = true ∧ v = value) ∨
      (table.compare_fn key k = false ∧ Holds table k v) := by
  obtain ⟨r, node, hpos, hp, hnode, hstop, ht⟩ := _mc_ht_insert_inv _ _ _ _ h
  have hrlt : r < table.buf.length := (List.getElem?_eq_some_iff.mp hnode).1
  have hdel : node._deleted = false := hnd node (List.mem_iff_getElem?.mpr ⟨r, hnode⟩)
  have hnew : t1.buf[r]? = some { node with key := key, value := value, _occupied := true } := by
    rw [ht]
    simp only
    rw [List.getElem?_set_self hrlt]
  have hother : ∀ (idx : Nat), idx ≠ r → t1.buf[idx]? = table.buf[idx]? := by
    intro idx hidx
    rw [ht]
    simp only
    rw [List.getElem?_set_ne (Ne.symm hidx)]
  have hcmpf : t1.compare_fn = table.compare_fn := by rw [ht]
  rw [insert_cont_false_iff] at hstop
  constructor
  · rintro ⟨i, ni, hni, hocc, hc, hv⟩
    rw [hcmpf] at hc
    by_cases hir : i = r
    · subst hir
      rw [hnew] at hni
      injection hni with hni
      subst hni
      exact Or.inl ⟨hc, hv.symm⟩
    · rw [hother i hir] at hni
      have hvis : visible ni = true :=
        (visible_iff _).mpr ⟨hocc, hnd ni (List.mem_iff_getElem?.mpr ⟨i, hni⟩)⟩
      cases hk : table.compare_fn key k with
      | false => exact Or.inr ⟨rfl, i, ni, hni, hocc, hc, hv⟩
      | true =>
        exfalso
        exact hir (insert_target_unique table key hl hchain huniq r node hpos hp hnode hdel
          i ni hni hvis (hl.trans _ _ _ hc (hl.symm _ _ hk)))
  · rintro (⟨hk, hv⟩ | ⟨hk, i, ni, hni, hocc, hc, hv⟩)
    · exact ⟨r, _, hnew, rfl, by rw [hcmpf]; exact hk, hv.symm⟩
    · have hir : i ≠ r := by
        intro hir
        subst hir
        rw [hnode] at hni
        injection hni with hni
        subst hni
        rcases hstop with h1 | h1
        · rw [hocc] at h1; exact Bool.noConfusion h1
        · have := hl.trans _ _ _ (hl.symm _ _ h1) hc
          rw [this] at hk
          exact Bool.noConfusion hk
      exact ⟨i, ni, by rw [hother i hir]; exact hni, hocc, by rw [hcmpf]; exact hc, hv⟩

/-- The rehash loop copies what the old table holds: after the slots below `i + n`
have been visited, the new table holds exactly what the occupied slots below
`i + n` of the old table hold. -/
theorem rehash_loop_holds (old : _mc_ht K V) (hl : Lawful old.compare_fn old.hash_fn)
    (huo : Unique old) (hndo : ∀ node ∈ old.buf, node._deleted = false) :
    ∀ (n i : Nat) (nt nt1 : _mc_ht K V), i + n = old.buf.length →
      (nt.compare_fn = old.compare_fn ∧ nt.hash_fn = old.hash_fn) →
      Chain nt → Unique nt → (∀ node ∈ nt.buf, node._deleted = false) →
      (∀ k v, Holds nt k v ↔ ∃ (j : Nat) (node : _mc_ht_node K V), j < i ∧
        old.buf[j]? = some node ∧ node._occupied = true ∧
        old.compare_fn node.key k = true ∧ node.value = v) →
      rehash_loop old n i nt = .ok nt1 →
      (nt1.compare_fn = old.compare_fn ∧ nt1.hash_fn = old.hash_fn) ∧
      Chain nt1 ∧ Unique nt1 ∧ (∀ node ∈ nt1.buf, node._deleted = false) ∧
      (∀ k v, Holds nt1 k v ↔ ∃ (j : Nat) (node : _mc_ht_node K V), j < i + n ∧
        old.buf[j]? = some node ∧ node._occupied = true ∧
        old.compare_fn node.key k = true ∧ node.value = v) := by
  intro n
  induction n with
  | zero =>
    intro i nt nt1 _ hf hc hu hnd hh h
    simp only [rehash_loop, Except.ok.injEq] at h
    subst h
    exact ⟨hf, hc, hu, hnd, hh⟩
  | succ n ih =>
    intro i nt nt1 hin hf hc hu hnd hh h
    have hi : i < old.buf.length := by omega
    have hbi : old.buf[i]? = some old.buf[i] := List.getElem?_eq_getElem hi
    rw [rehash_loop, hbi] at h
    simp only at h
    have hidx : i + (n + 1) = (i + 1) + n := by omega
    rw [hidx]
    by_cases hocc : (old.buf[i])._occupied = true
    · rw [if_pos hocc] at h
      cases hins : _mc_ht_insert nt (old.buf[i]).key (old.buf[i]).value with
      | error e => simp [hins] at h
      | ok nt2 =>
        simp only [hins] at h
        have hl2 : Lawful nt.compare_fn nt.hash_fn := by rw [hf.1, hf.2]; exact hl
        obtain ⟨_, _, _, hc2, hh2⟩ := _mc_ht_insert_size_cap _ _ _ _ hins
        obtain ⟨hch2, hun2⟩ := _mc_ht_insert_chain_unique _ _ _ _ hl2 hc hu hins
        refine ih (i + 1) nt2 nt1 (by omega) ⟨by rw [hc2, hf.1], by rw [hh2, hf.2]⟩ hch2 hun2
          (_mc_ht_insert_no_deleted _ _ _ _ hnd hins) ?_ h
        intro k v
        rw [_mc_ht_insert_holds nt nt2 _ _ hl2 hc hu hnd hins k v, hf.1, hh k v]
        constructor
        · rintro (⟨hk, hv⟩ | ⟨_, j, nj, hj, h1, h2, h3, h4⟩)
          · exact ⟨i, _, by omega, hbi, hocc, hk, hv.symm⟩
          · exact ⟨j, nj, by omega, h1, h2, h3, h4⟩
        · rintro ⟨j, nj, hj, h1, h2, h3, h4⟩
          by_cases hji : j = i
          · subst hji
            rw [hbi] at h1
            injection h1 with h1
            subst h1
            exact Or.inl ⟨h3, h4.symm⟩
          · cases hk : old.compare_fn (old.buf[i]).key k with
            | false => exact Or.inr ⟨rfl, j, nj, by omega, h1, h2, h3, h4⟩
            | true =>
              exfalso
              have hvj : visible nj = true :=
                (visible_iff _).mpr ⟨h2, hndo nj (List.mem_iff_getElem?.mpr ⟨j, h1⟩)⟩
              have hvi : visible old.buf[i] = true :=
                (visible_iff _).mpr ⟨hocc, hndo _ (List.mem_iff_getElem?.mpr ⟨i, hbi⟩)⟩
              exact hji (huo j i nj _ h1 hbi hvj hvi (hl.trans _ _ _ h3 (hl.symm _ _ hk)))
    · rw [if_neg hocc] at h
      refine ih (i + 1) nt nt1 (by omega) hf hc hu hnd ?_ h
      intro k v
      rw [hh k v]
      constructor
      · rintro ⟨j, nj, hj, h1, h2, h3, h4⟩
        exact ⟨j, nj, by omega, h1, h2, h3, h4⟩
      · rintro ⟨j, nj, hj, h1, h2, h3, h4⟩
        refine ⟨j, nj, ?_, h1, h2, h3, h4⟩
        by_contra hlt
        have hji : j = i := by omega
        subst hji
        rw [hbi] at h1
        injection h1 with h1
        subst h1
        exact hocc h2

/-- What the table of the handle holds after `mc_hashtable_insert`, on a table
without deleted marks: the update of what it held before, whether or not the call
rebuilt the table. -/
theorem mc_hashtable_insert_holds (table table1 : mc_hashtable K V) (key : Option K)
    (value : Option V) (status : Int)
    (hl : Lawful table._table.compare_fn table._table.hash_fn)
    (hlen : table._table.buf.length = table._table.cap)
    (hchain : Chain table._table) (huniq : Unique table._table)
    (hnd : ∀ node ∈ table._table.buf, node._deleted = false)
    (h : mc_hashtable_insert table key value = .ok (status, table1)) :
    (∀ node ∈ table1._table.buf, node._deleted = false) ∧
    table1._table.compare_fn = table._table.compare_fn ∧
    ∀ k v, Holds table1._table k v ↔
      (table._table.compare_fn key k = true ∧ v = value) ∨
      (table._table.compare_fn key k = false ∧ Holds table._table k v) := by
  unfold mc_hashtable_insert at h
  split at h
  · exact Except.noConfusion h
  · rename_i t hins
    obtain ⟨_, hcap, hlent, hcf, hhf⟩ := _mc_ht_insert_size_cap _ _ _ _ hins
    have hholds := _mc_ht_insert_holds _ _ _ _ hl hchain huniq hnd hins
    have hndt := _mc_ht_insert_no_deleted _ _ _ _ hnd hins
    obtain ⟨hcht, hunt⟩ := _mc_ht_insert_chain_unique _ _ _ _ hl hchain huniq hins
    split_ifs at h
    · injection h with h
      injection h with _ h
      rw [← h]
      exact ⟨hndt, hcf, hholds⟩
    · split at h
      · exact Except.noConfusion h
      · rename_i nt hre
        injection h with h
        injection h with _ h
        rw [← h]
        simp only
        have hzero : ∀ nd ∈ (_mc_ht_new (t.cap * 2) t.compare_fn t.hash_fn : _mc_ht K V).buf,
            nd = zero_node := by
          intro nd hm
          simp only [_mc_ht_new, List.mem_replicate] at hm
          exact hm.2
        obtain ⟨hf1, _, _, hnd1, hh1⟩ := rehash_loop_holds t (by rw [hcf, hhf]; exact hl) hunt
          hndt t.cap 0 (_mc_ht_new (t.cap * 2) t.compare_fn t.hash_fn) nt
          (by rw [Nat.zero_add, hlent, hcap, hlen]) ⟨rfl, rfl⟩
          (_mc_ht_new_chain_unique _ _ _).1 (_mc_ht_new_chain_unique _ _ _).2
          (fun nd hm => by rw [hzero nd hm]; rfl)
          (by
            intro k v
            constructor
            · rintro ⟨i, ni, hni, hocc, _, _⟩
              rw [hzero ni (List.mem_iff_getElem?.mpr ⟨i, hni⟩)] at hocc
              exact Bool.noConfusion hocc
            · rintro ⟨j, _, hj, _⟩
              omega)
          hre
        refine ⟨hnd1, by rw [hf1.1, hcf], ?_⟩
        intro k v
        rw [hh1 k v, ← hholds k v]
        constructor
        · rintro ⟨j, nj, _, h1, h2, h3, h4⟩
          exact ⟨j, nj, h1, h2, h3, h4⟩
        · rintro ⟨j, nj, h1, h2, h3, h4⟩
          refine ⟨j, nj, ?_, h1, h2, h3, h4⟩
          have := (List.getElem?_eq_some_iff.mp h1).1
          omega

/-- On a table without deleted marks whose content is the abstract map `m`,
`mc_hashtable_get` returns the lookup in `m`. -/
theorem mc_hashtable_get_abstract (table : mc_hashtable K V) (key : Option K)
    (hl : Lawful table._table.compare_fn table._table.hash_fn) (hchain : Chain table._table)
    (hnd : ∀ node ∈ table._table.buf, node._deleted = false) (m : AbstractMap K V)
    (habs : ∀ k v, Holds table._table k v ↔ m k = some v) (res : Option V)
    (h : mc_hashtable_get table key = .ok res) : res = abstract_get m key := by
  unfold mc_hashtable_get at h
  split at h
  · exact Except.noConfusion h
  · rename_i r hget
    split at h
    · exact Except.noConfusion h
    · rename_i node hnode
      obtain ⟨node1, hnode1, hstop⟩ := _mc_ht_get_stop _ _ _ hget
      rw [hnode] at hnode1
      injection hnode1 with hnode1
      subst hnode1
      rw [get_cont_false_iff] at hstop
      by_cases hocc : node._occupied = true
      · rw [if_pos hocc] at h
        injection h with h
        have hk : table._table.compare_fn node.key key = true := by
          rcases hstop.2 with h1 | h1
          · rw [hocc] at h1; exact Bool.noConfusion h1
          · exact h1
        have hm := (habs key node.value).mp ⟨r, node, hnode, hocc, hk, rfl⟩
        rw [← h]
        simp only [abstract_get, hm]
      · rw [if_neg hocc] at h
        injection h with h
        rw [← h]
        cases hm : m key with
        | none => simp only [abstract_get, hm]
        | some v =>
          exfalso
          obtain ⟨j, nj, hj, hoj, hcj, _⟩ := (habs key v).mpr hm
          exact lookup_miss_no_visible table._table key hl hchain r node hget hnode
            (by simpa using hocc) j nj hj
            ((visible_iff _).mpr ⟨hoj, hnd nj (List.mem_iff_getElem?.mpr ⟨j, hj⟩)⟩) hcj

/-- A run of inserts from a reachable table without deleted marks whose content is
`m` returns, and leaves a reachable table without deleted marks whose content is
`m` updated by the inserts in order. -/
theorem run_inserts_abstract (cmp_fn : Option K → Option K → Bool) (hash_fn : Option K → Nat)
    (hl : Lawful cmp_fn hash_fn) :
    ∀ (inserts : List (Option K × Option V)) (table : mc_hashtable K V) (m : AbstractMap K V),
      Reachable cmp_fn hash_fn table → (∀ node ∈ table._table.buf, node._deleted = false) →
      (∀ k v, Holds table._table k v ↔ m k = some v) →
      ∃ table1, run_calls (inserts.map (fun kv => Call.insert kv.1 kv.2)) table = .ok table1 ∧
        Reachable cmp_fn hash_fn table1 ∧
        (∀ node ∈ table1._table.buf, node._deleted = false) ∧
        (∀ k v, Holds table1._table k v ↔
          (inserts.foldl (fun m1 kv => abstract_insert cmp_fn m1 kv.1 kv.2) m) k = some v) := by
  intro inserts
  induction inserts with
  | nil =>
    intro table m hr hnd habs
    exact ⟨table, rfl, hr, hnd, habs⟩
  | cons kv rest ih =>
    intro table m hr hnd habs
    have hat := reachable_atRest cmp_fn hash_fn table hr
    obtain ⟨hcf, hhf⟩ := reachable_fns cmp_fn hash_fn table hr
    obtain ⟨hchain, huniq⟩ := reachable_chain_unique cmp_fn hash_fn hl table hr
    obtain ⟨t1, hins, _⟩ := mc_hashtable_insert_ok table kv.1 kv.2 hat
    obtain ⟨hnd1, _, hh1⟩ := mc_hashtable_insert_holds table t1 kv.1 kv.2 0
      (by rw [hcf, hhf]; exact hl) hat.len hchain huniq hnd hins
    obtain ⟨t2, hrun, hr2, hnd2, hh2⟩ := ih t1 (abstract_insert cmp_fn m kv.1 kv.2)
      (Reachable.insert kv.1 kv.2 hr hins) hnd1 (by
        intro k v
        rw [hh1 k v, hcf, habs k v]
        unfold abstract_insert
        cases hk : cmp_fn kv.1 k with
        | true => simp; exact eq_comm
        | false => simp)
    refine ⟨t2, ?_, hr2, hnd2, hh2⟩
    simp only [List.map_cons, run_calls, Call.run, hins]
    exact hrun

/-- The abstract map built by the updates gives every key the value of the last
insert of a key that compares equal, and nothing when there is no such insert. -/
theorem abstract_fold_last (cmp_fn : Option K → Option K → Bool) :
    ∀ (inserts : List (Option K × Option V)) (m : AbstractMap K V) (key : Option K),
      (inserts.foldl (fun m1 kv => abstract_insert cmp_fn m1 kv.1 kv.2) m) key
        = match last_insert cmp_fn inserts key with
          | some value => some value
          | none => m key := by
  intro inserts
  induction inserts with
  | nil => intro m key; rfl
  | cons kv rest ih =>
    intro m key
    rw [List.foldl_cons, ih]
    unfold last_insert
    rw [List.reverse_cons, List.find?_append]
    cases hf : rest.reverse.find? (fun kv1 => cmp_fn kv1.1 key) with
    | some kv1 => rfl
    | none =>
      simp only [Option.map_none', Option.none_or, List.find?_cons, List.find?_nil]
      unfold abstract_insert
      cases hk : cmp_fn kv.1 key with
      | true => simp
      | false => simp

theorem abstract_of_inserts_last (cmp_fn : Option K → Option K → Bool)
    (inserts : List (Option K × Option V)) (key : Option K) :
    abstract_of_inserts cmp_fn inserts key = last_insert cmp_fn inserts key := by
  unfold abstract_of_inserts
  rw [abstract_fold_last]
  cases last_insert cmp_fn inserts key with
  | some value => rfl
  | none => rfl

/-- C18: with lawful callbacks, every finite sequence of `mc_hashtable_insert` calls
applied to `mc_hashtable_new` with `cap >= 1` returns, and on the final handle
`mc_hashtable_get` of every key is the lookup of the key in the abstract map built
by applying the same inserts as map updates, which is the value of the last insert
of a key that compares equal, and absent (`NULL`) when there was none. -/
theorem C18_inserts_refine_map (cmp_fn : Option K → Option K → Bool)
    (hash_fn : Option K → Nat) (hl : Lawful cmp_fn hash_fn) (cap : Nat) (hcap : 1 ≤ cap)
    (inserts : List (Option K × Option V)) :
    ∃ table1, run_calls (inserts.map (fun kv => Call.insert kv.1 kv.2))
        (mc_hashtable_new cap cmp_fn hash_fn) = .ok table1 ∧
      ∀ key,
        mc_hashtable_get table1 key
          = .ok (abstract_get (abstract_of_inserts cmp_fn inserts) key) ∧
        abstract_of_inserts cmp_fn inserts key = last_insert cmp_fn inserts key := by
  have hzero : ∀ nd ∈ (mc_hashtable_new cap cmp_fn hash_fn : mc_hashtable K V)._table.buf,
      nd = zero_node := by
    intro nd hm
    simp only [mc_hashtable_new, _mc_ht_new, List.mem_replicate] at hm
    exact hm.2
  obtain ⟨table1, hrun, hr1, hnd1, hh1⟩ := run_inserts_abstract cmp_fn hash_fn hl inserts
    (mc_hashtable_new cap cmp_fn hash_fn) abstract_empty (Reachable.new cap hcap)
    (fun nd hm => by rw [hzero nd hm]; rfl) (by
      intro k v
      constructor
      · rintro ⟨i, ni, hni, hocc, _, _⟩
        rw [hzero ni (List.mem_iff_getElem?.mpr ⟨i, hni⟩)] at hocc
        exact Bool.noConfusion hocc
      · intro h
        simp [abstract_empty] at h)
  refine ⟨table1, hrun, ?_⟩
  intro key
  refine ⟨?_, abstract_of_inserts_last cmp_fn inserts key⟩
  obtain ⟨hcf, hhf⟩ := reachable_fns cmp_fn hash_fn table1 hr1
  obtain ⟨res, hres⟩ := mc_hashtable_get_ok table1 key (reachable_atRest cmp_fn hash_fn _ hr1)
  rw [hres]
  congr 1
  exact mc_hashtable_get_abstract table1 key (by rw [hcf, hhf]; exact hl)
    (reachable_chain_unique cmp_fn hash_fn hl table1 hr1).1 hnd1
    (abstract_of_inserts cmp_fn inserts) hh1 res hres

/-- C18 at five inserts into a table of capacity 1, with keys 1 and 9 inserted twice:
the table is rebuilt several times, and the lookups agree with the abstract map. -/
theorem C18_inserts_refine_map_witness :
    Lawful nat_eq nat_hash ∧
    (∃ table1, run_calls
        ([(some 1, some 10), (some 9, some 20), (some 1, some 11), (some 2, some 30),
          (some 9, some 21)].map (fun kv => Call.insert kv.1 kv.2))
        (mc_hashtable_new 1 nat_eq nat_hash) = .ok table1 ∧
      ∀ key,
        mc_hashtable_get table1 key
          = .ok (abstract_get (abstract_of_inserts nat_eq
              [(some 1, some 10), (some 9, some 20), (some 1, some 11), (some 2, some 30),
               (some 9, some 21)]) key) ∧
        abstract_of_inserts nat_eq
            [(some 1, some 10), (some 9, some 20), (some 1, some 11), (some 2, some 30),
             (some 9, some 21)] key
          = last_insert nat_eq
            [(some 1, some 10), (some 9, some 20), (some 1, some 11), (some 2, some 30),
             (some 9, some 21)] key) ∧
    get_after [.insert (some 1) (some 10), .insert (some 9) (some 20),
               .insert (some 1) (some 11), .insert (some 2) (some 30),
               .insert (some 9) (some 21)]
      (mc_hashtable_new 1 nat_eq nat_hash) (some 9) = .ok (some 21) ∧
    get_after [.insert (some 1) (some 10), .insert (some 9) (some 20),
               .insert (some 1) (some 11), .insert (some 2) (some 30),
               .insert (some 9) (some 21)]
      (mc_hashtable_new 1 nat_eq nat_hash) (some 5) = .ok none ∧
    cap_after [.insert (some 1) (some 10), .insert (some 9) (some 20),
               .insert (some 1) (some 11), .insert (some 2) (some 30),
               .insert (some 9) (some 21)]
      (mc_hashtable_new 1 nat_eq nat_hash) = .ok 16 :=
  ⟨nat_lawful,
   C18_inserts_refine_map nat_eq nat_hash nat_lawful 1 (by decide)
     [(some 1, some 10), (some 9, some 20), (some 1, some 11), (some 2, some 30),
      (some 9, some 21)],
   rfl, rfl, rfl⟩

end MC
